import Mathlib

/-!
# Text RPG (`text_rpg.go`): a shallow embedding of the game state machine

The Go program keeps its whole state in four package-level variables
(`player`, `rooms`, `currentRoom`, `gameRunning`).  Here they are the four
fields of `Game`, and every procedure of the source becomes a function on
`Game`.

Modelling conventions.

* Go `int` is the 64-bit two's complement integer.  A field of type `int`
  is an `Int`, and every addition, subtraction and multiplication of the
  source is followed by `wrap64`, which brings the exact result back into
  `-2^63 .. 2^63 - 1` as the machine does.  `fits64 x` says that the exact
  result `x` is already in that range, i.e. that the operation does not
  overflow.
* Go `string` is modelled by `String`, i.e. by well-formed Unicode text;
  `strings.Contains`, `strings.Split` and `strings.Join` are modelled on the
  list of characters.  `strings.ToLower` belongs to the Go standard library
  and its case table is not part of the repository: it is a parameter
  `lower` of the functions that use it.
* `rand.Intn(n)` is modelled by an explicit draw in `0 .. n-1` supplied by
  the caller (`Draws`).
* A run-time panic (index out of range, nil dereference) is the result
  `none`.
* Printing has no effect on the state and is left out.
-/

namespace TextRpg

/-! ## Data model -/

/-- The player (`type Character struct`). -/
structure Character where
  Name : String
  Health : Int
  MaxHealth : Int
  Attack : Int
  Defense : Int
  Level : Int
  Experience : Int
  Inventory : List String
deriving DecidableEq, Repr

/-- A monster (`type Monster struct`). -/
structure Monster where
  Name : String
  Health : Int
  Attack : Int
  Defense : Int
  Reward : Int
deriving DecidableEq, Repr

/-- A room (`type Room struct`).  The Go map `Exits` is an association list
looked up by key; the pointer `Monster *Monster` is an optional monster owned
by the room (`none` is the nil pointer). -/
structure Room where
  Description : String
  Exits : List (String × Int)
  HasMonster : Bool
  Monster : Option Monster
  HasTreasure : Bool
  Treasure : String
  Visited : Bool
deriving DecidableEq, Repr

/-- The global variables of the program. -/
structure Game where
  player : Character
  rooms : List Room
  currentRoom : Int
  gameRunning : Bool
deriving DecidableEq, Repr

/-- The random draws one command may consume, one field per call of
`rand.Intn` in the source. -/
structure Draws where
  /-- the draw `rand.Intn(10)` of `move` -/
  event : Nat
  /-- the draw `rand.Intn(len(events))` of `randomEvent` -/
  eventIdx : Nat
  /-- the draw `rand.Intn(10)` of the player's strike in `attack` -/
  hit : Nat
  /-- the draw `rand.Intn(3)` deciding whether there is loot -/
  loot : Nat
  /-- the draw `rand.Intn(len(loot))` choosing the loot -/
  item : Nat
  /-- the draw `rand.Intn(8)` of the monster's counterattack -/
  counter : Nat
deriving DecidableEq, Repr

/-- Every draw lies in the range of its `rand.Intn` call. -/
def Draws.valid (d : Draws) : Prop :=
  d.event < 10 ∧ d.eventIdx < 5 ∧ d.hit < 10 ∧ d.loot < 3 ∧ d.item < 3 ∧ d.counter < 8

instance (d : Draws) : Decidable d.valid := by
  unfold Draws.valid; exact inferInstance

/-! ## String helpers -/

/-- Substring test on character lists (`strings.Contains`). -/
def containsChars : List Char → List Char → Bool
  | [], sub => sub.isEmpty
  | c :: cs, sub => sub.isPrefixOf (c :: cs) || containsChars cs sub

/-- The call `strings.Contains(s, substr)`. -/
def contains (s substr : String) : Bool :=
  containsChars s.data substr.data

/-- Splitting a character list at every occurrence of `sep`. -/
def splitChars (sep : Char) : List Char → List (List Char)
  | [] => [[]]
  | c :: cs =>
    if c = sep then [] :: splitChars sep cs
    else
      match splitChars sep cs with
      | [] => [[c]]
      | w :: ws => (c :: w) :: ws

/-- The call `strings.Split(s, " ")`. -/
def splitSpace (s : String) : List String :=
  (splitChars ' ' s.data).map String.mk

/-- The call `strings.Join(parts, " ")`. -/
def joinSpace (parts : List String) : String :=
  String.intercalate " " parts

/-- A lower-casing function on the alphabet of the game: ASCII and basic
Cyrillic capitals are mapped to their small letters, every other character is
kept.  It is used to evaluate the model on concrete inputs. -/
def lowerRune (c : Char) : Char :=
  if 0x41 ≤ c.toNat ∧ c.toNat ≤ 0x5A then Char.ofNat (c.toNat + 0x20)
  else if 0x410 ≤ c.toNat ∧ c.toNat ≤ 0x42F then Char.ofNat (c.toNat + 0x20)
  else if 0x400 ≤ c.toNat ∧ c.toNat ≤ 0x40F then Char.ofNat (c.toNat + 0x50)
  else c

/-- Lower-casing of a string, character by character, with `lowerRune`. -/
def lowerText (s : String) : String :=
  String.mk (s.data.map lowerRune)

/-! ## Initial state -/

/-- The state built by `initGame`. -/
def initGame : Game :=
  { player :=
      { Name := "Герой", Health := 100, MaxHealth := 100, Attack := 20, Defense := 10,
        Level := 1, Experience := 0, Inventory := ["Зелье здоровья", "Хлеб"] }
    rooms :=
      [ { Description := "🏛️ Вы находитесь в древнем храме. Каменные колонны поддерживают высокий потолок."
          Exits := [("север", 1), ("восток", 2)]
          HasMonster := false, Monster := none
          HasTreasure := true, Treasure := "Старинный ключ", Visited := false },
        { Description := "🌲 Темный лес окружает вас. Слышны странные звуки."
          Exits := [("юг", 0), ("север", 3)]
          HasMonster := true
          Monster := some { Name := "Лесной волк", Health := 30, Attack := 15, Defense := 5, Reward := 25 }
          HasTreasure := false, Treasure := "", Visited := false },
        { Description := "🏰 Заброшенная башня возвышается перед вами."
          Exits := [("запад", 0), ("север", 4)]
          HasMonster := false, Monster := none
          HasTreasure := true, Treasure := "Магический свиток", Visited := false },
        { Description := "⛰️ Горная пещера. Капли эхом отдаются в темноте."
          Exits := [("юг", 1)]
          HasMonster := true
          Monster := some { Name := "Пещерный тролль", Health := 50, Attack := 25, Defense := 8, Reward := 50 }
          HasTreasure := false, Treasure := "", Visited := false },
        { Description := "🏺 Сокровищница! Золото блестит в лучах света."
          Exits := [("юг", 2)]
          HasMonster := false, Monster := none
          HasTreasure := true, Treasure := "Золотой меч (+10 атака)", Visited := false } ]
    currentRoom := 0
    gameRunning := true }

/-! ## Machine integers -/

/-- The value a Go `int` holds after an operation whose exact result is `x`:
`x` reduced modulo `2^64` into the range `-2^63 .. 2^63 - 1`. -/
def wrap64 (x : Int) : Int :=
  (x + 9223372036854775808) % 18446744073709551616 - 9223372036854775808

/-- The exact result `x` is an `int` value, so the operation yielding it does
not overflow. -/
def fits64 (x : Int) : Prop :=
  -9223372036854775808 ≤ x ∧ x < 9223372036854775808

instance (x : Int) : Decidable (fits64 x) := by
  unfold fits64; exact inferInstance

/-! ## Operations -/

/-- The element `rooms[i]`; `none` is the index-out-of-range panic. -/
def roomAt (rooms : List Room) (i : Int) : Option Room :=
  if i < 0 then none else rooms[i.toNat]?

/-- Writing through the pointer `&rooms[currentRoom]`. -/
def Game.setRoom (g : Game) (room : Room) : Game :=
  { g with rooms := g.rooms.set g.currentRoom.toNat room }

/-- The procedure `showRoom`: the first display of a room marks it visited
and grants 5 experience.  The monster line reads `room.Monster.Health` when
`HasMonster` is set, which panics on a nil monster. -/
def showRoom (g : Game) : Option Game :=
  match roomAt g.rooms g.currentRoom with
  | none => none
  | some room =>
    let g1 : Game :=
      if room.Visited = false then
        { (g.setRoom { room with Visited := true }) with
          player := { g.player with Experience := wrap64 (g.player.Experience + 5) } }
      else g
    if room.HasMonster = true then
      match room.Monster with
      | none => none
      | some _ => some g1
    else some g1

/-- The narrative events of `randomEvent`. -/
def events : List String :=
  [ "Вы нашли немного золота!",
    "Странный торговец предлагает зелье здоровья.",
    "Вы чувствуете магическую энергию в воздухе.",
    "Холодный ветер пробирает до костей.",
    "Вы слышите далекий рев дракона." ]

/-- Appending one item to the inventory (`append(player.Inventory, item)`). -/
def Game.addItem (g : Game) (item : String) : Game :=
  { g with player := { g.player with Inventory := g.player.Inventory ++ [item] } }

/-- The procedure `randomEvent` with the draw `e` for `rand.Intn(len(events))`. -/
def randomEvent (g : Game) (e : Nat) : Option Game :=
  match events[e]?, events[0]?, events[1]? with
  | some event, some e0, some e1 =>
    if event = e0 then some (g.addItem "Золото")
    else if event = e1 then some (g.addItem "Зелье здоровья")
    else some g
  | _, _, _ => none

/-- The procedure `move`. -/
def move (g : Game) (direction : String) (d : Draws) : Option Game :=
  match roomAt g.rooms g.currentRoom with
  | none => none
  | some room =>
    match room.Exits.lookup direction with
    | some nextRoom =>
      if room.HasMonster = true then
        match room.Monster with
        | none => none
        | some monster =>
          if monster.Health > 0 then some g
          else
            let g1 : Game := { g with currentRoom := nextRoom }
            if d.event < 2 then randomEvent g1 d.eventIdx else some g1
      else
        let g1 : Game := { g with currentRoom := nextRoom }
        if d.event < 2 then randomEvent g1 d.eventIdx else some g1
    | none => some g

/-- The damage computation shared by both strikes of `attack`:
`attack + draw - defense`, evaluated from left to right in machine integers,
replaced by 0 when negative. -/
def strikeDamage (attackStat : Int) (draw : Nat) (defenseStat : Int) : Int :=
  let damage := wrap64 (wrap64 (attackStat + (draw : Int)) - defenseStat)
  if damage < 0 then 0 else damage

/-- The loot table of `attack`. -/
def lootTable : List String := ["Зелье здоровья", "Золото", "Зелье силы"]

/-- The procedure `attack`. -/
def attack (g : Game) (d : Draws) : Option Game :=
  match roomAt g.rooms g.currentRoom with
  | none => none
  | some room =>
    if room.HasMonster = false then some g
    else
      match room.Monster with
      | none => none
      | some monster =>
        if monster.Health ≤ 0 then some g
        else
          let damage := strikeDamage g.player.Attack d.hit monster.Defense
          let monster1 : Monster := { monster with Health := wrap64 (monster.Health - damage) }
          let g1 : Game := g.setRoom { room with Monster := some monster1 }
          if monster1.Health ≤ 0 then
            let g2 : Game :=
              { g1 with player := { g1.player with
                  Experience := wrap64 (g1.player.Experience + monster1.Reward) } }
            if d.loot = 0 then
              match lootTable[d.item]? with
              | none => none
              | some item => some (g2.addItem item)
            else some g2
          else
            let monsterDamage := strikeDamage monster1.Attack d.counter g1.player.Defense
            let g2 : Game :=
              { g1 with player := { g1.player with
                  Health := wrap64 (g1.player.Health - monsterDamage) } }
            if g2.player.Health ≤ 0 then some { g2 with gameRunning := false }
            else some g2

/-- The procedure `takeTreasure`. -/
def takeTreasure (g : Game) : Option Game :=
  match roomAt g.rooms g.currentRoom with
  | none => none
  | some room =>
    if room.HasTreasure = false then some g
    else
      let g1 : Game :=
        if contains room.Treasure "Золотой меч" = true then
          { g with player := { g.player with Attack := wrap64 (g.player.Attack + 10) } }
        else g
      let g2 : Game := g1.addItem room.Treasure
      some (g2.setRoom { room with HasTreasure := false, Treasure := "" })

/-- Raising health by `heal`, capped at `MaxHealth`
(`player.Health += heal; if player.Health > player.MaxHealth ...`). -/
def Character.heal (p : Character) (heal : Int) : Character :=
  let p1 : Character := { p with Health := wrap64 (p.Health + heal) }
  if p1.Health > p1.MaxHealth then { p1 with Health := p1.MaxHealth } else p1

/-- Removing the entry at index `i` of the inventory
(`append(player.Inventory[:i], player.Inventory[i+1:]...)`). -/
def Character.removeAt (p : Character) (i : Nat) : Character :=
  { p with Inventory := p.Inventory.take i ++ p.Inventory.drop (i + 1) }

/-- The `switch` of `useItem` on the matched entry `item` found at index `i`:
the first rule whose text the entry contains is applied and the entry is
removed; with no rule (`default`) the procedure returns without change. -/
def applyItem (p : Character) (item : String) (i : Nat) : Character :=
  if contains item "Зелье здоровья" = true then (p.heal 30).removeAt i
  else if contains item "Зелье силы" = true then
    Character.removeAt { p with Attack := wrap64 (p.Attack + 5) } i
  else if contains item "Хлеб" = true then (p.heal 10).removeAt i
  else p

/-- The loop of `useItem` from index `i` on, `items` being the entries of the
inventory not yet inspected.  The first entry whose lower-cased text contains
the lower-cased name goes through the `switch` and the procedure returns;
when the loop runs out the player is unchanged. -/
def useItemLoop (lower : String → String) (p : Character) (itemName : String) :
    List String → Nat → Character
  | [], _ => p
  | item :: rest, i =>
    if contains (lower item) (lower itemName) = true then applyItem p item i
    else useItemLoop lower p itemName rest (i + 1)

/-- The procedure `useItem`. -/
def useItem (lower : String → String) (g : Game) (itemName : String) : Game :=
  { g with player := useItemLoop lower g.player itemName g.player.Inventory 0 }

/-- The procedure `checkLevelUp`: a single `if`. -/
def checkLevelUp (g : Game) : Game :=
  let requiredExp := wrap64 (g.player.Level * 100)
  if g.player.Experience ≥ requiredExp then
    { g with player :=
        { g.player with
          Level := wrap64 (g.player.Level + 1)
          MaxHealth := wrap64 (g.player.MaxHealth + 20)
          Health := wrap64 (g.player.MaxHealth + 20)
          Attack := wrap64 (g.player.Attack + 5)
          Defense := wrap64 (g.player.Defense + 2)
          Experience := wrap64 (g.player.Experience - requiredExp) } }
  else g

/-- The procedures `showInventory`, `showStatus` and `showHelp` only print. -/
def showInventory (g : Game) : Game := g

/-- See `showInventory`. -/
def showStatus (g : Game) : Game := g

/-- See `showInventory`. -/
def showHelp (g : Game) : Game := g

/-- The `switch` of `processCommand` on the first word `action` of the
command; `parts` are all its words. -/
def dispatch (lower : String → String) (g : Game) (action : String) (parts : List String)
    (d : Draws) : Option Game :=
  if action = "север" ∨ action = "юг" ∨ action = "восток" ∨ action = "запад" then
    move g action d
  else if action = "атака" ∨ action = "бить" then attack g d
  else if action = "взять" then takeTreasure g
  else if action = "инвентарь" ∨ action = "inv" then some (showInventory g)
  else if action = "использовать" then
    if parts.length > 1 then some (useItem lower g (joinSpace (parts.drop 1)))
    else some g
  else if action = "статус" then some (showStatus g)
  else if action = "помощь" ∨ action = "help" then some (showHelp g)
  else if action = "выход" ∨ action = "quit" then some { g with gameRunning := false }
  else some g

/-- The procedure `processCommand`: split the command at spaces, dispatch on
`parts[0]`, then run `checkLevelUp`. -/
def processCommand (lower : String → String) (g : Game) (command : String) (d : Draws) :
    Option Game :=
  let parts := splitSpace command
  match parts[0]? with
  | none => none
  | some action =>
    match dispatch lower g action parts d with
    | none => none
    | some g1 => some (checkLevelUp g1)

/-- The states the program can be in between two steps: the initial state,
and every state obtained from one of them by a `showRoom` or by a
`processCommand` on any command line with draws in range. -/
inductive Reachable (lower : String → String) : Game → Prop
  | init : Reachable lower initGame
  | display {g g1 : Game} : Reachable lower g → showRoom g = some g1 → Reachable lower g1
  | command {g g1 : Game} (command : String) (d : Draws) :
      Reachable lower g → d.valid → processCommand lower g command d = some g1 →
      Reachable lower g1

/-! ## The invariant of the fixed world -/

/-- The part of a room that no operation writes: its exits, its monster flag
and the attack, defense and reward of its monster. -/
def Room.fixedPart (r : Room) : List (String × Int) × Bool × Option (Int × Int × Int) :=
  (r.Exits, r.HasMonster, r.Monster.map fun m => (m.Attack, m.Defense, m.Reward))

/-- The health of the monster of room `i` (0 when there is none). -/
def monsterHealth (rooms : List Room) (i : Nat) : Int :=
  match rooms[i]? with
  | some room =>
    match room.Monster with
    | some m => m.Health
    | none => 0
  | none => 0

/-- An upper bound on the number of counterattacks a monster of health `h`
can still deliver when every strike of the player takes at least `minDamage`
from it. -/
def blowsLeft (h minDamage : Int) : Int :=
  if h ≤ 0 then 0 else (h - 1) / minDamage

/-- The most health the two monsters of the world can still take from the
player: the wolf (room 1) loses at least 15 per strike and deals at most 12,
the troll (room 3) loses at least 12 per strike and deals at most 22. -/
def threat (rooms : List Room) : Int :=
  12 * blowsLeft (monsterHealth rooms 1) 15 + 22 * blowsLeft (monsterHealth rooms 3) 12

/-- The invariant of the world built by `initGame`. -/
structure WorldInv (g : Game) : Prop where
  fixed : g.rooms.map Room.fixedPart = initGame.rooms.map Room.fixedPart
  posLower : 0 ≤ g.currentRoom
  posUpper : g.currentRoom < 5
  wolf : monsterHealth g.rooms 1 ≤ 30
  troll : monsterHealth g.rooms 3 ≤ 50
  attackLower : 20 ≤ g.player.Attack
  defenseLower : 10 ≤ g.player.Defense
  maxHealthLower : 100 ≤ g.player.MaxHealth
  healthUpper : g.player.Health ≤ g.player.MaxHealth
  healthLower : threat g.rooms ≤ g.player.Health

/-! ## Sample states -/

/-- The initial world with the player standing in the forest (room 1), in
front of the wolf. -/
def forestGame : Game := { initGame with currentRoom := 1 }

/-- The forest with the wolf already wounded, down to 10 health. -/
def woundedWolfGame : Game :=
  forestGame.setRoom
    { Description := "🌲 Темный лес окружает вас. Слышны странные звуки."
      Exits := [("юг", 0), ("север", 3)]
      HasMonster := true
      Monster := some { Name := "Лесной волк", Health := 10, Attack := 15, Defense := 5, Reward := 25 }
      HasTreasure := false, Treasure := "", Visited := true }

/-- The forest with the wolf defeated, its health driven to -9. -/
def deadWolfGame : Game :=
  forestGame.setRoom
    { Description := "🌲 Темный лес окружает вас. Слышны странные звуки."
      Exits := [("юг", 0), ("север", 3)]
      HasMonster := true
      Monster := some { Name := "Лесной волк", Health := -9, Attack := 15, Defense := 5, Reward := 25 }
      HasTreasure := false, Treasure := "", Visited := true }

/-- The state after the commands "север" (no random event) and "атака"
(strike draw 0, counterattack draw 7) typed at the start of the game: the
wolf is down to 15 health and the player to 88. -/
def firstBloodGame : Game :=
  { forestGame with
    player := { initGame.player with Health := 88 }
    rooms := initGame.rooms.set 1
      { Description := "🌲 Темный лес окружает вас. Слышны странные звуки."
        Exits := [("юг", 0), ("север", 3)]
        HasMonster := true
        Monster := some { Name := "Лесной волк", Health := 15, Attack := 15, Defense := 5, Reward := 25 }
        HasTreasure := false, Treasure := "", Visited := false } }

/-- No operation of a level-up of the player `p` overflows: the requirement
`level * 100` and the new level, maxHealth, attack, defense and experience
are `int` values. -/
def LevelUpFits (p : Character) : Prop :=
  fits64 (p.Level * 100) ∧ fits64 (p.Level + 1) ∧ fits64 (p.MaxHealth + 20) ∧
  fits64 (p.Attack + 5) ∧ fits64 (p.Defense + 2) ∧ fits64 (p.Experience - p.Level * 100)

instance (p : Character) : Decidable (LevelUpFits p) := by
  unfold LevelUpFits; exact inferInstance

/-! ## The Progression Rule as specified -/

/-- The Progression Rule in the words of the specification (§4.5): while the
experience reaches the requirement `level * 100`, raise level by 1, maxHealth
by 20, reset health to full, raise attack by 5 and defense by 2, take the
requirement off the experience, and check again against the new level.
`fuel` bounds the number of rounds. -/
def progressionRuleLoop : Nat → Character → Character
  | 0, p => p
  | fuel + 1, p =>
    if p.Experience ≥ p.Level * 100 then
      progressionRuleLoop fuel
        { p with
          Level := p.Level + 1
          MaxHealth := p.MaxHealth + 20
          Health := p.MaxHealth + 20
          Attack := p.Attack + 5
          Defense := p.Defense + 2
          Experience := p.Experience - p.Level * 100 }
    else p

/-- The specified Progression Rule on a game state.  From level 1 on every
round takes at least 100 experience, so `experience + 1` rounds are enough
for the loop to run to its end. -/
def progressionRuleSpec (g : Game) : Game :=
  { g with player := progressionRuleLoop (g.player.Experience.toNat + 1) g.player }

/-- The initial state with 300 experience: two level-ups are owed (100 for
level 1, 200 for level 2). -/
def veteranGame : Game :=
  { initGame with player := { initGame.player with Experience := 300 } }

/-! ## What no operation takes back -/

/-- The relation between a state `g` and a later state `g1` that every
operation respects: a room that was visited is still there and visited, and
a stopped session is still stopped. -/
structure Keeps (g g1 : Game) : Prop where
  visited : ∀ (i : Nat) (r : Room), g.rooms[i]? = some r → r.Visited = true →
    ∃ r1, g1.rooms[i]? = some r1 ∧ r1.Visited = true
  stopped : g.gameRunning = false → g1.gameRunning = false

/-- The state `g1` is the result of one operation of the program on `g`: one
of `showRoom`, `move`, `attack`, `takeTreasure`, `useItem`, `checkLevelUp`
and `processCommand`, on any argument and with any draws. -/
def Operation (lower : String → String) (g g1 : Game) : Prop :=
  showRoom g = some g1 ∨ (∃ direction d, move g direction d = some g1) ∨
  (∃ d, attack g d = some g1) ∨ takeTreasure g = some g1 ∨
  (∃ itemName, useItem lower g itemName = g1) ∨ checkLevelUp g = g1 ∨
  (∃ command d, processCommand lower g command d = some g1)

/-- The verbs that the `switch` of `processCommand` knows. -/
def knownVerbs : List String :=
  ["север", "юг", "восток", "запад", "атака", "бить", "взять", "инвентарь", "inv",
   "использовать", "статус", "помощь", "help", "выход", "quit"]

/-! ## Item removal with the bounds checks of Go slices -/

/-- The slice `s[:i]`; `none` is the slice-bounds panic.  Go allows `i` up to
the capacity of `s`; the check here is against the length, which is the
stricter one. -/
def sliceTo (s : List String) (i : Nat) : Option (List String) :=
  if i ≤ s.length then some (s.take i) else none

/-- The slice `s[i:]`; `none` is the slice-bounds panic (`i > len(s)`). -/
def sliceFrom (s : List String) (i : Nat) : Option (List String) :=
  if i ≤ s.length then some (s.drop i) else none

/-- The removal `append(player.Inventory[:i], player.Inventory[i+1:]...)`
with both slice expressions checked. -/
def Character.removeAtChecked (p : Character) (i : Nat) : Option Character :=
  match sliceTo p.Inventory i, sliceFrom p.Inventory (i + 1) with
  | some front, some back => some { p with Inventory := front ++ back }
  | _, _ => none

/-- The `switch` of `useItem` with the checked removal. -/
def applyItemChecked (p : Character) (item : String) (i : Nat) : Option Character :=
  if contains item "Зелье здоровья" = true then (p.heal 30).removeAtChecked i
  else if contains item "Зелье силы" = true then
    Character.removeAtChecked { p with Attack := wrap64 (p.Attack + 5) } i
  else if contains item "Хлеб" = true then (p.heal 10).removeAtChecked i
  else some p

/-- The loop of `useItem` with the checked removal. -/
def useItemLoopChecked (lower : String → String) (p : Character) (itemName : String) :
    List String → Nat → Option Character
  | [], _ => some p
  | item :: rest, i =>
    if contains (lower item) (lower itemName) = true then applyItemChecked p item i
    else useItemLoopChecked lower p itemName rest (i + 1)

/-- The procedure `useItem` with the checked removal. -/
def useItemChecked (lower : String → String) (g : Game) (itemName : String) : Option Game :=
  match useItemLoopChecked lower g.player itemName g.player.Inventory 0 with
  | some p => some { g with player := p }
  | none => none

/-! ## The command loop -/

/-- The loop `for gameRunning { showRoom(); if scanner.Scan() { ... } }` of
`main` on the input lines still to come, each with the draws its command may
consume.  While the session is active the room is shown, the next line is
read, trimmed, lower-cased and processed; the result is the state in which
the loop has ended or waits for a line that does not come.  `trim` stands
for `strings.TrimSpace` of the Go library. -/
def mainLoop (lower trim : String → String) : Game → List (String × Draws) → Option Game
  | g, [] => if g.gameRunning = true then showRoom g else some g
  | g, (line, d) :: rest =>
    if g.gameRunning = true then
      match showRoom g with
      | none => none
      | some g1 =>
        match processCommand lower g1 (lower (trim line)) d with
        | none => none
        | some g2 => mainLoop lower trim g2 rest
    else some g

/-- A trimming function for evaluating the loop on concrete lines: white
space is removed at both ends. -/
def trimText (s : String) : String :=
  String.mk ((s.data.dropWhile Char.isWhitespace).reverse.dropWhile Char.isWhitespace).reverse

/-- The initial state after the first display of the temple and the command
"выход": the temple is visited, 5 experience is earned and the session is
over. -/
def quitGame : Game :=
  { initGame with
    player := { initGame.player with Experience := 5 }
    rooms := initGame.rooms.set 0
      { Description := "🏛️ Вы находитесь в древнем храме. Каменные колонны поддерживают высокий потолок."
        Exits := [("север", 1), ("восток", 2)]
        HasMonster := false, Monster := none
        HasTreasure := true, Treasure := "Старинный ключ", Visited := true }
    gameRunning := false }

/-- The state after "север", "атака" (strike draw 0, counterattack draw 7)
and "атака" (strike draw 9, no loot) typed at the start of the game: the
second strike takes 24 from the 15 health the wolf had left. -/
def slainWolfGame : Game :=
  { forestGame with
    player := { initGame.player with Health := 88, Experience := 25 }
    rooms := initGame.rooms.set 1
      { Description := "🌲 Темный лес окружает вас. Слышны странные звуки."
        Exits := [("юг", 0), ("север", 3)]
        HasMonster := true
        Monster := some { Name := "Лесной волк", Health := -9, Attack := 15, Defense := 5, Reward := 25 }
        HasTreasure := false, Treasure := "", Visited := false } }

/-- Every monster is alive, or its health lies below 1 by less than the
largest strike `attack + 9 - defense` of the player as he is now. -/
def OvershootInv (g : Game) : Prop :=
  ∀ (i : Nat) (room : Room) (m : Monster), g.rooms[i]? = some room → room.Monster = some m →
    0 < m.Health ∨ 1 ≤ m.Health + (g.player.Attack + 9 - m.Defense)

/-! ## The experience still to be earned -/

/-- The exploration bonus still to be earned in room `i`: 5 while the room
has not been displayed. -/
def visitBonus (rooms : List Room) (i : Nat) : Int :=
  match rooms[i]? with
  | some room => if room.Visited = true then 0 else 5
  | none => 0

/-- The reward still to be earned from a monster of health `h`. -/
def bounty (h reward : Int) : Int :=
  if 0 < h then reward else 0

/-- The experience that the fixed world can still grant: the exploration
bonus of each of its five rooms not yet displayed, 25 for the wolf of room 1
and 50 for the troll of room 3 while they live. -/
def potential (rooms : List Room) : Int :=
  visitBonus rooms 0 + visitBonus rooms 1 + visitBonus rooms 2 + visitBonus rooms 3 +
    visitBonus rooms 4 + bounty (monsterHealth rooms 1) 25 + bounty (monsterHealth rooms 3) 50

/-- The ledger of the fixed world: the experience consumed by the level-ups
so far (100 for level 2), the experience held and the experience still to be
earned never exceed 100 together. -/
structure LedgerInv (g : Game) : Prop where
  levelLower : 1 ≤ g.player.Level
  experienceLower : 0 ≤ g.player.Experience
  total : (g.player.Level - 1) * 100 + g.player.Experience + potential g.rooms ≤ 100

/-! ## The attack still to be gained -/

/-- The entry is one that the `switch` of `useItem` treats as a strength
potion: it contains "Зелье силы" and not "Зелье здоровья", whose rule comes
first. -/
def isStrength (item : String) : Bool :=
  !contains item "Зелье здоровья" && contains item "Зелье силы"

/-- The number of strength potions in an inventory. -/
def strengthCount (inventory : List String) : Int :=
  (inventory.countP isStrength : Nat)

/-- The attack that the treasure of room `i` can still bring: 10 for a
treasure containing "Золотой меч", 5 for one that is a strength potion. -/
def roomArsenal (rooms : List Room) (i : Nat) : Int :=
  match rooms[i]? with
  | some room =>
    if room.HasTreasure = true then
      (if contains room.Treasure "Золотой меч" = true then 10 else 0) +
        (if isStrength room.Treasure = true then 5 else 0)
    else 0
  | none => 0

/-- The attack that the rooms can still grant: the treasures of the five
rooms and 5 for the loot of each living monster (a strength potion at
best). -/
def worldArsenal (rooms : List Room) : Int :=
  roomArsenal rooms 0 + roomArsenal rooms 1 + roomArsenal rooms 2 + roomArsenal rooms 3 +
    roomArsenal rooms 4 + bounty (monsterHealth rooms 1) 5 + bounty (monsterHealth rooms 3) 5

/-- The attack that the fixed world can still grant to the player: 5 for each
strength potion held, what the rooms can still grant and 5 for the level-up
from level 1. -/
def arsenal (g : Game) : Int :=
  5 * strengthCount g.player.Inventory + worldArsenal g.rooms + 5 * (2 - g.player.Level)

/-- The bounds that keep the stats of the fixed world small: maxHealth and
defense follow the level, and the attack held together with the attack still
to be gained never exceeds 45. -/
structure ArsenalInv (g : Game) : Prop where
  maxHealthLink : g.player.MaxHealth = 80 + 20 * g.player.Level
  defenseLink : g.player.Defense = 8 + 2 * g.player.Level
  total : g.player.Attack + arsenal g ≤ 45

/-- The invariant of the reachable states: the world, the ledger of
experience and the bounds on the stats.  With it every sum of the program is
far from overflow. -/
structure GameInv (g : Game) : Prop where
  world : WorldInv g
  ledger : LedgerInv g
  stats : ArsenalInv g

/-! ## Stats far from overflow -/

/-- The stats of the player and the rewards of the monsters are at most
`2^56`: far enough from `2^63` for every sum of one command to be exact. -/
def StatsSmall (g : Game) : Prop :=
  g.player.Attack ≤ 72057594037927936 ∧ g.player.Defense ≤ 72057594037927936 ∧
  g.player.Level ≤ 72057594037927936 ∧ g.player.Experience ≤ 72057594037927936 ∧
  ∀ (i : Nat) (room : Room) (m : Monster), g.rooms[i]? = some room →
    room.Monster = some m → m.Reward ≤ 72057594037927936

/-- What one operation other than the level-up does to the stats when no sum
overflows: the attack grows by at most 10, the defense and the level stay,
and the experience grows by at most the largest reward. -/
def StatsStep (g g1 : Game) : Prop :=
  g.player.Attack ≤ g1.player.Attack ∧ g1.player.Attack ≤ g.player.Attack + 10 ∧
  g1.player.Defense = g.player.Defense ∧ g1.player.Level = g.player.Level ∧
  g.player.Experience ≤ g1.player.Experience ∧
  g1.player.Experience ≤ g.player.Experience + 72057594037927936

/-! ## Facts about machine integers -/

theorem wrap64_of_fits (x : Int) (h : fits64 x) : wrap64 x = x := by
  unfold fits64 at h
  unfold wrap64
  omega

theorem fits64_wrap64 (x : Int) : fits64 (wrap64 x) := by
  unfold fits64 wrap64
  omega

/-- Wrapping an intermediate sum does not change the wrapped result. -/
theorem wrap64_sub_wrap64 (a b : Int) : wrap64 (wrap64 a - b) = wrap64 (a - b) := by
  unfold wrap64
  omega

/-! ## Overflow, as the machine computes it

Four states far outside the fixed world, where a sum of the program leaves
the range of `int`. -/

/-- With attack `2^63 - 1` and draw 9 the sum `attack + 9` wraps to a negative
number and the damage is floored to 0. -/
theorem strikeDamage_overflow : strikeDamage 9223372036854775807 9 5 = 0 := by
  decide

/-- With that attack the strike at the wolf does no damage, and the wolf
strikes back: the wolf keeps its 30 health, the player is down to 95 and has
no reward. -/
theorem attack_overflow :
    (attack { forestGame with
        player := { forestGame.player with Attack := 9223372036854775807 } }
        ⟨0, 0, 9, 0, 0, 0⟩).map
      (fun g1 => (g1.player.Health, g1.player.Experience, monsterHealth g1.rooms 1)) =
      some (95, 0, 30) := by
  decide

/-- At level 92233720368547759 the requirement `level * 100` wraps to a
negative number, and a player with experience 0 levels up. -/
theorem checkLevelUp_overflow :
    wrap64 (92233720368547759 * 100) = -9223372036854775716 ∧
    (checkLevelUp { initGame with
      player := { initGame.player with Level := 92233720368547759 } }).player.Level =
      92233720368547760 := by
  constructor <;> decide

/-- At health `2^63 - 11` a health potion wraps the health to a negative
number, and the cap at maxHealth is not applied. -/
theorem heal_overflow :
    (Character.heal { initGame.player with
      Health := 9223372036854775797, MaxHealth := 9223372036854775807 } 30).Health =
      -9223372036854775789 := by
  decide

/-! ## Basic facts about the room list -/

theorem roomAt_setRoom (g : Game) (room room1 : Room)
    (h : roomAt g.rooms g.currentRoom = some room) :
    roomAt (g.setRoom room1).rooms (g.setRoom room1).currentRoom = some room1 := by
  unfold roomAt at h ⊢
  unfold Game.setRoom
  by_cases hneg : g.currentRoom < 0
  · simp [hneg] at h
  · simp only [hneg, if_false] at h ⊢
    have hlt : g.currentRoom.toNat < g.rooms.length := by
      rcases List.getElem?_eq_some.mp h with ⟨hlt, _⟩
      exact hlt
    simp [hlt]

theorem map_set_same {α β : Type} (f : α → β) (l : List α) (i : Nat) (a b : α)
    (h : l[i]? = some a) (hf : f b = f a) : (l.set i b).map f = l.map f := by
  apply List.ext_getElem?
  intro n
  by_cases hin : i = n
  · subst hin
    simp [List.getElem?_set', h, hf]
  · simp [List.getElem?_set', hin]

theorem roomAt_eq_getElem? (rooms : List Room) (i : Int) (room : Room)
    (h : roomAt rooms i = some room) : 0 ≤ i ∧ rooms[i.toNat]? = some room := by
  unfold roomAt at h
  by_cases hneg : i < 0
  · simp [hneg] at h
  · simp only [hneg, if_false] at h
    exact ⟨by omega, h⟩

/-! ## Movement -/

/-- C2: a failing move changes no part of the game state.  If the direction
is not a key of the current room's exits, or it is a key but the room holds a
monster with health above 0, then `move` returns the very state it was given
(position, player, rooms and session flag all as before). -/
theorem move_fail_unchanged (g : Game) (direction : String) (d : Draws) (room : Room)
    (hroom : roomAt g.rooms g.currentRoom = some room)
    (hfail : room.Exits.lookup direction = none ∨
      ((room.Exits.lookup direction).isSome = true ∧ room.HasMonster = true ∧
        ∃ m, room.Monster = some m ∧ m.Health > 0)) :
    move g direction d = some g := by
  unfold move
  rw [hroom]
  rcases hfail with hno | ⟨hkey, hmon, m, hm, hpos⟩
  · simp [hno]
  · obtain ⟨next, hnext⟩ := Option.isSome_iff_exists.mp hkey
    simp [hnext, hmon, hm, hpos]

theorem move_fail_unchanged_witness :
    move initGame "запад" ⟨0, 0, 0, 0, 0, 0⟩ = some initGame ∧
    move forestGame "север" ⟨0, 0, 0, 0, 0, 0⟩ = some forestGame :=
  ⟨move_fail_unchanged initGame "запад" ⟨0, 0, 0, 0, 0, 0⟩ _ rfl (Or.inl (by decide)),
   move_fail_unchanged forestGame "север" ⟨0, 0, 0, 0, 0, 0⟩ _ rfl
    (Or.inr ⟨by decide, by decide, _, rfl, by decide⟩)⟩

/-- What `randomEvent` does for an event index in range: index 0 appends
"Золото", index 1 appends "Зелье здоровья", the others change nothing. -/
theorem randomEvent_eq (g : Game) (e : Nat) (he : e < 5) :
    randomEvent g e =
      some (if e = 0 then g.addItem "Золото"
            else if e = 1 then g.addItem "Зелье здоровья" else g) := by
  have hcases : e = 0 ∨ e = 1 ∨ e = 2 ∨ e = 3 ∨ e = 4 := by omega
  rcases hcases with h | h | h | h | h <;> subst h <;> simp [randomEvent, events]

/-- C3: a successful move.  When the direction is a key of the current room's
exits with destination `next` and the room has no monster with health above
0, `move` returns a state whose position is `next`; rooms, session flag and
all player stats are as before; the inventory is as before when the event
draw is at least 2, and otherwise gains "Золото" for event index 0,
"Зелье здоровья" for event index 1 and nothing for indices 2 to 4. -/
theorem move_success (g : Game) (direction : String) (d : Draws) (room : Room) (next : Int)
    (hroom : roomAt g.rooms g.currentRoom = some room)
    (hexit : room.Exits.lookup direction = some next)
    (hfree : room.HasMonster = false ∨ ∃ m, room.Monster = some m ∧ m.Health ≤ 0)
    (hd : d.valid) :
    ∃ g1, move g direction d = some g1 ∧
      g1.currentRoom = next ∧ g1.rooms = g.rooms ∧ g1.gameRunning = g.gameRunning ∧
      g1.player.Name = g.player.Name ∧ g1.player.Health = g.player.Health ∧
      g1.player.MaxHealth = g.player.MaxHealth ∧ g1.player.Attack = g.player.Attack ∧
      g1.player.Defense = g.player.Defense ∧ g1.player.Level = g.player.Level ∧
      g1.player.Experience = g.player.Experience ∧
      (2 ≤ d.event → g1.player.Inventory = g.player.Inventory) ∧
      (d.event < 2 → d.eventIdx = 0 →
        g1.player.Inventory = g.player.Inventory ++ ["Золото"]) ∧
      (d.event < 2 → d.eventIdx = 1 →
        g1.player.Inventory = g.player.Inventory ++ ["Зелье здоровья"]) ∧
      (d.event < 2 → 2 ≤ d.eventIdx → g1.player.Inventory = g.player.Inventory) := by
  obtain ⟨_, he, _⟩ := hd
  have hmove : move g direction d =
      if d.event < 2 then randomEvent { g with currentRoom := next } d.eventIdx
      else some { g with currentRoom := next } := by
    unfold move
    rw [hroom]
    rcases hfree with hno | ⟨m, hm, hdead⟩
    · simp [hexit, hno]
    · have hnot : ¬ m.Health > 0 := not_lt.mpr hdead
      cases hhas : room.HasMonster <;> simp [hexit, hm, hnot]
  rw [hmove, randomEvent_eq _ _ he]
  by_cases hev : d.event < 2
  · by_cases h0 : d.eventIdx = 0
    · refine ⟨Game.addItem { g with currentRoom := next } "Золото", by simp [hev, h0], ?_⟩
      simp [Game.addItem]; omega
    · by_cases h1 : d.eventIdx = 1
      · refine ⟨Game.addItem { g with currentRoom := next } "Зелье здоровья",
          by simp [hev, h1], ?_⟩
        simp [Game.addItem]; omega
      · refine ⟨{ g with currentRoom := next }, by simp [hev, h0, h1], ?_⟩
        simp; omega
  · refine ⟨{ g with currentRoom := next }, by simp [hev], ?_⟩
    simp; omega

theorem move_success_witness :
    ∃ g1, move initGame "север" ⟨1, 0, 0, 0, 0, 0⟩ = some g1 ∧
      g1.currentRoom = 1 ∧ g1.player.Inventory = ["Зелье здоровья", "Хлеб", "Золото"] := by
  obtain ⟨g1, hmove, hpos, _, _, _, _, _, _, _, _, _, _, hgold, _⟩ :=
    move_success initGame "север" ⟨1, 0, 0, 0, 0, 0⟩ _ 1 rfl (by decide) (Or.inl rfl)
      (by decide)
  exact ⟨g1, hmove, hpos, hgold (by decide) rfl⟩

/-! ## Combat -/

/-- Without overflow the damage is `max 0 (attack + draw - defense)`; an
overflow of the intermediate sum `attack + draw` alone does no harm. -/
theorem strikeDamage_eq_max (a : Int) (r : Nat) (b : Int) (h : fits64 (a + (r : Int) - b)) :
    strikeDamage a r b = max 0 (a + (r : Int) - b) := by
  unfold strikeDamage
  rw [wrap64_sub_wrap64, wrap64_of_fits _ h]
  by_cases hneg : a + (r : Int) - b < 0
  · simp only [hneg, if_true]; omega
  · simp only [hneg, if_false]; omega

theorem strikeDamage_nonneg (a : Int) (r : Nat) (b : Int) : 0 ≤ strikeDamage a r b := by
  unfold strikeDamage
  simp only
  split
  · exact le_refl _
  · omega

theorem lootTable_get (i : Nat) (hi : i < 3) : ∃ item, lootTable[i]? = some item := by
  have hcases : i = 0 ∨ i = 1 ∨ i = 2 := by omega
  rcases hcases with h | h | h <;> subst h <;> simp [lootTable]

/-- An attack on a live monster returns a state, and in it the current room
is the old room with the monster's health lowered by the player's damage. -/
theorem attack_live_rooms (g : Game) (d : Draws) (room : Room) (monster : Monster)
    (hroom : roomAt g.rooms g.currentRoom = some room)
    (hhas : room.HasMonster = true) (hmon : room.Monster = some monster)
    (hlive : monster.Health > 0) (hd : d.valid) :
    ∃ g1, attack g d = some g1 ∧ g1.currentRoom = g.currentRoom ∧
      g1.rooms = (g.setRoom { room with Monster := some { monster with
        Health := wrap64 (monster.Health -
          strikeDamage g.player.Attack d.hit monster.Defense) } }).rooms := by
  obtain ⟨_, _, _, _, hitem, _⟩ := hd
  obtain ⟨item, hitem⟩ := lootTable_get d.item hitem
  have hnot : ¬ monster.Health ≤ 0 := not_le.mpr hlive
  unfold attack
  rw [hroom]
  simp only [hhas, hmon, hnot, if_false, Bool.true_eq_false]
  by_cases hkill :
      wrap64 (monster.Health - strikeDamage g.player.Attack d.hit monster.Defense) ≤ 0
  · by_cases hloot : d.loot = 0
    · simp [hkill, hloot, hitem, Game.addItem, Game.setRoom]
    · simp [hkill, hloot, Game.setRoom]
  · simp only [hkill, if_false]
    split <;> simp [Game.setRoom]

/-- C4: the player's strike.  For every attack on a live monster with draws
in range and without overflow (the damage sum and the new health are `int`
values), `attack` returns a state in which the monster of the current room
has its former health minus `max 0 (playerAttack + r - monsterDefense)`; the
damage is never negative, so the monster's health never rises; and with
`playerAttack = 20`, `r = 5`, `monsterDefense = 5` the damage is 20. -/
theorem attack_player_damage (g : Game) (d : Draws) (room : Room) (monster : Monster)
    (hroom : roomAt g.rooms g.currentRoom = some room)
    (hhas : room.HasMonster = true) (hmon : room.Monster = some monster)
    (hlive : monster.Health > 0) (hd : d.valid)
    (hfitDamage : fits64 (g.player.Attack + (d.hit : Int) - monster.Defense))
    (hfitHealth : fits64
      (monster.Health - max 0 (g.player.Attack + (d.hit : Int) - monster.Defense))) :
    ∃ g1 room1 monster1, attack g d = some g1 ∧
      roomAt g1.rooms g1.currentRoom = some room1 ∧ room1.Monster = some monster1 ∧
      monster1.Health =
        monster.Health - max 0 (g.player.Attack + (d.hit : Int) - monster.Defense) ∧
      0 ≤ max 0 (g.player.Attack + (d.hit : Int) - monster.Defense) ∧
      monster1.Health ≤ monster.Health ∧
      (g.player.Attack = 20 → d.hit = 5 → monster.Defense = 5 →
        monster1.Health = monster.Health - 20) := by
  obtain ⟨g1, hatt, hcur, hrooms⟩ := attack_live_rooms g d room monster hroom hhas hmon hlive hd
  have hdmg := strikeDamage_eq_max g.player.Attack d.hit monster.Defense hfitDamage
  have hnew : wrap64 (monster.Health - strikeDamage g.player.Attack d.hit monster.Defense) =
      monster.Health - max 0 (g.player.Attack + (d.hit : Int) - monster.Defense) := by
    rw [hdmg, wrap64_of_fits _ hfitHealth]
  refine ⟨g1, { room with Monster := some { monster with
      Health := wrap64 (monster.Health -
        strikeDamage g.player.Attack d.hit monster.Defense) } },
    { monster with
      Health := wrap64 (monster.Health -
        strikeDamage g.player.Attack d.hit monster.Defense) },
    hatt, ?_, rfl, hnew, ?_, ?_, ?_⟩
  · rw [hrooms, hcur]
    exact roomAt_setRoom g room _ hroom
  · omega
  · show wrap64 (monster.Health - strikeDamage g.player.Attack d.hit monster.Defense) ≤
      monster.Health
    rw [hnew]
    omega
  · intro ha hr hdef
    show wrap64 (monster.Health - strikeDamage g.player.Attack d.hit monster.Defense) =
      monster.Health - 20
    rw [hnew, ha, hr, hdef]
    have h20 : max (0 : Int) (20 + ((5 : Nat) : Int) - 5) = 20 := by decide
    rw [h20]

theorem attack_player_damage_witness :
    ∃ g1 room1 monster1,
      attack forestGame ⟨0, 0, 5, 0, 0, 0⟩ = some g1 ∧
      roomAt g1.rooms g1.currentRoom = some room1 ∧ room1.Monster = some monster1 ∧
      monster1.Health = 30 - 20 := by
  obtain ⟨g1, room1, monster1, hatt, hr, hm, _, _, _, h20⟩ :=
    attack_player_damage forestGame ⟨0, 0, 5, 0, 0, 0⟩ _ _ rfl rfl rfl
      (by decide) (by decide) (by decide) (by decide)
  exact ⟨g1, room1, monster1, hatt, hr, hm, h20 rfl rfl rfl⟩

/-- C5: the killing strike.  When the player's strike brings the monster's
health to 0 or below, `attack` adds exactly the monster's reward to the
experience, leaves the player's health and the session flag as they were (no
counterattack), and changes no other stat; when the loot draw is 0 the
inventory gains exactly one item at its end, the entry of the loot table
chosen by the item draw, and otherwise the inventory is unchanged.  No
overflow is assumed: the new health of the monster and the new experience
are `int` values. -/
theorem attack_kill (g : Game) (d : Draws) (room : Room) (monster : Monster)
    (hroom : roomAt g.rooms g.currentRoom = some room)
    (hhas : room.HasMonster = true) (hmon : room.Monster = some monster)
    (hlive : monster.Health > 0) (hd : d.valid)
    (hfitHealth : fits64
      (monster.Health - strikeDamage g.player.Attack d.hit monster.Defense))
    (hfitExperience : fits64 (g.player.Experience + monster.Reward))
    (hkill : monster.Health - strikeDamage g.player.Attack d.hit monster.Defense ≤ 0) :
    ∃ g1, attack g d = some g1 ∧
      g1.player.Experience = g.player.Experience + monster.Reward ∧
      g1.player.Health = g.player.Health ∧ g1.gameRunning = g.gameRunning ∧
      g1.player.MaxHealth = g.player.MaxHealth ∧ g1.player.Attack = g.player.Attack ∧
      g1.player.Defense = g.player.Defense ∧ g1.player.Level = g.player.Level ∧
      (d.loot = 0 → ∃ item, lootTable[d.item]? = some item ∧
        g1.player.Inventory = g.player.Inventory ++ [item]) ∧
      (d.loot ≠ 0 → g1.player.Inventory = g.player.Inventory) ∧
      lootTable = ["Зелье здоровья", "Золото", "Зелье силы"] := by
  obtain ⟨_, _, _, _, hitem, _⟩ := hd
  obtain ⟨item, hitem⟩ := lootTable_get d.item hitem
  have hnot : ¬ monster.Health ≤ 0 := not_le.mpr hlive
  have hkill1 :
      wrap64 (monster.Health - strikeDamage g.player.Attack d.hit monster.Defense) ≤ 0 := by
    rw [wrap64_of_fits _ hfitHealth]; exact hkill
  have hexp : wrap64 (g.player.Experience + monster.Reward) =
      g.player.Experience + monster.Reward := wrap64_of_fits _ hfitExperience
  unfold attack
  rw [hroom]
  simp only [hhas, hmon, hnot, if_false, Bool.true_eq_false, hkill1, if_true]
  have htable : (lootTable = ["Зелье здоровья", "Золото", "Зелье силы"]) = True := eq_true rfl
  by_cases hloot : d.loot = 0
  · simp [hloot, hitem, Game.addItem, Game.setRoom, htable, hexp]
  · simp [hloot, Game.setRoom, htable, hexp]

theorem attack_kill_witness :
    ∃ g1, attack woundedWolfGame ⟨0, 0, 0, 0, 2, 0⟩ = some g1 ∧
      g1.player.Experience = 0 + 25 ∧ g1.player.Health = 100 ∧ g1.gameRunning = true ∧
      ∃ item, lootTable[2]? = some item ∧
        g1.player.Inventory = ["Зелье здоровья", "Хлеб"] ++ [item] := by
  obtain ⟨g1, hatt, hexp, hhealth, hrun, _, _, _, _, hloot, _, _⟩ :=
    attack_kill woundedWolfGame ⟨0, 0, 0, 0, 2, 0⟩ _ _ rfl rfl rfl (by decide) (by decide)
      (by decide) (by decide) (by decide)
  exact ⟨g1, hatt, hexp, hhealth, hrun, hloot rfl⟩

/-- C6: the counterattack.  When the monster survives the player's strike,
`attack` lowers the player's health by exactly
`max 0 (monsterAttack + r2 - playerDefense)`, leaves experience, inventory and
the other stats unchanged, and writes `false` to the session flag exactly when
the resulting health is 0 or below: the flag becomes `false` in that case and
keeps its value otherwise, so an active session turns inactive if and only if
the resulting health is 0 or below.  No overflow is assumed: the new health
of the monster, the monster's damage sum and the new health of the player
are `int` values. -/
theorem attack_counter (g : Game) (d : Draws) (room : Room) (monster : Monster)
    (hroom : roomAt g.rooms g.currentRoom = some room)
    (hhas : room.HasMonster = true) (hmon : room.Monster = some monster)
    (hlive : monster.Health > 0) (_hd : d.valid)
    (hfitHealth : fits64
      (monster.Health - strikeDamage g.player.Attack d.hit monster.Defense))
    (hfitDamage : fits64 (monster.Attack + (d.counter : Int) - g.player.Defense))
    (hfitPlayer : fits64
      (g.player.Health - max 0 (monster.Attack + (d.counter : Int) - g.player.Defense)))
    (hsurvive : monster.Health - strikeDamage g.player.Attack d.hit monster.Defense > 0) :
    ∃ g1, attack g d = some g1 ∧
      g1.player.Health =
        g.player.Health - max 0 (monster.Attack + (d.counter : Int) - g.player.Defense) ∧
      g1.player.Experience = g.player.Experience ∧
      g1.player.Inventory = g.player.Inventory ∧
      g1.player.MaxHealth = g.player.MaxHealth ∧ g1.player.Attack = g.player.Attack ∧
      g1.player.Defense = g.player.Defense ∧ g1.player.Level = g.player.Level ∧
      g1.gameRunning = (if g1.player.Health ≤ 0 then false else g.gameRunning) ∧
      (g.gameRunning = true → (g1.gameRunning = false ↔ g1.player.Health ≤ 0)) := by
  have hnot : ¬ monster.Health ≤ 0 := not_le.mpr hlive
  have hnokill :
      ¬ wrap64 (monster.Health - strikeDamage g.player.Attack d.hit monster.Defense) ≤ 0 := by
    rw [wrap64_of_fits _ hfitHealth]; exact not_le.mpr hsurvive
  have hdmg := strikeDamage_eq_max monster.Attack d.counter g.player.Defense hfitDamage
  have hnew : wrap64 (g.player.Health -
      strikeDamage monster.Attack d.counter g.player.Defense) =
      g.player.Health - max 0 (monster.Attack + (d.counter : Int) - g.player.Defense) := by
    rw [hdmg, wrap64_of_fits _ hfitPlayer]
  unfold attack
  rw [hroom]
  simp only [hhas, hmon, hnot, if_false, Bool.true_eq_false, hnokill]
  simp only [Game.setRoom, hnew]
  by_cases hdead : g.player.Health -
      max 0 (monster.Attack + (d.counter : Int) - g.player.Defense) ≤ 0
  · refine ⟨_, by rw [if_pos hdead], ?_⟩
    simp [hdead]
  · refine ⟨_, by rw [if_neg hdead], ?_⟩
    simp [hdead]

theorem attack_counter_witness :
    ∃ g1, attack forestGame ⟨0, 0, 0, 0, 0, 7⟩ = some g1 ∧
      g1.player.Health = 100 - max 0 (15 + ((7 : Nat) : Int) - 10) ∧
      g1.player.Experience = 0 ∧ g1.gameRunning = true := by
  obtain ⟨g1, hatt, hhealth, hexp, _, _, _, _, _, hrun, _⟩ :=
    attack_counter forestGame ⟨0, 0, 0, 0, 0, 7⟩ _ _ rfl rfl rfl (by decide) (by decide)
      (by decide) (by decide) (by decide) (by decide)
  refine ⟨g1, hatt, hhealth, hexp, ?_⟩
  rw [hrun, hhealth]
  decide

/-- C7: nothing to attack.  In every state whose current room has no monster,
or has a monster with health 0 or below, `attack` returns the very state it
was given: player (experience and inventory included), rooms and session flag
are unchanged.  Hence any number of further attacks leaves the state as it
is, and the reward of a defeated monster is not granted again. -/
theorem attack_nothing_unchanged (g : Game) (room : Room)
    (hroom : roomAt g.rooms g.currentRoom = some room)
    (hnone : room.HasMonster = false ∨ ∃ m, room.Monster = some m ∧ m.Health ≤ 0) :
    (∀ d : Draws, attack g d = some g) ∧
    (∀ ds : List Draws, ds.foldlM attack g = some g) := by
  have hone : ∀ d : Draws, attack g d = some g := by
    intro d
    unfold attack
    rw [hroom]
    rcases hnone with hno | ⟨m, hm, hdead⟩
    · simp [hno]
    · cases hhas : room.HasMonster <;> simp [hm, hdead]
  refine ⟨hone, ?_⟩
  intro ds
  induction ds with
  | nil => rfl
  | cons d rest ih =>
    rw [List.foldlM_cons, hone d]
    exact ih

theorem attack_nothing_unchanged_witness :
    (∀ d : Draws, attack deadWolfGame d = some deadWolfGame) ∧
    (∀ ds : List Draws, ds.foldlM attack deadWolfGame = some deadWolfGame) :=
  attack_nothing_unchanged deadWolfGame _ rfl (Or.inr ⟨_, rfl, by decide⟩)

/-! ## Item use -/

/-- The loop of `useItem` passes over entries that do not match. -/
theorem useItemLoop_skip (lower : String → String) (p : Character) (itemName : String) :
    ∀ (pre rest : List String) (k : Nat),
      (∀ x ∈ pre, contains (lower x) (lower itemName) = false) →
      useItemLoop lower p itemName (pre ++ rest) k =
        useItemLoop lower p itemName rest (k + pre.length) := by
  intro pre
  induction pre with
  | nil => intro rest k _; simp
  | cons x pre ih =>
    intro rest k hpre
    have hx : contains (lower x) (lower itemName) = false := hpre x (List.mem_cons_self _ _)
    have hrest : ∀ y ∈ pre, contains (lower y) (lower itemName) = false :=
      fun y hy => hpre y (List.mem_cons_of_mem _ hy)
    show useItemLoop lower p itemName (x :: (pre ++ rest)) k = _
    rw [useItemLoop]
    simp only [hx, Bool.false_eq_true, if_false]
    rw [ih rest (k + 1) hrest]
    simp only [List.length_cons]
    congr 1
    omega

/-- With no matching entry `useItem` returns the state unchanged. -/
theorem useItem_no_match (lower : String → String) (g : Game) (itemName : String)
    (hno : ∀ x ∈ g.player.Inventory, contains (lower x) (lower itemName) = false) :
    useItem lower g itemName = g := by
  have h := useItemLoop_skip lower g.player itemName g.player.Inventory [] 0 hno
  rw [List.append_nil] at h
  unfold useItem
  rw [h]
  rfl

/-- When the entry at index `i` is the first match, `useItem` runs the
`switch` on that entry and that index. -/
theorem useItem_first_match (lower : String → String) (g : Game) (itemName : String)
    (i : Nat) (item : String)
    (hi : g.player.Inventory[i]? = some item)
    (hmatch : contains (lower item) (lower itemName) = true)
    (hfirst : ∀ x ∈ g.player.Inventory.take i, contains (lower x) (lower itemName) = false) :
    useItem lower g itemName = { g with player := applyItem g.player item i } := by
  obtain ⟨hlt, hget⟩ := List.getElem?_eq_some.mp hi
  have hsplit : g.player.Inventory =
      g.player.Inventory.take i ++ item :: g.player.Inventory.drop (i + 1) := by
    rw [← hget, ← List.drop_eq_getElem_cons hlt, List.take_append_drop]
  have hlen : (g.player.Inventory.take i).length = i := by
    rw [List.length_take]; omega
  unfold useItem
  conv_lhs => rw [hsplit]
  rw [useItemLoop_skip lower g.player itemName _ _ 0 hfirst, hlen]
  simp only [useItemLoop, hmatch, if_true, Nat.zero_add]

theorem heal_inventory (p : Character) (n : Int) : (p.heal n).Inventory = p.Inventory := by
  unfold Character.heal
  simp only
  split <;> rfl

/-- A recognised entry is removed: the inventory after the `switch` is the
old one without index `i`. -/
theorem applyItem_inventory (p : Character) (item : String) (i : Nat)
    (hrec : contains item "Зелье здоровья" = true ∨ contains item "Зелье силы" = true ∨
      contains item "Хлеб" = true) :
    (applyItem p item i).Inventory = p.Inventory.eraseIdx i := by
  rw [List.eraseIdx_eq_take_drop_succ]
  unfold applyItem
  by_cases h1 : contains item "Зелье здоровья" = true
  · simp only [h1, if_true, Character.removeAt, heal_inventory]
  · by_cases h2 : contains item "Зелье силы" = true
    · rw [if_neg h1, if_pos h2]
      rfl
    · have h3 : contains item "Хлеб" = true := by
        rcases hrec with h | h | h
        · exact absurd h h1
        · exact absurd h h2
        · exact h
      rw [if_neg h1, if_neg h2, if_pos h3]
      simp only [Character.removeAt, heal_inventory]

/-- C8: item consumption.  When the entry at index `i` is the first one whose
lower-cased text contains the lower-cased name and its effect is recognised,
the inventory after `useItem` is the old inventory with exactly the entry at
index `i` removed: its length is the old length minus 1, the entries before
`i` keep their places and those after `i` move up by one, in order. -/
theorem useItem_removes_first_match (lower : String → String) (g : Game) (itemName : String)
    (i : Nat) (item : String)
    (hi : g.player.Inventory[i]? = some item)
    (hmatch : contains (lower item) (lower itemName) = true)
    (hfirst : ∀ x ∈ g.player.Inventory.take i, contains (lower x) (lower itemName) = false)
    (hrec : contains item "Зелье здоровья" = true ∨ contains item "Зелье силы" = true ∨
      contains item "Хлеб" = true) :
    (useItem lower g itemName).player.Inventory = g.player.Inventory.eraseIdx i ∧
    (useItem lower g itemName).player.Inventory =
      g.player.Inventory.take i ++ g.player.Inventory.drop (i + 1) ∧
    (useItem lower g itemName).player.Inventory.length + 1 = g.player.Inventory.length ∧
    (∀ j, j < i → (useItem lower g itemName).player.Inventory[j]? = g.player.Inventory[j]?) ∧
    (∀ j, i ≤ j →
      (useItem lower g itemName).player.Inventory[j]? = g.player.Inventory[j + 1]?) := by
  obtain ⟨hlt, _⟩ := List.getElem?_eq_some.mp hi
  have hinv : (useItem lower g itemName).player.Inventory = g.player.Inventory.eraseIdx i := by
    rw [useItem_first_match lower g itemName i item hi hmatch hfirst]
    exact applyItem_inventory g.player item i hrec
  refine ⟨hinv, ?_, ?_, ?_, ?_⟩
  · rw [hinv, List.eraseIdx_eq_take_drop_succ]
  · rw [hinv, List.length_eraseIdx_of_lt hlt]; omega
  · intro j hj
    rw [hinv, List.getElem?_eraseIdx_of_lt _ _ _ hj]
  · intro j hj
    rw [hinv, List.getElem?_eraseIdx_of_ge _ _ _ hj]

theorem useItem_removes_first_match_witness :
    (useItem lowerText
        { initGame with player := { initGame.player with
            Inventory := ["Золото", "Хлеб", "Зелье силы", "Хлеб"] } }
        "ХЛЕБ").player.Inventory =
      List.eraseIdx ["Золото", "Хлеб", "Зелье силы", "Хлеб"] 1 :=
  (useItem_removes_first_match lowerText
    { initGame with player := { initGame.player with
        Inventory := ["Золото", "Хлеб", "Зелье силы", "Хлеб"] } }
    "ХЛЕБ" 1 "Хлеб" (by decide) (by decide) (by decide) (Or.inr (Or.inr (by decide)))).1

/-- C9: a failing `useItem` changes nothing.  If no inventory entry contains
the name (case-insensitively), or if the first matching entry contains none
of "Зелье здоровья", "Зелье силы", "Хлеб", then `useItem` returns the very
state it was given: inventory, health, attack and all other state are
unchanged. -/
theorem useItem_fail_unchanged (lower : String → String) (g : Game) (itemName : String)
    (hfail : (∀ x ∈ g.player.Inventory, contains (lower x) (lower itemName) = false) ∨
      ∃ i item, g.player.Inventory[i]? = some item ∧
        contains (lower item) (lower itemName) = true ∧
        (∀ x ∈ g.player.Inventory.take i, contains (lower x) (lower itemName) = false) ∧
        contains item "Зелье здоровья" = false ∧ contains item "Зелье силы" = false ∧
        contains item "Хлеб" = false) :
    useItem lower g itemName = g := by
  rcases hfail with hno | ⟨i, item, hi, hmatch, hfirst, h1, h2, h3⟩
  · exact useItem_no_match lower g itemName hno
  · rw [useItem_first_match lower g itemName i item hi hmatch hfirst]
    simp [applyItem, h1, h2, h3]

theorem useItem_fail_unchanged_witness :
    useItem lowerText initGame "меч" = initGame ∧
    useItem lowerText
        { initGame with player := { initGame.player with
            Inventory := ["Золото", "Хлеб"] } } "О" =
      { initGame with player := { initGame.player with Inventory := ["Золото", "Хлеб"] } } :=
  ⟨useItem_fail_unchanged lowerText initGame "меч" (Or.inl (by decide)),
   useItem_fail_unchanged lowerText
    { initGame with player := { initGame.player with Inventory := ["Золото", "Хлеб"] } } "О"
    (Or.inr ⟨0, "Золото", by decide, by decide, by decide, by decide, by decide, by decide⟩)⟩

theorem heal_health (p : Character) (n : Int) (hfit : fits64 (p.Health + n)) :
    (p.heal n).Health = min (p.Health + n) p.MaxHealth := by
  unfold Character.heal
  simp only [wrap64_of_fits _ hfit]
  split
  · simp only; omega
  · simp only; omega

theorem heal_stats (p : Character) (n : Int) :
    (p.heal n).Name = p.Name ∧ (p.heal n).MaxHealth = p.MaxHealth ∧
    (p.heal n).Attack = p.Attack ∧ (p.heal n).Defense = p.Defense ∧
    (p.heal n).Level = p.Level ∧ (p.heal n).Experience = p.Experience := by
  unfold Character.heal
  simp only
  split <;> simp

/-- C10: the effect of a successful `useItem` is decided by the first rule
that the matched entry's name satisfies.  A name containing "Зелье здоровья"
sets health to `min (health + 30) maxHealth` and leaves attack alone;
otherwise a name containing "Зелье силы" adds exactly 5 to attack and leaves
health alone; otherwise a name containing "Хлеб" sets health to
`min (health + 10) maxHealth` and leaves attack alone.  In each case name,
maxHealth, defense, level and experience, the rooms, the position and the
session flag are unchanged.  Each rule is stated for a sum that does not
overflow (`health + 30`, `attack + 5`, `health + 10` are `int` values). -/
theorem useItem_effect (lower : String → String) (g : Game) (itemName : String)
    (i : Nat) (item : String)
    (hi : g.player.Inventory[i]? = some item)
    (hmatch : contains (lower item) (lower itemName) = true)
    (hfirst : ∀ x ∈ g.player.Inventory.take i, contains (lower x) (lower itemName) = false) :
    (contains item "Зелье здоровья" = true → fits64 (g.player.Health + 30) →
      (useItem lower g itemName).player.Health =
        min (g.player.Health + 30) g.player.MaxHealth ∧
      (useItem lower g itemName).player.Attack = g.player.Attack) ∧
    (contains item "Зелье здоровья" = false → contains item "Зелье силы" = true →
      fits64 (g.player.Attack + 5) →
      (useItem lower g itemName).player.Attack = g.player.Attack + 5 ∧
      (useItem lower g itemName).player.Health = g.player.Health) ∧
    (contains item "Зелье здоровья" = false → contains item "Зелье силы" = false →
      contains item "Хлеб" = true → fits64 (g.player.Health + 10) →
      (useItem lower g itemName).player.Health =
        min (g.player.Health + 10) g.player.MaxHealth ∧
      (useItem lower g itemName).player.Attack = g.player.Attack) ∧
    (useItem lower g itemName).player.Name = g.player.Name ∧
    (useItem lower g itemName).player.MaxHealth = g.player.MaxHealth ∧
    (useItem lower g itemName).player.Defense = g.player.Defense ∧
    (useItem lower g itemName).player.Level = g.player.Level ∧
    (useItem lower g itemName).player.Experience = g.player.Experience ∧
    (useItem lower g itemName).rooms = g.rooms ∧
    (useItem lower g itemName).currentRoom = g.currentRoom ∧
    (useItem lower g itemName).gameRunning = g.gameRunning := by
  rw [useItem_first_match lower g itemName i item hi hmatch hfirst]
  have h30 := heal_stats g.player 30
  have h10 := heal_stats g.player 10
  refine ⟨?_, ?_, ?_, ?_⟩
  · intro h1 hfit
    simp [applyItem, h1, Character.removeAt, heal_health _ _ hfit, h30]
  · intro h1 h2 hfit
    simp [applyItem, h1, h2, Character.removeAt, wrap64_of_fits _ hfit]
  · intro h1 h2 h3 hfit
    simp [applyItem, h1, h2, h3, Character.removeAt, heal_health _ _ hfit, h10]
  · unfold applyItem
    split
    · simp [Character.removeAt, h30]
    · split
      · simp [Character.removeAt]
      · split
        · simp [Character.removeAt, h10]
        · simp

theorem useItem_effect_witness :
    (useItem lowerText { initGame with player := { initGame.player with Health := 80 } }
      "зелье").player.Health = min (80 + 30) 100 :=
  ((useItem_effect lowerText { initGame with player := { initGame.player with Health := 80 } }
    "зелье" 0 "Зелье здоровья" (by decide) (by decide) (by decide)).1 (by decide)
    (by decide)).1

/-! ## Treasure -/

/-- C11: picking up.  If the current room has no treasure `takeTreasure`
returns the state it was given.  Otherwise the treasure's name is appended at
the end of the inventory, the room's treasure flag becomes false and its
treasure name empty, the attack rises by exactly 10 when the name contains
"Золотой меч" (the sum `attack + 10` being an `int` value, i.e. without
overflow) and is unchanged otherwise, and nothing else changes: the other
player stats, the other fields of the room, the other rooms, the position and
the session flag stay; a second pick-up in the resulting state changes
nothing more. -/
theorem takeTreasure_spec (g : Game) (room : Room)
    (hroom : roomAt g.rooms g.currentRoom = some room) :
    (room.HasTreasure = false → takeTreasure g = some g) ∧
    (room.HasTreasure = true →
      ∃ g1, takeTreasure g = some g1 ∧
        g1.player.Inventory = g.player.Inventory ++ [room.Treasure] ∧
        roomAt g1.rooms g1.currentRoom =
          some { room with HasTreasure := false, Treasure := "" } ∧
        (contains room.Treasure "Золотой меч" = true → fits64 (g.player.Attack + 10) →
          g1.player.Attack = g.player.Attack + 10) ∧
        (contains room.Treasure "Золотой меч" = false →
          g1.player.Attack = g.player.Attack) ∧
        g1.player.Name = g.player.Name ∧ g1.player.Health = g.player.Health ∧
        g1.player.MaxHealth = g.player.MaxHealth ∧ g1.player.Defense = g.player.Defense ∧
        g1.player.Level = g.player.Level ∧ g1.player.Experience = g.player.Experience ∧
        g1.currentRoom = g.currentRoom ∧ g1.gameRunning = g.gameRunning ∧
        g1.rooms.length = g.rooms.length ∧
        (∀ i, i ≠ g.currentRoom.toNat → g1.rooms[i]? = g.rooms[i]?) ∧
        takeTreasure g1 = some g1) := by
  constructor
  · intro hno
    unfold takeTreasure
    rw [hroom]
    simp [hno]
  · intro hhas
    obtain ⟨g0, hg0⟩ : ∃ g0 : Game, g0 = (if contains room.Treasure "Золотой меч" = true then
        { g with player := { g.player with Attack := wrap64 (g.player.Attack + 10) } }
        else g) :=
      ⟨_, rfl⟩
    have hrooms0 : g0.rooms = g.rooms := by rw [hg0]; split <;> rfl
    have hcur0 : g0.currentRoom = g.currentRoom := by rw [hg0]; split <;> rfl
    have hrun0 : g0.gameRunning = g.gameRunning := by rw [hg0]; split <;> rfl
    have hstat0 : g0.player.Name = g.player.Name ∧ g0.player.Health = g.player.Health ∧
        g0.player.MaxHealth = g.player.MaxHealth ∧ g0.player.Defense = g.player.Defense ∧
        g0.player.Level = g.player.Level ∧ g0.player.Experience = g.player.Experience ∧
        g0.player.Inventory = g.player.Inventory := by
      rw [hg0]; split <;> simp
    have hatt1 : contains room.Treasure "Золотой меч" = true →
        fits64 (g.player.Attack + 10) → g0.player.Attack = g.player.Attack + 10 := by
      intro hs hfit
      rw [hg0, if_pos hs]
      exact wrap64_of_fits _ hfit
    have hatt0 : contains room.Treasure "Золотой меч" = false →
        g0.player.Attack = g.player.Attack := by
      intro hs; rw [hg0, hs]; rfl
    have hroom0 : roomAt (g0.addItem room.Treasure).rooms (g0.addItem room.Treasure).currentRoom =
        some room := by
      show roomAt g0.rooms g0.currentRoom = some room
      rw [hrooms0, hcur0]; exact hroom
    have htake : takeTreasure g = some (Game.setRoom (g0.addItem room.Treasure)
        { room with HasTreasure := false, Treasure := "" }) := by
      unfold takeTreasure
      rw [hroom, hg0]
      simp only [hhas, Bool.true_eq_false, if_false]
    have hroom1 := roomAt_setRoom (g0.addItem room.Treasure) room
      { room with HasTreasure := false, Treasure := "" } hroom0
    have hagain : takeTreasure (Game.setRoom (g0.addItem room.Treasure)
        { room with HasTreasure := false, Treasure := "" }) =
        some (Game.setRoom (g0.addItem room.Treasure)
          { room with HasTreasure := false, Treasure := "" }) := by
      unfold takeTreasure
      rw [hroom1]
      simp only [if_true]
    obtain ⟨hn, hh, hm, hd, hl, he, hi⟩ := hstat0
    refine ⟨_, htake, ?_, hroom1, hatt1, hatt0, hn, hh, hm, hd, hl, he, hcur0, hrun0, ?_, ?_,
      hagain⟩
    · show g0.player.Inventory ++ [room.Treasure] = g.player.Inventory ++ [room.Treasure]
      rw [hi]
    · show (g0.rooms.set g0.currentRoom.toNat _).length = g.rooms.length
      rw [List.length_set, hrooms0]
    · intro i hne
      show (g0.rooms.set g0.currentRoom.toNat _)[i]? = g.rooms[i]?
      rw [hcur0, hrooms0, List.getElem?_set_ne (Ne.symm hne)]

theorem takeTreasure_spec_witness :
    ∃ g1, takeTreasure { initGame with currentRoom := 4 } = some g1 ∧
      g1.player.Inventory = ["Зелье здоровья", "Хлеб"] ++ ["Золотой меч (+10 атака)"] ∧
      g1.player.Attack = 20 + 10 ∧ takeTreasure g1 = some g1 := by
  obtain ⟨g1, htake, hinv, _, hsword, _, _, _, _, _, _, _, _, _, _, _, hagain⟩ :=
    (takeTreasure_spec { initGame with currentRoom := 4 } _ rfl).2 rfl
  exact ⟨g1, htake, hinv, hsword (by decide) (by decide), hagain⟩

/-! ## Levelling -/

/-- Without overflow `checkLevelUp` is the level-up step in exact
arithmetic. -/
theorem checkLevelUp_exact (g : Game) (hfit : LevelUpFits g.player) :
    checkLevelUp g =
      if g.player.Experience ≥ g.player.Level * 100 then
        { g with player :=
            { g.player with
              Level := g.player.Level + 1
              MaxHealth := g.player.MaxHealth + 20
              Health := g.player.MaxHealth + 20
              Attack := g.player.Attack + 5
              Defense := g.player.Defense + 2
              Experience := g.player.Experience - g.player.Level * 100 } }
      else g := by
  obtain ⟨h1, h2, h3, h4, h5, h6⟩ := hfit
  unfold checkLevelUp
  simp only [wrap64_of_fits _ h1, wrap64_of_fits _ h2, wrap64_of_fits _ h3, wrap64_of_fits _ h4,
    wrap64_of_fits _ h5, wrap64_of_fits _ h6]

/-- Below the requirement `checkLevelUp` returns the state it was given. -/
theorem checkLevelUp_idle (g : Game) (hfit : fits64 (g.player.Level * 100))
    (h : g.player.Experience < g.player.Level * 100) : checkLevelUp g = g := by
  have hnot : ¬ g.player.Experience ≥ g.player.Level * 100 := not_le.mpr h
  unfold checkLevelUp
  simp only [wrap64_of_fits _ hfit, hnot, if_false]

/-- C12: the level-up step.  For every player with
`experience >= level * 100`, `checkLevelUp` raises level by 1, maxHealth by
20, attack by 5 and defense by 2, sets health to the new maxHealth and
subtracts the old `level * 100` from the experience, and changes nothing
else; with `experience < level * 100` it changes nothing.  A player of level 1
with experience 95 + 150 ends at level 2 with experience 145.  The step is
stated without overflow: the requirement `level * 100` and, where a level-up
happens, the new stats are `int` values (`LevelUpFits`). -/
theorem checkLevelUp_step (g : Game) :
    (LevelUpFits g.player → g.player.Experience ≥ g.player.Level * 100 →
      (checkLevelUp g).player.Level = g.player.Level + 1 ∧
      (checkLevelUp g).player.MaxHealth = g.player.MaxHealth + 20 ∧
      (checkLevelUp g).player.Attack = g.player.Attack + 5 ∧
      (checkLevelUp g).player.Defense = g.player.Defense + 2 ∧
      (checkLevelUp g).player.Health = g.player.MaxHealth + 20 ∧
      (checkLevelUp g).player.Experience = g.player.Experience - g.player.Level * 100 ∧
      (checkLevelUp g).player.Name = g.player.Name ∧
      (checkLevelUp g).player.Inventory = g.player.Inventory ∧
      (checkLevelUp g).rooms = g.rooms ∧ (checkLevelUp g).currentRoom = g.currentRoom ∧
      (checkLevelUp g).gameRunning = g.gameRunning) ∧
    (fits64 (g.player.Level * 100) → g.player.Experience < g.player.Level * 100 →
      checkLevelUp g = g) ∧
    (g.player.Level = 1 → g.player.Experience = 95 + 150 →
      (checkLevelUp g).player.Level = 2 ∧ (checkLevelUp g).player.Experience = 145) := by
  refine ⟨?_, ?_, ?_⟩
  · intro hfit h
    rw [checkLevelUp_exact g hfit]
    simp [h]
  · intro hfit h
    exact checkLevelUp_idle g hfit h
  · intro hl he
    have h100 : wrap64 100 = 100 := by decide
    have h2 : wrap64 2 = 2 := by decide
    have h145 : wrap64 145 = 145 := by decide
    simp [checkLevelUp, hl, he, h100, h2, h145]

theorem checkLevelUp_step_witness :
    ((checkLevelUp { initGame with player := { initGame.player with Experience := 95 + 150 } }
      ).player.Level = 2 ∧
    (checkLevelUp { initGame with player := { initGame.player with Experience := 95 + 150 } }
      ).player.Experience = 145) ∧
    (checkLevelUp { initGame with player := { initGame.player with Experience := 95 + 150 } }
      ).player.MaxHealth = 100 + 20 ∧
    checkLevelUp initGame = initGame :=
  ⟨(checkLevelUp_step
      { initGame with player := { initGame.player with Experience := 95 + 150 } }).2.2 rfl rfl,
   ((checkLevelUp_step
      { initGame with player := { initGame.player with Experience := 95 + 150 } }).1
      (by decide) (by decide)).2.1,
   (checkLevelUp_step initGame).2.1 (by decide) (by decide)⟩

/-- The specified loop leaves no level-up pending when it has fuel for the
whole experience. -/
theorem progressionRuleLoop_done :
    ∀ (fuel : Nat) (p : Character), 1 ≤ p.Level → p.Experience < (fuel : Int) →
      (progressionRuleLoop fuel p).Experience < (progressionRuleLoop fuel p).Level * 100 := by
  intro fuel
  induction fuel with
  | zero =>
    intro p hl he
    simp only [progressionRuleLoop]
    have h0 : ((0 : Nat) : Int) = 0 := rfl
    rw [h0] at he
    omega
  | succ n ih =>
    intro p hl he
    rw [progressionRuleLoop]
    split
    · rename_i hreq
      apply ih
      · show 1 ≤ p.Level + 1
        omega
      · show p.Experience - p.Level * 100 < (n : Int)
        have hn : ((n + 1 : Nat) : Int) = (n : Int) + 1 := by push_cast; rfl
        rw [hn] at he
        omega
    · rename_i hreq
      omega

theorem progressionRuleSpec_done (g : Game) (hl : 1 ≤ g.player.Level) :
    (progressionRuleSpec g).player.Experience < (progressionRuleSpec g).player.Level * 100 := by
  unfold progressionRuleSpec
  apply progressionRuleLoop_done _ _ hl
  have hcast : ((g.player.Experience.toNat + 1 : Nat) : Int) =
      (g.player.Experience.toNat : Int) + 1 := by push_cast; rfl
  rw [hcast]
  have := Int.self_le_toNat g.player.Experience
  omega

/-- C13, counterexample: with level 1 and experience 300 one run of
`checkLevelUp` ends at level 2 with experience 200, which still reaches the
requirement 200 of level 2; the specified loop ends at level 3.  Nothing
overflows here. -/
theorem checkLevelUp_pending_counterexample :
    veteranGame.player.Level ≥ 1 ∧ veteranGame.player.Experience ≥ 0 ∧
    LevelUpFits veteranGame.player ∧
    (checkLevelUp veteranGame).player.Level = 2 ∧
    (checkLevelUp veteranGame).player.Experience = 200 ∧
    ¬ ((checkLevelUp veteranGame).player.Experience <
        (checkLevelUp veteranGame).player.Level * 100) ∧
    (progressionRuleSpec veteranGame).player.Level = 3 ∧
    checkLevelUp veteranGame ≠ progressionRuleSpec veteranGame := by
  refine ⟨by decide, by decide, by decide, by decide, by decide, by decide, ?_, ?_⟩
  · simp [progressionRuleSpec, progressionRuleLoop, veteranGame, initGame]
  · intro h
    have hl : (checkLevelUp veteranGame).player.Level =
        (progressionRuleSpec veteranGame).player.Level := by
      rw [h]
    have h2 : (checkLevelUp veteranGame).player.Level = 2 := by decide
    rw [h2] at hl
    simp [progressionRuleSpec, progressionRuleLoop, veteranGame, initGame] at hl

/-- C13, amended: one run of `checkLevelUp` applies at most one level-up.
For every state with level >= 1 and 0 <= experience < level * 100 +
(level + 1) * 100, i.e. with at most one level-up owed, and without overflow
in the level-up (`LevelUpFits`), after one run no level-up is pending
(experience < level * 100) and the result is that of the specified loop. -/
theorem checkLevelUp_single (g : Game) (hl : 1 ≤ g.player.Level)
    (he : 0 ≤ g.player.Experience)
    (hone : g.player.Experience < g.player.Level * 100 + (g.player.Level + 1) * 100)
    (hfit : LevelUpFits g.player) :
    (checkLevelUp g).player.Experience < (checkLevelUp g).player.Level * 100 ∧
    checkLevelUp g = progressionRuleSpec g := by
  rw [checkLevelUp_exact g hfit]
  by_cases hreq : g.player.Experience ≥ g.player.Level * 100
  · have hpos : 0 < g.player.Experience.toNat := by
      have := Int.toNat_of_nonneg he
      omega
    obtain ⟨m, hm⟩ : ∃ m : Nat, g.player.Experience.toNat = m + 1 :=
      ⟨_, (Nat.succ_pred_eq_of_pos hpos).symm⟩
    have hstop : ¬ (g.player.Experience - g.player.Level * 100 ≥ (g.player.Level + 1) * 100) := by
      omega
    constructor
    · simp only [hreq, if_true]
      omega
    · unfold progressionRuleSpec
      rw [hm]
      simp only [progressionRuleLoop, hreq, if_true, hstop, if_false]
  · constructor
    · simp only [hreq, if_false]
      omega
    · unfold progressionRuleSpec
      simp only [progressionRuleLoop, hreq, if_false]

theorem checkLevelUp_single_witness :
    (checkLevelUp { initGame with player := { initGame.player with Experience := 245 } }
      ).player.Experience <
    (checkLevelUp { initGame with player := { initGame.player with Experience := 245 } }
      ).player.Level * 100 :=
  (checkLevelUp_single { initGame with player := { initGame.player with Experience := 245 } }
    (by decide) (by decide) (by decide) (by decide)).1

/-! ## What each operation can do to the state -/

/-- The results of `showRoom`: in an unvisited room the room is marked and 5
experience is granted, in a visited room nothing changes. -/
theorem showRoom_cases (g g1 : Game) (hshow : showRoom g = some g1) :
    ∃ room, roomAt g.rooms g.currentRoom = some room ∧
      ((room.Visited = false ∧
          g1 = { (g.setRoom { room with Visited := true }) with
            player := { g.player with Experience := wrap64 (g.player.Experience + 5) } }) ∨
       (room.Visited = true ∧ g1 = g)) := by
  unfold showRoom at hshow
  rcases Option.eq_none_or_eq_some (roomAt g.rooms g.currentRoom) with hroom | ⟨room, hroom⟩
  · simp [hroom] at hshow
  · simp only [hroom] at hshow
    have hres : some (if room.Visited = false then
        { (g.setRoom { room with Visited := true }) with
          player := { g.player with Experience := wrap64 (g.player.Experience + 5) } }
        else g) = some g1 := by
      split at hshow
      · split at hshow
        · exact absurd hshow (by simp)
        · exact hshow
      · exact hshow
    refine ⟨room, hroom, ?_⟩
    cases hvis : room.Visited
    · left
      simp only [hvis, if_true] at hres
      exact ⟨rfl, (Option.some.inj hres).symm⟩
    · right
      simp only [hvis, Bool.true_eq_false, if_false] at hres
      exact ⟨rfl, (Option.some.inj hres).symm⟩

/-- A random event only touches the inventory, to which it appends "Золото",
"Зелье здоровья" or nothing. -/
theorem randomEvent_effect (g g1 : Game) (e : Nat) (hev : randomEvent g e = some g1) :
    ∃ items, (items = g.player.Inventory ∨ items = g.player.Inventory ++ ["Золото"] ∨
        items = g.player.Inventory ++ ["Зелье здоровья"]) ∧
      g1 = { g with player := { g.player with Inventory := items } } := by
  unfold randomEvent at hev
  split at hev
  · split at hev
    · cases hev; exact ⟨_, Or.inr (Or.inl rfl), rfl⟩
    · split at hev
      · cases hev; exact ⟨_, Or.inr (Or.inr rfl), rfl⟩
      · cases hev; exact ⟨g.player.Inventory, Or.inl rfl, rfl⟩
  · exact absurd hev (by simp)

/-- The possible results of `move`: no change, or a step to an exit's
destination, possibly followed by a random event. -/
theorem move_cases (g g1 : Game) (direction : String) (d : Draws)
    (hmove : move g direction d = some g1) :
    g1 = g ∨ ∃ room next, roomAt g.rooms g.currentRoom = some room ∧
      room.Exits.lookup direction = some next ∧
      (g1 = { g with currentRoom := next } ∨
        randomEvent { g with currentRoom := next } d.eventIdx = some g1) := by
  unfold move at hmove
  rcases Option.eq_none_or_eq_some (roomAt g.rooms g.currentRoom) with hroom | ⟨room, hroom⟩
  · simp [hroom] at hmove
  · simp only [hroom] at hmove
    rcases Option.eq_none_or_eq_some (room.Exits.lookup direction) with hexit | ⟨next, hexit⟩
    · simp only [hexit] at hmove
      cases hmove
      exact Or.inl rfl
    · simp only [hexit] at hmove
      have hstep : ∀ g2, (if d.event < 2 then
          randomEvent { g with currentRoom := next } d.eventIdx
          else some { g with currentRoom := next }) = some g2 →
          g2 = g ∨ ∃ room next, roomAt g.rooms g.currentRoom = some room ∧
            room.Exits.lookup direction = some next ∧
            (g2 = { g with currentRoom := next } ∨
              randomEvent { g with currentRoom := next } d.eventIdx = some g2) := by
        intro g2 h2
        refine Or.inr ⟨room, next, hroom, hexit, ?_⟩
        split at h2
        · exact Or.inr h2
        · cases h2; exact Or.inl rfl
      split at hmove
      · split at hmove
        · exact absurd hmove (by simp)
        · split at hmove
          · cases hmove; exact Or.inl rfl
          · exact hstep g1 hmove
      · exact hstep g1 hmove

/-- A move only touches the position and the inventory, to which it appends
"Золото", "Зелье здоровья" or nothing. -/
theorem move_effect (g g1 : Game) (direction : String) (d : Draws)
    (hmove : move g direction d = some g1) :
    ∃ n items, (items = g.player.Inventory ∨ items = g.player.Inventory ++ ["Золото"] ∨
        items = g.player.Inventory ++ ["Зелье здоровья"]) ∧
      g1 = { g with currentRoom := n, player := { g.player with Inventory := items } } := by
  rcases move_cases g g1 direction d hmove with rfl | ⟨room, next, _, _, hres⟩
  · exact ⟨g1.currentRoom, g1.player.Inventory, Or.inl rfl, rfl⟩
  · rcases hres with rfl | hev
    · exact ⟨next, g.player.Inventory, Or.inl rfl, rfl⟩
    · obtain ⟨items, hitems, rfl⟩ := randomEvent_effect _ g1 _ hev
      exact ⟨next, items, hitems, rfl⟩

/-- The results of `attack`: no change, or a strike at the live monster of the
current room, which either kills it (reward granted, possibly loot) or is
answered by a counterattack. -/
theorem attack_cases (g g1 : Game) (d : Draws) (hatt : attack g d = some g1) :
    g1 = g ∨ ∃ room m items, roomAt g.rooms g.currentRoom = some room ∧
      room.HasMonster = true ∧ room.Monster = some m ∧ 0 < m.Health ∧
      (items = g.player.Inventory ∨ ∃ item ∈ lootTable, items = g.player.Inventory ++ [item]) ∧
      ((wrap64 (m.Health - strikeDamage g.player.Attack d.hit m.Defense) ≤ 0 ∧
          g1 = { (g.setRoom { room with Monster := some { m with
                  Health := wrap64 (m.Health -
                    strikeDamage g.player.Attack d.hit m.Defense) } }) with
                 player := { g.player with
                   Experience := wrap64 (g.player.Experience + m.Reward),
                   Inventory := items } }) ∨
       (0 < wrap64 (m.Health - strikeDamage g.player.Attack d.hit m.Defense) ∧
          ∃ run, (run = g.gameRunning ∨ run = false) ∧
          g1 = { (g.setRoom { room with Monster := some { m with
                  Health := wrap64 (m.Health -
                    strikeDamage g.player.Attack d.hit m.Defense) } }) with
                 player := { g.player with
                   Health := wrap64 (g.player.Health -
                     strikeDamage m.Attack d.counter g.player.Defense) },
                 gameRunning := run })) := by
  unfold attack at hatt
  rcases Option.eq_none_or_eq_some (roomAt g.rooms g.currentRoom) with hroom | ⟨room, hroom⟩
  · simp [hroom] at hatt
  · simp only [hroom] at hatt
    split at hatt
    · cases hatt; exact Or.inl rfl
    · rename_i hhas
      have hhas1 : room.HasMonster = true := by
        cases h : room.HasMonster
        · exact absurd h hhas
        · rfl
      split at hatt
      · exact absurd hatt (by simp)
      · rename_i m hmon
        split at hatt
        · cases hatt; exact Or.inl rfl
        · rename_i hlive
          right
          refine ⟨room, m, ?_⟩
          by_cases hkill :
              wrap64 (m.Health - strikeDamage g.player.Attack d.hit m.Defense) ≤ 0
          · simp only [hkill, if_true] at hatt
            split at hatt
            · split at hatt
              · exact absurd hatt (by simp)
              · rename_i item hitem
                cases hatt
                exact ⟨_, hroom, hhas1, hmon, not_le.mp hlive,
                  Or.inr ⟨item, List.getElem?_mem hitem, rfl⟩, Or.inl ⟨hkill, rfl⟩⟩
            · cases hatt
              exact ⟨g.player.Inventory, hroom, hhas1, hmon, not_le.mp hlive, Or.inl rfl,
                Or.inl ⟨hkill, rfl⟩⟩
          · simp only [hkill, if_false] at hatt
            refine ⟨g.player.Inventory, hroom, hhas1, hmon, not_le.mp hlive, Or.inl rfl,
              Or.inr ⟨not_le.mp hkill, ?_⟩⟩
            split at hatt
            · cases hatt
              exact ⟨false, Or.inr rfl, rfl⟩
            · cases hatt
              exact ⟨g.gameRunning, Or.inl rfl, rfl⟩

/-- The results of `takeTreasure`: no change, or the treasure of the room
goes to the inventory, the room is emptied and the attack rises by 10 for a
treasure containing "Золотой меч". -/
theorem takeTreasure_cases (g g1 : Game) (htake : takeTreasure g = some g1) :
    g1 = g ∨ ∃ room, roomAt g.rooms g.currentRoom = some room ∧ room.HasTreasure = true ∧
      g1 = { (g.setRoom { room with HasTreasure := false, Treasure := "" }) with
        player := { g.player with
          Attack := if contains room.Treasure "Золотой меч" = true
            then wrap64 (g.player.Attack + 10) else g.player.Attack,
          Inventory := g.player.Inventory ++ [room.Treasure] } } := by
  unfold takeTreasure at htake
  rcases Option.eq_none_or_eq_some (roomAt g.rooms g.currentRoom) with hroom | ⟨room, hroom⟩
  · simp [hroom] at htake
  · simp only [hroom] at htake
    split at htake
    · cases htake; exact Or.inl rfl
    · rename_i hhas
      have hhas1 : room.HasTreasure = true := by
        cases h : room.HasTreasure
        · exact absurd h hhas
        · rfl
      cases htake
      right
      refine ⟨room, hroom, hhas1, ?_⟩
      by_cases hsword : contains room.Treasure "Золотой меч" = true
      · simp [hsword, Game.setRoom, Game.addItem]
      · simp [hsword, Game.setRoom, Game.addItem]

/-- The `switch` of `useItem` keeps name, maxHealth, defense, level and
experience. -/
theorem applyItem_keeps (p : Character) (item : String) (i : Nat) :
    (applyItem p item i).Name = p.Name ∧ (applyItem p item i).MaxHealth = p.MaxHealth ∧
    (applyItem p item i).Defense = p.Defense ∧ (applyItem p item i).Level = p.Level ∧
    (applyItem p item i).Experience = p.Experience := by
  obtain ⟨hn30, hm30, _, hd30, hl30, he30⟩ := heal_stats p 30
  obtain ⟨hn10, hm10, _, hd10, hl10, he10⟩ := heal_stats p 10
  unfold applyItem
  split
  · exact ⟨hn30, hm30, hd30, hl30, he30⟩
  · split
    · exact ⟨rfl, rfl, rfl, rfl, rfl⟩
    · split
      · exact ⟨hn10, hm10, hd10, hl10, he10⟩
      · exact ⟨rfl, rfl, rfl, rfl, rfl⟩

/-- The results of the loop of `useItem`: the player as he was, or the
`switch` applied to an entry of the inventory at its index. -/
theorem useItemLoop_cases (lower : String → String) (p : Character) (itemName : String) :
    ∀ (items pre : List String), p.Inventory = pre ++ items →
      useItemLoop lower p itemName items pre.length = p ∨
      ∃ i item, p.Inventory[i]? = some item ∧
        useItemLoop lower p itemName items pre.length = applyItem p item i := by
  intro items
  induction items with
  | nil => intro pre _; exact Or.inl rfl
  | cons item rest ih =>
    intro pre hinv
    rw [useItemLoop]
    split
    · right
      refine ⟨pre.length, item, ?_, rfl⟩
      rw [hinv, List.getElem?_append_right (le_refl _)]
      simp
    · have hnext := ih (pre ++ [item]) (by rw [hinv]; simp)
      rw [List.length_append, List.length_singleton] at hnext
      exact hnext

/-- The results of `useItem`: no change, or the `switch` applied to an entry
of the inventory. -/
theorem useItem_cases (lower : String → String) (g : Game) (itemName : String) :
    useItem lower g itemName = g ∨
    ∃ i item, g.player.Inventory[i]? = some item ∧
      useItem lower g itemName = { g with player := applyItem g.player item i } := by
  unfold useItem
  rcases useItemLoop_cases lower g.player itemName g.player.Inventory [] rfl with h | ⟨i, item, hi, h⟩
  · left
    rw [List.length_nil] at h
    rw [h]
  · right
    rw [List.length_nil] at h
    exact ⟨i, item, hi, by rw [h]⟩

theorem useItemLoop_keeps (lower : String → String) (p : Character) (itemName : String) :
    ∀ (items : List String) (k : Nat),
      (useItemLoop lower p itemName items k).Name = p.Name ∧
      (useItemLoop lower p itemName items k).MaxHealth = p.MaxHealth ∧
      (useItemLoop lower p itemName items k).Defense = p.Defense ∧
      (useItemLoop lower p itemName items k).Level = p.Level ∧
      (useItemLoop lower p itemName items k).Experience = p.Experience := by
  intro items
  induction items with
  | nil =>
    intro k
    exact ⟨rfl, rfl, rfl, rfl, rfl⟩
  | cons item rest ih =>
    intro k
    rw [useItemLoop]
    split
    · exact applyItem_keeps p item k
    · exact ih (k + 1)

/-- The branches of the `switch` of `processCommand`. -/
theorem dispatch_cases (lower : String → String) (g g1 : Game) (action : String)
    (parts : List String) (d : Draws) (hdis : dispatch lower g action parts d = some g1) :
    move g action d = some g1 ∨ attack g d = some g1 ∨ takeTreasure g = some g1 ∨
    g1 = g ∨ (∃ itemName, g1 = useItem lower g itemName) ∨
    g1 = { g with gameRunning := false } := by
  unfold dispatch at hdis
  split at hdis
  · exact Or.inl hdis
  · split at hdis
    · exact Or.inr (Or.inl hdis)
    · split at hdis
      · exact Or.inr (Or.inr (Or.inl hdis))
      · split at hdis
        · cases hdis; exact Or.inr (Or.inr (Or.inr (Or.inl rfl)))
        · split at hdis
          · split at hdis
            · cases hdis; exact Or.inr (Or.inr (Or.inr (Or.inr (Or.inl ⟨_, rfl⟩))))
            · cases hdis; exact Or.inr (Or.inr (Or.inr (Or.inl rfl)))
          · split at hdis
            · cases hdis; exact Or.inr (Or.inr (Or.inr (Or.inl rfl)))
            · split at hdis
              · cases hdis; exact Or.inr (Or.inr (Or.inr (Or.inl rfl)))
              · split at hdis
                · cases hdis; exact Or.inr (Or.inr (Or.inr (Or.inr (Or.inr rfl))))
                · cases hdis; exact Or.inr (Or.inr (Or.inr (Or.inl rfl)))

/-- A command is one dispatched operation followed by `checkLevelUp`. -/
theorem processCommand_cases (lower : String → String) (g g1 : Game) (command : String)
    (d : Draws) (hcmd : processCommand lower g command d = some g1) :
    ∃ action g0, (splitSpace command)[0]? = some action ∧
      dispatch lower g action (splitSpace command) d = some g0 ∧ g1 = checkLevelUp g0 := by
  unfold processCommand at hcmd
  simp only at hcmd
  split at hcmd
  · exact absurd hcmd (by simp)
  · rename_i action hact
    split at hcmd
    · exact absurd hcmd (by simp)
    · rename_i g0 hdis
      cases hcmd
      exact ⟨action, g0, hact, hdis, rfl⟩

/-! ## Monotone parts of the state -/

theorem keeps_refl (g : Game) : Keeps g g :=
  { visited := fun _ r hr hv => ⟨r, hr, hv⟩
    stopped := fun h => h }

theorem keeps_trans (g g1 g2 : Game) (h1 : Keeps g g1) (h2 : Keeps g1 g2) : Keeps g g2 :=
  { visited := fun i r hr hv => by
      obtain ⟨r1, hr1, hv1⟩ := h1.visited i r hr hv
      exact h2.visited i r1 hr1 hv1
    stopped := fun h => h2.stopped (h1.stopped h) }

/-- Writing a room that is visited if the old one was keeps every visited
flag that was set. -/
theorem visited_set (rooms : List Room) (k : Nat) (room room1 : Room)
    (h : rooms[k]? = some room) (hv : room.Visited = true → room1.Visited = true) :
    ∀ (i : Nat) (r : Room), rooms[i]? = some r → r.Visited = true →
      ∃ r1, (rooms.set k room1)[i]? = some r1 ∧ r1.Visited = true := by
  intro i r hr hvis
  by_cases hki : k = i
  · subst hki
    rw [h] at hr
    cases hr
    exact ⟨room1, by simp [List.getElem?_set', h], hv hvis⟩
  · exact ⟨r, by rw [List.getElem?_set_ne hki]; exact hr, hvis⟩

/-- A state that differs from `g` by a write to the current room that keeps a
set visited flag, by the player and by a session flag that was not switched
back on. -/
theorem keeps_write (g : Game) (room room1 : Room) (p : Character) (run : Bool)
    (hroom : roomAt g.rooms g.currentRoom = some room)
    (hv : room.Visited = true → room1.Visited = true)
    (hrun : run = g.gameRunning ∨ run = false) :
    Keeps g { (g.setRoom room1) with player := p, gameRunning := run } :=
  { visited := visited_set g.rooms _ room room1 (roomAt_eq_getElem? _ _ _ hroom).2 hv
    stopped := fun h => by
      rcases hrun with hr | hr
      · rw [hr]; exact h
      · exact hr }

/-- A state that differs from `g` by the player and the position only. -/
theorem keeps_player (g : Game) (p : Character) (n : Int) :
    Keeps g { g with player := p, currentRoom := n } :=
  { visited := fun _ r hr hv => ⟨r, hr, hv⟩
    stopped := fun h => h }

theorem keeps_showRoom (g g1 : Game) (hshow : showRoom g = some g1) : Keeps g g1 := by
  obtain ⟨room, hroom, ⟨_, rfl⟩ | ⟨_, rfl⟩⟩ := showRoom_cases g g1 hshow
  · exact keeps_write g room _ _ g.gameRunning hroom (fun _ => rfl) (Or.inl rfl)
  · exact keeps_refl _

theorem keeps_move (g g1 : Game) (direction : String) (d : Draws)
    (hmove : move g direction d = some g1) : Keeps g g1 := by
  obtain ⟨n, items, _, rfl⟩ := move_effect g g1 direction d hmove
  exact keeps_player g _ n

theorem keeps_attack (g g1 : Game) (d : Draws) (hatt : attack g d = some g1) :
    Keeps g g1 := by
  rcases attack_cases g g1 d hatt with rfl | ⟨room, m, items, hroom, _, _, _, _, hres⟩
  · exact keeps_refl _
  · rcases hres with ⟨_, rfl⟩ | ⟨_, run, hrun, rfl⟩
    · exact keeps_write g room _ _ g.gameRunning hroom (fun h => h) (Or.inl rfl)
    · exact keeps_write g room _ _ run hroom (fun h => h) hrun

theorem keeps_takeTreasure (g g1 : Game) (htake : takeTreasure g = some g1) :
    Keeps g g1 := by
  rcases takeTreasure_cases g g1 htake with rfl | ⟨room, hroom, _, rfl⟩
  · exact keeps_refl _
  · exact keeps_write g room _ _ g.gameRunning hroom (fun h => h) (Or.inl rfl)

theorem keeps_useItem (lower : String → String) (g : Game) (itemName : String) :
    Keeps g (useItem lower g itemName) :=
  keeps_player g _ g.currentRoom

theorem keeps_checkLevelUp (g : Game) : Keeps g (checkLevelUp g) := by
  unfold checkLevelUp
  simp only
  split
  · exact keeps_player g _ g.currentRoom
  · exact keeps_refl _

theorem keeps_quit (g : Game) : Keeps g { g with gameRunning := false } :=
  { visited := fun _ r hr hv => ⟨r, hr, hv⟩
    stopped := fun _ => rfl }

theorem keeps_dispatch (lower : String → String) (g g1 : Game) (action : String)
    (parts : List String) (d : Draws) (hdis : dispatch lower g action parts d = some g1) :
    Keeps g g1 := by
  rcases dispatch_cases lower g g1 action parts d hdis with h | h | h | rfl | ⟨n, rfl⟩ | rfl
  · exact keeps_move g g1 action d h
  · exact keeps_attack g g1 d h
  · exact keeps_takeTreasure g g1 h
  · exact keeps_refl _
  · exact keeps_useItem lower g n
  · exact keeps_quit g

theorem keeps_processCommand (lower : String → String) (g g1 : Game) (command : String)
    (d : Draws) (hcmd : processCommand lower g command d = some g1) : Keeps g g1 := by
  obtain ⟨action, g0, _, hdis, rfl⟩ := processCommand_cases lower g g1 command d hcmd
  exact keeps_trans g g0 _ (keeps_dispatch lower g g0 action _ d hdis) (keeps_checkLevelUp g0)

theorem keeps_operation (lower : String → String) (g g1 : Game)
    (hop : Operation lower g g1) : Keeps g g1 := by
  rcases hop with h | ⟨dir, d, h⟩ | ⟨d, h⟩ | h | ⟨n, rfl⟩ | rfl | ⟨c, d, h⟩
  · exact keeps_showRoom g g1 h
  · exact keeps_move g g1 dir d h
  · exact keeps_attack g g1 d h
  · exact keeps_takeTreasure g g1 h
  · exact keeps_useItem lower g n
  · exact keeps_checkLevelUp g
  · exact keeps_processCommand lower g g1 c d h

/-! ## Exploration -/

/-- The result of `showRoom` in a room that exists and whose monster flag, if
set, comes with a monster. -/
theorem showRoom_eq (g : Game) (room : Room)
    (hroom : roomAt g.rooms g.currentRoom = some room)
    (hmon : room.HasMonster = true → ∃ m, room.Monster = some m) :
    showRoom g = some (if room.Visited = false then
      { (g.setRoom { room with Visited := true }) with
        player := { g.player with Experience := wrap64 (g.player.Experience + 5) } }
      else g) := by
  unfold showRoom
  rw [hroom]
  by_cases hhas : room.HasMonster = true
  · obtain ⟨m, hm⟩ := hmon hhas
    simp only [if_pos hhas]
    rw [hm]
  · simp only [if_neg hhas]

/-- C14: the exploration bonus is granted once per room.  Displaying an
unvisited current room marks it visited and adds exactly 5 to the experience
(the sum `experience + 5` being an `int` value, i.e. without overflow),
leaving everything else as it was; displaying a visited room returns the
state it was given; hence a second display changes nothing; and no operation
of the program turns a set visited flag off again. -/
theorem showRoom_bonus_once (lower : String → String) (g : Game) :
    (∀ room, roomAt g.rooms g.currentRoom = some room →
      (room.HasMonster = true → ∃ m, room.Monster = some m) →
      (room.Visited = false → fits64 (g.player.Experience + 5) →
        ∃ g1, showRoom g = some g1 ∧
          roomAt g1.rooms g1.currentRoom = some { room with Visited := true } ∧
          g1.player.Experience = g.player.Experience + 5 ∧
          g1.player.Name = g.player.Name ∧ g1.player.Health = g.player.Health ∧
          g1.player.MaxHealth = g.player.MaxHealth ∧ g1.player.Attack = g.player.Attack ∧
          g1.player.Defense = g.player.Defense ∧ g1.player.Level = g.player.Level ∧
          g1.player.Inventory = g.player.Inventory ∧
          g1.currentRoom = g.currentRoom ∧ g1.gameRunning = g.gameRunning ∧
          g1.rooms.length = g.rooms.length ∧
          (∀ i, i ≠ g.currentRoom.toNat → g1.rooms[i]? = g.rooms[i]?)) ∧
      (room.Visited = true → showRoom g = some g) ∧
      (∀ g1, showRoom g = some g1 → showRoom g1 = some g1)) ∧
    (∀ g1, Operation lower g g1 →
      ∀ (i : Nat) (r : Room), g.rooms[i]? = some r → r.Visited = true →
        ∃ r1, g1.rooms[i]? = some r1 ∧ r1.Visited = true) := by
  constructor
  · intro room hroom hmon
    have heq := showRoom_eq g room hroom hmon
    refine ⟨?_, ?_, ?_⟩
    · intro hvis hfit
      rw [heq]
      simp only [hvis, if_true]
      refine ⟨_, rfl, roomAt_setRoom g room _ hroom, wrap64_of_fits _ hfit, rfl, rfl, rfl, rfl,
        rfl, rfl, rfl, rfl, rfl, ?_, ?_⟩
      · show (g.rooms.set _ _).length = g.rooms.length
        rw [List.length_set]
      · intro i hne
        show (g.rooms.set _ _)[i]? = g.rooms[i]?
        rw [List.getElem?_set_ne (Ne.symm hne)]
    · intro hvis
      rw [heq]
      simp [hvis]
    · intro g1 hshow
      rw [heq] at hshow
      cases hvis : room.Visited
      · simp only [hvis, if_true] at hshow
        cases hshow
        have hroom1 := roomAt_setRoom g room { room with Visited := true } hroom
        rw [showRoom_eq
          { (g.setRoom { room with Visited := true }) with
            player := { g.player with Experience := wrap64 (g.player.Experience + 5) } }
          { room with Visited := true } hroom1 hmon]
        simp
      · simp only [hvis, Bool.true_eq_false, if_false] at hshow
        cases hshow
        rw [heq]
        simp [hvis]
  · intro g1 hop
    exact (keeps_operation lower g g1 hop).visited

theorem showRoom_bonus_once_witness :
    ∃ g1, showRoom initGame = some g1 ∧ g1.player.Experience = 0 + 5 ∧
      showRoom g1 = some g1 := by
  obtain ⟨hfirst, _, htwice⟩ :=
    (showRoom_bonus_once lowerText initGame).1 _ rfl (fun h => absurd h (by decide))
  obtain ⟨g1, hshow, _, hexp, _⟩ := hfirst rfl (by decide)
  exact ⟨g1, hshow, hexp, htwice g1 hshow⟩

/-! ## The dispatcher -/

theorem splitChars_ne_nil (sep : Char) : ∀ cs : List Char, splitChars sep cs ≠ [] := by
  intro cs
  induction cs with
  | nil => simp [splitChars]
  | cons c cs ih =>
    rw [splitChars]
    split
    · simp
    · split <;> simp

/-- The list `strings.Split(command, " ")` always has a first element. -/
theorem splitSpace_head (command : String) :
    ∃ action, (splitSpace command)[0]? = some action := by
  unfold splitSpace
  cases h : splitChars ' ' command.data with
  | nil => exact absurd h (splitChars_ne_nil ' ' command.data)
  | cons w ws => exact ⟨String.mk w, by simp⟩

/-- C15: after the dispatch the Progression Rule always runs, and an
unrecognised command does nothing else.  For every state and every command
line, with `action` its first space-separated word, `processCommand` fails
where the dispatched operation fails and otherwise returns `checkLevelUp` of
the state the dispatched operation returns, whichever operation it is: `move`
for the four directions, `attack`, `takeTreasure`, `useItem` on the rest of
the line, the state before for the three display verbs, the state with the
session switched off for the quit verbs; and when the word is none of the
known verbs, or is the verb "использовать" given without an argument, the
dispatch returns the state before, so that `processCommand` returns
`checkLevelUp` of the state before. -/
theorem processCommand_then_checkLevelUp (lower : String → String) (g : Game)
    (command : String) (d : Draws) (action : String)
    (hact : (splitSpace command)[0]? = some action) :
    processCommand lower g command d =
      (dispatch lower g action (splitSpace command) d).map checkLevelUp ∧
    (action = "север" ∨ action = "юг" ∨ action = "восток" ∨ action = "запад" →
      processCommand lower g command d = (move g action d).map checkLevelUp) ∧
    (action = "атака" ∨ action = "бить" →
      processCommand lower g command d = (attack g d).map checkLevelUp) ∧
    (action = "взять" →
      processCommand lower g command d = (takeTreasure g).map checkLevelUp) ∧
    (action = "использовать" → (splitSpace command).length > 1 →
      processCommand lower g command d =
        some (checkLevelUp (useItem lower g (joinSpace ((splitSpace command).drop 1))))) ∧
    (action = "инвентарь" ∨ action = "inv" ∨ action = "статус" ∨ action = "помощь" ∨
        action = "help" →
      processCommand lower g command d = some (checkLevelUp g)) ∧
    (action = "выход" ∨ action = "quit" →
      processCommand lower g command d = some (checkLevelUp { g with gameRunning := false })) ∧
    (action ∉ knownVerbs ∨ (action = "использовать" ∧ (splitSpace command).length ≤ 1) →
      dispatch lower g action (splitSpace command) d = some g ∧
      processCommand lower g command d = some (checkLevelUp g)) := by
  have hgen : processCommand lower g command d =
      (dispatch lower g action (splitSpace command) d).map checkLevelUp := by
    unfold processCommand
    simp only [hact]
    cases dispatch lower g action (splitSpace command) d <;> rfl
  refine ⟨hgen, ?_, ?_, ?_, ?_, ?_, ?_, ?_⟩
  · intro hverb
    rw [hgen]
    rcases hverb with rfl | rfl | rfl | rfl <;> simp [dispatch]
  · intro hverb
    rw [hgen]
    rcases hverb with rfl | rfl <;> simp [dispatch]
  · intro hverb
    rw [hgen]
    subst hverb
    simp [dispatch]
  · intro hverb hlen
    rw [hgen]
    subst hverb
    simp [dispatch, hlen]
  · intro hverb
    rw [hgen]
    rcases hverb with rfl | rfl | rfl | rfl | rfl <;>
      simp [dispatch, showInventory, showStatus, showHelp]
  · intro hverb
    rw [hgen]
    rcases hverb with rfl | rfl <;> simp [dispatch]
  · intro hcase
    have hdis : dispatch lower g action (splitSpace command) d = some g := by
      rcases hcase with hun | ⟨huse, hlen⟩
      · simp only [knownVerbs, List.mem_cons, List.mem_singleton, not_or, List.not_mem_nil,
          or_false] at hun
        obtain ⟨h1, h2, h3, h4, h5, h6, h7, h8, h9, h10, h11, h12, h13, h14, h15⟩ := hun
        simp [dispatch, h1, h2, h3, h4, h5, h6, h7, h8, h9, h10, h11, h12, h13, h14, h15,
          showInventory, showStatus, showHelp]
      · have hnot : ¬ (splitSpace command).length > 1 := by omega
        subst huse
        simp [dispatch, hnot]
    exact ⟨hdis, by rw [hgen, hdis]; rfl⟩

theorem processCommand_then_checkLevelUp_witness :
    processCommand lowerText veteranGame "статус" ⟨0, 0, 0, 0, 0, 0⟩ =
      some (checkLevelUp veteranGame) ∧
    processCommand lowerText veteranGame "танцевать до утра" ⟨0, 0, 0, 0, 0, 0⟩ =
      some (checkLevelUp veteranGame) ∧
    processCommand lowerText veteranGame "использовать" ⟨0, 0, 0, 0, 0, 0⟩ =
      some (checkLevelUp veteranGame) ∧
    (checkLevelUp veteranGame).player.Level = 2 :=
  ⟨(processCommand_then_checkLevelUp lowerText veteranGame "статус" ⟨0, 0, 0, 0, 0, 0⟩
      "статус" (by decide)).2.2.2.2.2.1 (Or.inr (Or.inr (Or.inl rfl))),
   ((processCommand_then_checkLevelUp lowerText veteranGame "танцевать до утра"
      ⟨0, 0, 0, 0, 0, 0⟩ "танцевать" (by decide)).2.2.2.2.2.2.2 (Or.inl (by decide))).2,
   ((processCommand_then_checkLevelUp lowerText veteranGame "использовать"
      ⟨0, 0, 0, 0, 0, 0⟩ "использовать" (by decide)).2.2.2.2.2.2.2
      (Or.inr ⟨rfl, by decide⟩)).2,
   by decide⟩

/-! ## End of the session -/

/-- An inactive session: the loop processes no further line. -/
theorem mainLoop_stopped (lower trim : String → String) (g : Game)
    (lines : List (String × Draws)) (hstop : g.gameRunning = false) :
    mainLoop lower trim g lines = some g := by
  cases lines with
  | nil => simp [mainLoop, hstop]
  | cons line rest =>
    obtain ⟨text, d⟩ := line
    simp [mainLoop, hstop]

/-- The counterattack of a surviving monster writes `false` to the session
flag when it brings the player's health to 0 or below; the two healths are
the ones the program computes, in 64-bit arithmetic. -/
theorem attack_fatal (g : Game) (d : Draws) (room : Room) (monster : Monster)
    (hroom : roomAt g.rooms g.currentRoom = some room)
    (hhas : room.HasMonster = true) (hmon : room.Monster = some monster)
    (hlive : monster.Health > 0)
    (hsurvive :
      wrap64 (monster.Health - strikeDamage g.player.Attack d.hit monster.Defense) > 0)
    (hfatal :
      wrap64 (g.player.Health - strikeDamage monster.Attack d.counter g.player.Defense) ≤ 0) :
    ∃ g1, attack g d = some g1 ∧ g1.gameRunning = false ∧
      g1.player.Health =
        wrap64 (g.player.Health - strikeDamage monster.Attack d.counter g.player.Defense) := by
  have hnot : ¬ monster.Health ≤ 0 := not_le.mpr hlive
  have hnokill :
      ¬ wrap64 (monster.Health - strikeDamage g.player.Attack d.hit monster.Defense) ≤ 0 :=
    not_le.mpr hsurvive
  unfold attack
  rw [hroom]
  simp only [hhas, hmon, hnot, if_false, Bool.true_eq_false, hnokill]
  simp only [Game.setRoom]
  exact ⟨_, by rw [if_pos hfatal], rfl, rfl⟩

/-- The quit verbs switch the session off. -/
theorem processCommand_quit (lower : String → String) (g : Game) (command : String)
    (d : Draws) (action : String) (hact : (splitSpace command)[0]? = some action)
    (hquit : action = "выход" ∨ action = "quit") :
    ∃ g1, processCommand lower g command d = some g1 ∧ g1.gameRunning = false := by
  have hdis : dispatch lower g action (splitSpace command) d =
      some { g with gameRunning := false } := by
    rcases hquit with rfl | rfl <;> simp [dispatch]
  refine ⟨checkLevelUp { g with gameRunning := false }, ?_, ?_⟩
  · unfold processCommand
    simp only [hact, hdis]
  · exact (keeps_checkLevelUp _).stopped rfl

/-- C17: once inactive, always inactive.  In the command loop an inactive
session processes no further line: the remaining input leaves the whole
state unchanged, in particular after a command that has switched the session
off.  The quit verbs switch it off, and so does an attack whose counterattack
brings the player's health to 0 or below (the health of the monster and of
the player being the ones the program computes, in 64-bit arithmetic; without
overflow they are the plain differences).  No operation of the program
switches an inactive session on again. -/
theorem session_stays_inactive (lower trim : String → String) (g : Game) :
    (∀ lines, g.gameRunning = false → mainLoop lower trim g lines = some g) ∧
    (∀ line d rest g1 g2, g.gameRunning = true → showRoom g = some g1 →
      processCommand lower g1 (lower (trim line)) d = some g2 → g2.gameRunning = false →
      mainLoop lower trim g ((line, d) :: rest) = some g2) ∧
    (∀ command d action, (splitSpace command)[0]? = some action →
      (action = "выход" ∨ action = "quit") →
      ∃ g1, processCommand lower g command d = some g1 ∧ g1.gameRunning = false) ∧
    (∀ d room monster, roomAt g.rooms g.currentRoom = some room →
      room.HasMonster = true → room.Monster = some monster → monster.Health > 0 →
      wrap64 (monster.Health - strikeDamage g.player.Attack d.hit monster.Defense) > 0 →
      wrap64 (g.player.Health - strikeDamage monster.Attack d.counter g.player.Defense) ≤ 0 →
      ∃ g1, attack g d = some g1 ∧ g1.gameRunning = false ∧
        processCommand lower g "атака" d = some (checkLevelUp g1) ∧
        (checkLevelUp g1).gameRunning = false) ∧
    (∀ g1, Operation lower g g1 → g.gameRunning = false → g1.gameRunning = false) := by
  refine ⟨fun lines hstop => mainLoop_stopped lower trim g lines hstop, ?_,
    fun command d action hact hquit => processCommand_quit lower g command d action hact hquit,
    ?_, fun g1 hop => (keeps_operation lower g g1 hop).stopped⟩
  · intro line d rest g1 g2 hrun hshow hcmd hstop
    rw [mainLoop]
    simp only [hrun, if_true, hshow, hcmd]
    exact mainLoop_stopped lower trim g2 rest hstop
  · intro d room monster hroom hhas hmon hlive hsurvive hfatal
    obtain ⟨g1, hatt, hstop, _⟩ :=
      attack_fatal g d room monster hroom hhas hmon hlive hsurvive hfatal
    refine ⟨g1, hatt, hstop, ?_, (keeps_checkLevelUp g1).stopped hstop⟩
    have hact : (splitSpace "атака")[0]? = some "атака" := by decide
    have hdis : dispatch lower g "атака" (splitSpace "атака") d = some g1 := by
      simp [dispatch, hatt]
    unfold processCommand
    simp only [hact, hdis]

theorem session_stays_inactive_witness :
    mainLoop lowerText trimText initGame
      [("  Выход ", ⟨0, 0, 0, 0, 0, 0⟩), ("север", ⟨5, 0, 0, 0, 0, 0⟩),
       ("взять", ⟨0, 0, 0, 0, 0, 0⟩)] = some quitGame :=
  (session_stays_inactive lowerText trimText initGame).2.1 "  Выход " ⟨0, 0, 0, 0, 0, 0⟩
    [("север", ⟨5, 0, 0, 0, 0, 0⟩), ("взять", ⟨0, 0, 0, 0, 0, 0⟩)]
    { quitGame with gameRunning := true } quitGame (by decide) (by decide) (by decide)
    (by decide)

/-! ## The fixed world -/

/-- Writing a room with the same fixed part leaves the fixed parts alone. -/
theorem fixedPart_setRoom (g : Game) (room room1 : Room)
    (hroom : roomAt g.rooms g.currentRoom = some room)
    (hfix : room1.fixedPart = room.fixedPart) :
    (g.setRoom room1).rooms.map Room.fixedPart = g.rooms.map Room.fixedPart :=
  map_set_same Room.fixedPart g.rooms _ room room1 (roomAt_eq_getElem? _ _ _ hroom).2 hfix

theorem monsterHealth_set (rooms : List Room) (k i : Nat) (room room1 : Room)
    (h : rooms[k]? = some room) :
    monsterHealth (rooms.set k room1) i =
      if k = i then (match room1.Monster with | some m => m.Health | none => 0)
      else monsterHealth rooms i := by
  unfold monsterHealth
  by_cases hki : k = i
  · subst hki
    simp [List.getElem?_set', h]
  · simp [List.getElem?_set', hki]

/-- Writing a room with the same monster leaves every monster's health alone. -/
theorem monsterHealth_setRoom_same (g : Game) (room room1 : Room) (i : Nat)
    (hroom : roomAt g.rooms g.currentRoom = some room)
    (hmon : room1.Monster = room.Monster) :
    monsterHealth (g.setRoom room1).rooms i = monsterHealth g.rooms i := by
  have hget := (roomAt_eq_getElem? _ _ _ hroom).2
  unfold Game.setRoom
  simp only
  rw [monsterHealth_set _ _ _ room room1 hget]
  by_cases hki : g.currentRoom.toNat = i
  · subst hki
    simp [monsterHealth, hget, hmon]
  · simp [hki]

theorem monsterHealth_current (g : Game) (room : Room) (m : Monster)
    (hroom : roomAt g.rooms g.currentRoom = some room) (hmon : room.Monster = some m) :
    monsterHealth g.rooms g.currentRoom.toNat = m.Health := by
  unfold monsterHealth
  rw [(roomAt_eq_getElem? _ _ _ hroom).2]
  simp only [hmon]

theorem threat_setRoom_same (g : Game) (room room1 : Room)
    (hroom : roomAt g.rooms g.currentRoom = some room)
    (hmon : room1.Monster = room.Monster) :
    threat (g.setRoom room1).rooms = threat g.rooms := by
  unfold threat
  rw [monsterHealth_setRoom_same g room room1 1 hroom hmon,
    monsterHealth_setRoom_same g room room1 3 hroom hmon]

theorem threat_nonneg (rooms : List Room) : 0 ≤ threat rooms := by
  unfold threat blowsLeft
  split <;> split <;> omega

theorem threat_le (rooms : List Room) (hw : monsterHealth rooms 1 ≤ 30)
    (ht : monsterHealth rooms 3 ≤ 50) : threat rooms ≤ 100 := by
  unfold threat blowsLeft
  split <;> split <;> omega

theorem room_of_plan (rooms : List Room)
    (hfixed : rooms.map Room.fixedPart = initGame.rooms.map Room.fixedPart) (i : Nat)
    (c : List (String × Int) × Bool × Option (Int × Int × Int))
    (hc : (initGame.rooms.map Room.fixedPart)[i]? = some c) :
    ∃ room, rooms[i]? = some room ∧ room.fixedPart = c := by
  rw [← hfixed, List.getElem?_map] at hc
  exact Option.map_eq_some'.mp hc

/-- The current room of a state of the fixed world: which room it is fixes
its exits and its monster. -/
theorem currentRoom_cases (g : Game) (h : WorldInv g) :
    ∃ room, roomAt g.rooms g.currentRoom = some room ∧
      ((g.currentRoom = 0 ∧ room.Exits = [("север", 1), ("восток", 2)] ∧
          room.HasMonster = false) ∨
       (g.currentRoom = 1 ∧ room.Exits = [("юг", 0), ("север", 3)] ∧
          room.HasMonster = true ∧
          ∃ m, room.Monster = some m ∧ m.Attack = 15 ∧ m.Defense = 5 ∧ m.Reward = 25) ∨
       (g.currentRoom = 2 ∧ room.Exits = [("запад", 0), ("север", 4)] ∧
          room.HasMonster = false) ∨
       (g.currentRoom = 3 ∧ room.Exits = [("юг", 1)] ∧ room.HasMonster = true ∧
          ∃ m, room.Monster = some m ∧ m.Attack = 25 ∧ m.Defense = 8 ∧ m.Reward = 50) ∨
       (g.currentRoom = 4 ∧ room.Exits = [("юг", 2)] ∧ room.HasMonster = false)) := by
  have hlo := h.posLower
  have hhi := h.posUpper
  have hcases : g.currentRoom = 0 ∨ g.currentRoom = 1 ∨ g.currentRoom = 2 ∨
      g.currentRoom = 3 ∨ g.currentRoom = 4 := by omega
  rcases hcases with hc | hc | hc | hc | hc
  · obtain ⟨room, hget, hfix⟩ := room_of_plan g.rooms h.fixed 0
      ([("север", 1), ("восток", 2)], false, none) rfl
    refine ⟨room, by simp [roomAt, hc, hget], Or.inl ?_⟩
    simp only [Room.fixedPart, Prod.mk.injEq] at hfix
    exact ⟨hc, hfix.1, hfix.2.1⟩
  · obtain ⟨room, hget, hfix⟩ := room_of_plan g.rooms h.fixed 1
      ([("юг", 0), ("север", 3)], true, some (15, 5, 25)) rfl
    refine ⟨room, by simp [roomAt, hc, hget], Or.inr (Or.inl ?_)⟩
    simp only [Room.fixedPart, Prod.mk.injEq] at hfix
    obtain ⟨m, hm, hstat⟩ := Option.map_eq_some'.mp hfix.2.2
    simp only [Prod.mk.injEq] at hstat
    exact ⟨hc, hfix.1, hfix.2.1, m, hm, hstat.1, hstat.2.1, hstat.2.2⟩
  · obtain ⟨room, hget, hfix⟩ := room_of_plan g.rooms h.fixed 2
      ([("запад", 0), ("север", 4)], false, none) rfl
    refine ⟨room, by simp [roomAt, hc, hget], Or.inr (Or.inr (Or.inl ?_))⟩
    simp only [Room.fixedPart, Prod.mk.injEq] at hfix
    exact ⟨hc, hfix.1, hfix.2.1⟩
  · obtain ⟨room, hget, hfix⟩ := room_of_plan g.rooms h.fixed 3
      ([("юг", 1)], true, some (25, 8, 50)) rfl
    refine ⟨room, by simp [roomAt, hc, hget], Or.inr (Or.inr (Or.inr (Or.inl ?_)))⟩
    simp only [Room.fixedPart, Prod.mk.injEq] at hfix
    obtain ⟨m, hm, hstat⟩ := Option.map_eq_some'.mp hfix.2.2
    simp only [Prod.mk.injEq] at hstat
    exact ⟨hc, hfix.1, hfix.2.1, m, hm, hstat.1, hstat.2.1, hstat.2.2⟩
  · obtain ⟨room, hget, hfix⟩ := room_of_plan g.rooms h.fixed 4
      ([("юг", 2)], false, none) rfl
    refine ⟨room, by simp [roomAt, hc, hget], Or.inr (Or.inr (Or.inr (Or.inr ?_)))⟩
    simp only [Room.fixedPart, Prod.mk.injEq] at hfix
    exact ⟨hc, hfix.1, hfix.2.1⟩

theorem rooms_length (g : Game) (h : WorldInv g) : g.rooms.length = 5 := by
  have hlen := congrArg List.length h.fixed
  rw [List.length_map, List.length_map] at hlen
  exact hlen

/-- The fixed part of any room of a state of the fixed world is one of the
five of the initial world. -/
theorem fixedPart_cases (g : Game) (h : WorldInv g) (i : Nat) (room : Room)
    (hr : g.rooms[i]? = some room) :
    (i = 0 ∧ room.fixedPart = ([("север", 1), ("восток", 2)], false, none)) ∨
    (i = 1 ∧ room.fixedPart = ([("юг", 0), ("север", 3)], true, some (15, 5, 25))) ∨
    (i = 2 ∧ room.fixedPart = ([("запад", 0), ("север", 4)], false, none)) ∨
    (i = 3 ∧ room.fixedPart = ([("юг", 1)], true, some (25, 8, 50))) ∨
    (i = 4 ∧ room.fixedPart = ([("юг", 2)], false, none)) := by
  have hlen := rooms_length g h
  have hi : i < g.rooms.length := (List.getElem?_eq_some.mp hr).1
  have hplan : (initGame.rooms.map Room.fixedPart)[i]? = some room.fixedPart := by
    rw [← h.fixed, List.getElem?_map, hr]
    rfl
  have hcases : i = 0 ∨ i = 1 ∨ i = 2 ∨ i = 3 ∨ i = 4 := by omega
  rcases hcases with rfl | rfl | rfl | rfl | rfl
  · exact Or.inl ⟨rfl, (Option.some.inj hplan).symm⟩
  · exact Or.inr (Or.inl ⟨rfl, (Option.some.inj hplan).symm⟩)
  · exact Or.inr (Or.inr (Or.inl ⟨rfl, (Option.some.inj hplan).symm⟩))
  · exact Or.inr (Or.inr (Or.inr (Or.inl ⟨rfl, (Option.some.inj hplan).symm⟩)))
  · exact Or.inr (Or.inr (Or.inr (Or.inr ⟨rfl, (Option.some.inj hplan).symm⟩)))

/-- In the fixed world every room flagged as having a monster holds one. -/
theorem monster_present (g : Game) (h : WorldInv g) (i : Nat) (room : Room)
    (hr : g.rooms[i]? = some room) (hhas : room.HasMonster = true) :
    ∃ m, room.Monster = some m := by
  rcases fixedPart_cases g h i room hr with ⟨_, hf⟩ | ⟨_, hf⟩ | ⟨_, hf⟩ | ⟨_, hf⟩ | ⟨_, hf⟩ <;>
    simp only [Room.fixedPart, Prod.mk.injEq] at hf
  · rw [hf.2.1] at hhas; exact absurd hhas (by decide)
  · obtain ⟨m, hm, _⟩ := Option.map_eq_some'.mp hf.2.2
    exact ⟨m, hm⟩
  · rw [hf.2.1] at hhas; exact absurd hhas (by decide)
  · obtain ⟨m, hm, _⟩ := Option.map_eq_some'.mp hf.2.2
    exact ⟨m, hm⟩
  · rw [hf.2.1] at hhas; exact absurd hhas (by decide)

/-- In the fixed world every exit of every room leads to a room. -/
theorem exits_valid (g : Game) (h : WorldInv g) (i : Nat) (room : Room)
    (hr : g.rooms[i]? = some room) :
    ∀ e ∈ room.Exits, 0 ≤ e.2 ∧ e.2 < (g.rooms.length : Int) := by
  rw [rooms_length g h]
  intro e he
  rcases fixedPart_cases g h i room hr with ⟨_, hf⟩ | ⟨_, hf⟩ | ⟨_, hf⟩ | ⟨_, hf⟩ | ⟨_, hf⟩ <;>
    simp only [Room.fixedPart, Prod.mk.injEq] at hf <;>
    rw [hf.1] at he <;>
    simp only [List.mem_cons, List.mem_singleton, List.not_mem_nil, or_false] at he
  · rcases he with rfl | rfl <;> decide
  · rcases he with rfl | rfl <;> decide
  · rcases he with rfl | rfl <;> decide
  · subst he; decide
  · subst he; decide

/-- In the fixed world the current room exists and, if flagged, holds its
monster. -/
theorem currentRoom_ok (g : Game) (h : WorldInv g) :
    ∃ room, roomAt g.rooms g.currentRoom = some room ∧
      (room.HasMonster = true → ∃ m, room.Monster = some m) := by
  obtain ⟨room, hroom, _⟩ := currentRoom_cases g h
  exact ⟨room, hroom, monster_present g h _ room (roomAt_eq_getElem? _ _ _ hroom).2⟩

/-- In the fixed world the monsters are the wolf of room 1, with health at
most 30, and the troll of room 3, with health at most 50. -/
theorem monster_cases (g : Game) (h : WorldInv g) (i : Nat) (room : Room) (m : Monster)
    (hr : g.rooms[i]? = some room) (hm : room.Monster = some m) :
    (i = 1 ∧ m.Health ≤ 30) ∨ (i = 3 ∧ m.Health ≤ 50) := by
  have hmh : monsterHealth g.rooms i = m.Health := by
    unfold monsterHealth
    rw [hr]
    simp only [hm]
  rcases fixedPart_cases g h i room hr with ⟨_, hf⟩ | ⟨hi, _⟩ | ⟨_, hf⟩ | ⟨hi, _⟩ | ⟨_, hf⟩
  · simp [Room.fixedPart, hm] at hf
  · subst hi
    exact Or.inl ⟨rfl, by rw [← hmh]; exact h.wolf⟩
  · simp [Room.fixedPart, hm] at hf
  · subst hi
    exact Or.inr ⟨rfl, by rw [← hmh]; exact h.troll⟩
  · simp [Room.fixedPart, hm] at hf

/-- Every exit of the fixed world leads to one of its five rooms. -/
theorem exit_in_range (g : Game) (h : WorldInv g) (room : Room) (direction : String)
    (next : Int) (hroom : roomAt g.rooms g.currentRoom = some room)
    (hexit : room.Exits.lookup direction = some next) : 0 ≤ next ∧ next < 5 := by
  obtain ⟨room1, hroom1, hcases⟩ := currentRoom_cases g h
  rw [hroom] at hroom1
  cases hroom1
  rcases hcases with ⟨_, hex, _⟩ | ⟨_, hex, _⟩ | ⟨_, hex, _⟩ | ⟨_, hex, _⟩ | ⟨_, hex, _⟩ <;>
    rw [hex] at hexit <;> simp only [List.lookup] at hexit <;>
    split at hexit <;> (try split at hexit) <;> simp at hexit <;> omega

/-- With no monster in the room, or a defeated one, `attack` returns the
state it was given. -/
theorem attack_idle (g : Game) (d : Draws) (room : Room)
    (hroom : roomAt g.rooms g.currentRoom = some room)
    (hnone : room.HasMonster = false ∨ ∃ m, room.Monster = some m ∧ m.Health ≤ 0) :
    attack g d = some g := by
  unfold attack
  rw [hroom]
  rcases hnone with hno | ⟨m, hm, hdead⟩
  · simp [hno]
  · cases hhas : room.HasMonster <;> simp [hm, hdead]

theorem visitBonus_set (rooms : List Room) (k i : Nat) (room room1 : Room)
    (h : rooms[k]? = some room) :
    visitBonus (rooms.set k room1) i =
      if k = i then (if room1.Visited = true then 0 else 5) else visitBonus rooms i := by
  unfold visitBonus
  by_cases hki : k = i
  · subst hki
    simp [List.getElem?_set', h]
  · simp [List.getElem?_set', hki]

theorem visitBonus_nonneg (rooms : List Room) (i : Nat) : 0 ≤ visitBonus rooms i := by
  unfold visitBonus
  split
  · split <;> decide
  · decide

theorem visitBonus_setRoom_same (g : Game) (room room1 : Room) (i : Nat)
    (hroom : roomAt g.rooms g.currentRoom = some room)
    (hvis : room1.Visited = room.Visited) :
    visitBonus (g.setRoom room1).rooms i = visitBonus g.rooms i := by
  have hget := (roomAt_eq_getElem? _ _ _ hroom).2
  unfold Game.setRoom
  simp only
  rw [visitBonus_set _ _ _ room room1 hget]
  by_cases hki : g.currentRoom.toNat = i
  · subst hki
    simp [visitBonus, hget, hvis]
  · simp [hki]

theorem potential_nonneg (rooms : List Room) : 0 ≤ potential rooms := by
  have h0 := visitBonus_nonneg rooms 0
  have h1 := visitBonus_nonneg rooms 1
  have h2 := visitBonus_nonneg rooms 2
  have h3 := visitBonus_nonneg rooms 3
  have h4 := visitBonus_nonneg rooms 4
  have hw : 0 ≤ bounty (monsterHealth rooms 1) 25 := by unfold bounty; split <;> decide
  have ht : 0 ≤ bounty (monsterHealth rooms 3) 50 := by unfold bounty; split <;> decide
  unfold potential
  omega

/-- Writing a room with the same visited flag and the same monster leaves
the potential as it is. -/
theorem potential_setRoom_same (g : Game) (room room1 : Room)
    (hroom : roomAt g.rooms g.currentRoom = some room)
    (hvis : room1.Visited = room.Visited) (hmon : room1.Monster = room.Monster) :
    potential (g.setRoom room1).rooms = potential g.rooms := by
  have hget := (roomAt_eq_getElem? _ _ _ hroom).2
  have hbonus : ∀ i, visitBonus (g.setRoom room1).rooms i = visitBonus g.rooms i := by
    intro i
    unfold Game.setRoom
    simp only
    rw [visitBonus_set _ _ _ room room1 hget]
    by_cases hki : g.currentRoom.toNat = i
    · subst hki
      simp [visitBonus, hget, hvis]
    · simp [hki]
  unfold potential
  rw [hbonus 0, hbonus 1, hbonus 2, hbonus 3, hbonus 4,
    monsterHealth_setRoom_same g room room1 1 hroom hmon,
    monsterHealth_setRoom_same g room room1 3 hroom hmon]

/-- The first display of a room takes its bonus of 5 out of the potential. -/
theorem potential_visit (g : Game) (h : WorldInv g) (room : Room)
    (hroom : roomAt g.rooms g.currentRoom = some room) (hvis : room.Visited = false) :
    potential (g.setRoom { room with Visited := true }).rooms = potential g.rooms - 5 := by
  have hget := (roomAt_eq_getElem? _ _ _ hroom).2
  have hlo := h.posLower
  have hhi := h.posUpper
  have hold : visitBonus g.rooms g.currentRoom.toNat = 5 := by
    simp [visitBonus, hget, hvis]
  have hbonus : ∀ i, visitBonus (g.setRoom { room with Visited := true }).rooms i =
      if g.currentRoom.toNat = i then 0 else visitBonus g.rooms i := by
    intro i
    unfold Game.setRoom
    simp only
    rw [visitBonus_set _ _ _ room _ hget]
    simp
  unfold potential
  rw [hbonus 0, hbonus 1, hbonus 2, hbonus 3, hbonus 4,
    monsterHealth_setRoom_same g room { room with Visited := true } 1 hroom rfl,
    monsterHealth_setRoom_same g room { room with Visited := true } 3 hroom rfl]
  have hcases : g.currentRoom.toNat = 0 ∨ g.currentRoom.toNat = 1 ∨ g.currentRoom.toNat = 2 ∨
      g.currentRoom.toNat = 3 ∨ g.currentRoom.toNat = 4 := by omega
  rcases hcases with hc | hc | hc | hc | hc <;> rw [hc] at hold ⊢ <;> simp <;> omega

/-- The potential after a strike at the monster of the current room, which
is room 1 or room 3: only the bounty of that monster can change. -/
theorem potential_strike (g : Game) (room : Room) (m : Monster) (health : Int)
    (hroom : roomAt g.rooms g.currentRoom = some room) (hmon : room.Monster = some m) :
    (g.currentRoom = 1 →
      potential (g.setRoom { room with Monster := some { m with Health := health } }).rooms =
        potential g.rooms - bounty m.Health 25 + bounty health 25) ∧
    (g.currentRoom = 3 →
      potential (g.setRoom { room with Monster := some { m with Health := health } }).rooms =
        potential g.rooms - bounty m.Health 50 + bounty health 50) := by
  have hget := (roomAt_eq_getElem? _ _ _ hroom).2
  have hcur := monsterHealth_current g room m hroom hmon
  have hbonus : ∀ i,
      visitBonus (g.setRoom { room with Monster := some { m with Health := health } }).rooms i =
        visitBonus g.rooms i :=
    fun i => visitBonus_setRoom_same g room _ i hroom rfl
  have hmh : ∀ i,
      monsterHealth (g.setRoom { room with Monster := some { m with Health := health } }).rooms i =
        if g.currentRoom.toNat = i then health else monsterHealth g.rooms i := by
    intro i
    unfold Game.setRoom
    simp only
    rw [monsterHealth_set _ _ _ room _ hget]
  constructor
  · intro hc
    have h1 : g.currentRoom.toNat = 1 := by rw [hc]; rfl
    unfold potential
    rw [hbonus 0, hbonus 1, hbonus 2, hbonus 3, hbonus 4, hmh 1, hmh 3, h1]
    rw [h1] at hcur
    rw [hcur]
    simp only [if_true, show ¬ (1 : Nat) = 3 by decide, if_false]
    omega
  · intro hc
    have h3 : g.currentRoom.toNat = 3 := by rw [hc]; rfl
    unfold potential
    rw [hbonus 0, hbonus 1, hbonus 2, hbonus 3, hbonus 4, hmh 1, hmh 3, h3]
    rw [h3] at hcur
    rw [hcur]
    simp only [if_true, show ¬ (3 : Nat) = 1 by decide, if_false]
    omega

/-! ## The attack still to be gained -/

theorem roomArsenal_set (rooms : List Room) (k i : Nat) (room room1 : Room)
    (h : rooms[k]? = some room) :
    roomArsenal (rooms.set k room1) i =
      if k = i then
        (if room1.HasTreasure = true then
          (if contains room1.Treasure "Золотой меч" = true then 10 else 0) +
            (if isStrength room1.Treasure = true then 5 else 0)
        else 0)
      else roomArsenal rooms i := by
  unfold roomArsenal
  by_cases hki : k = i
  · subst hki
    simp [List.getElem?_set', h]
  · simp [List.getElem?_set', hki]

theorem roomArsenal_nonneg (rooms : List Room) (i : Nat) : 0 ≤ roomArsenal rooms i := by
  unfold roomArsenal
  split
  · split
    · split <;> split <;> decide
    · decide
  · decide

/-- Writing a room with the same treasure leaves the attack of the treasures
as it is. -/
theorem roomArsenal_setRoom_same (g : Game) (room room1 : Room) (i : Nat)
    (hroom : roomAt g.rooms g.currentRoom = some room)
    (hflag : room1.HasTreasure = room.HasTreasure) (hname : room1.Treasure = room.Treasure) :
    roomArsenal (g.setRoom room1).rooms i = roomArsenal g.rooms i := by
  have hget := (roomAt_eq_getElem? _ _ _ hroom).2
  unfold Game.setRoom
  simp only
  rw [roomArsenal_set _ _ _ room room1 hget]
  by_cases hki : g.currentRoom.toNat = i
  · subst hki
    simp [roomArsenal, hget, hflag, hname]
  · simp [hki]

theorem strengthCount_nonneg (inventory : List String) : 0 ≤ strengthCount inventory := by
  unfold strengthCount
  omega

theorem strengthCount_append (inventory : List String) (item : String) :
    strengthCount (inventory ++ [item]) =
      strengthCount inventory + (if isStrength item = true then 1 else 0) := by
  unfold strengthCount
  rw [List.countP_append, List.countP_singleton]
  split <;> simp

/-- Removing an entry lowers the number of strength potions by one when the
entry is one, and leaves it otherwise. -/
theorem strengthCount_remove (inventory : List String) (i : Nat) (item : String)
    (hi : inventory[i]? = some item) :
    strengthCount (inventory.take i ++ inventory.drop (i + 1)) =
      strengthCount inventory - (if isStrength item = true then 1 else 0) := by
  obtain ⟨hlt, hget⟩ := List.getElem?_eq_some.mp hi
  have hsplit : inventory = inventory.take i ++ item :: inventory.drop (i + 1) := by
    rw [← hget, ← List.drop_eq_getElem_cons hlt, List.take_append_drop]
  have hcount : strengthCount inventory =
      strengthCount (inventory.take i ++ inventory.drop (i + 1)) +
        (if isStrength item = true then 1 else 0) := by
    conv_lhs => rw [hsplit]
    unfold strengthCount
    rw [List.countP_append, List.countP_cons, List.countP_append]
    split
    · push_cast
      omega
    · push_cast
      omega
  omega

theorem worldArsenal_nonneg (rooms : List Room) : 0 ≤ worldArsenal rooms := by
  have h0 := roomArsenal_nonneg rooms 0
  have h1 := roomArsenal_nonneg rooms 1
  have h2 := roomArsenal_nonneg rooms 2
  have h3 := roomArsenal_nonneg rooms 3
  have h4 := roomArsenal_nonneg rooms 4
  have hw : 0 ≤ bounty (monsterHealth rooms 1) 5 := by unfold bounty; split <;> decide
  have htr : 0 ≤ bounty (monsterHealth rooms 3) 5 := by unfold bounty; split <;> decide
  unfold worldArsenal
  omega

/-- Writing a room with the same treasure and the same monster leaves the
attack of the rooms as it is. -/
theorem worldArsenal_setRoom_same (g : Game) (room room1 : Room)
    (hroom : roomAt g.rooms g.currentRoom = some room)
    (hflag : room1.HasTreasure = room.HasTreasure) (hname : room1.Treasure = room.Treasure)
    (hmon : room1.Monster = room.Monster) :
    worldArsenal (g.setRoom room1).rooms = worldArsenal g.rooms := by
  unfold worldArsenal
  rw [roomArsenal_setRoom_same g room room1 0 hroom hflag hname,
    roomArsenal_setRoom_same g room room1 1 hroom hflag hname,
    roomArsenal_setRoom_same g room room1 2 hroom hflag hname,
    roomArsenal_setRoom_same g room room1 3 hroom hflag hname,
    roomArsenal_setRoom_same g room room1 4 hroom hflag hname,
    monsterHealth_setRoom_same g room room1 1 hroom hmon,
    monsterHealth_setRoom_same g room room1 3 hroom hmon]

/-- The health of the monsters after a strike at the monster of the current
room. -/
theorem monsterHealth_strike (g : Game) (room : Room) (m : Monster) (health : Int) (i : Nat)
    (hroom : roomAt g.rooms g.currentRoom = some room) :
    monsterHealth (g.setRoom { room with Monster := some { m with Health := health } }).rooms i =
      if g.currentRoom.toNat = i then health else monsterHealth g.rooms i := by
  have hget := (roomAt_eq_getElem? _ _ _ hroom).2
  unfold Game.setRoom
  simp only
  rw [monsterHealth_set _ _ _ room _ hget]

/-- The attack of the rooms after a strike at the monster of the current
room, which is room 1 or room 3: only the loot of that monster can change. -/
theorem worldArsenal_strike (g : Game) (room : Room) (m : Monster) (health : Int)
    (hroom : roomAt g.rooms g.currentRoom = some room) (hmon : room.Monster = some m)
    (hc : g.currentRoom = 1 ∨ g.currentRoom = 3) :
    worldArsenal (g.setRoom { room with Monster := some { m with Health := health } }).rooms =
      worldArsenal g.rooms - bounty m.Health 5 + bounty health 5 := by
  have hcur := monsterHealth_current g room m hroom hmon
  have hars : ∀ i,
      roomArsenal (g.setRoom { room with Monster := some { m with Health := health } }).rooms i =
        roomArsenal g.rooms i :=
    fun i => roomArsenal_setRoom_same g room _ i hroom rfl rfl
  unfold worldArsenal
  rw [hars 0, hars 1, hars 2, hars 3, hars 4, monsterHealth_strike g room m health 1 hroom,
    monsterHealth_strike g room m health 3 hroom]
  rcases hc with hc | hc
  · have h1 : g.currentRoom.toNat = 1 := by rw [hc]; rfl
    rw [h1] at hcur ⊢
    rw [hcur]
    simp only [if_true, show ¬ (1 : Nat) = 3 by decide, if_false]
    omega
  · have h3 : g.currentRoom.toNat = 3 := by rw [hc]; rfl
    rw [h3] at hcur ⊢
    rw [hcur]
    simp only [if_true, show ¬ (3 : Nat) = 1 by decide, if_false]
    omega

/-- Taking the treasure of the current room takes its attack out of the
rooms. -/
theorem worldArsenal_take (g : Game) (h : WorldInv g) (room : Room)
    (hroom : roomAt g.rooms g.currentRoom = some room) (hhas : room.HasTreasure = true) :
    worldArsenal (g.setRoom { room with HasTreasure := false, Treasure := "" }).rooms =
      worldArsenal g.rooms -
        ((if contains room.Treasure "Золотой меч" = true then 10 else 0) +
          (if isStrength room.Treasure = true then 5 else 0)) := by
  have hget := (roomAt_eq_getElem? _ _ _ hroom).2
  have hlo := h.posLower
  have hhi := h.posUpper
  have hold : roomArsenal g.rooms g.currentRoom.toNat =
      (if contains room.Treasure "Золотой меч" = true then 10 else 0) +
        (if isStrength room.Treasure = true then 5 else 0) := by
    simp [roomArsenal, hget, hhas]
  have hars : ∀ i,
      roomArsenal (g.setRoom { room with HasTreasure := false, Treasure := "" }).rooms i =
        if g.currentRoom.toNat = i then 0 else roomArsenal g.rooms i := by
    intro i
    unfold Game.setRoom
    simp only
    rw [roomArsenal_set _ _ _ room _ hget]
    simp
  unfold worldArsenal
  rw [hars 0, hars 1, hars 2, hars 3, hars 4,
    monsterHealth_setRoom_same g room { room with HasTreasure := false, Treasure := "" } 1
      hroom rfl,
    monsterHealth_setRoom_same g room { room with HasTreasure := false, Treasure := "" } 3
      hroom rfl]
  generalize (if contains room.Treasure "Золотой меч" = true then (10 : Int) else 0) +
    (if isStrength room.Treasure = true then 5 else 0) = gain at hold ⊢
  have hcases : g.currentRoom.toNat = 0 ∨ g.currentRoom.toNat = 1 ∨ g.currentRoom.toNat = 2 ∨
      g.currentRoom.toNat = 3 ∨ g.currentRoom.toNat = 4 := by omega
  rcases hcases with hc | hc | hc | hc | hc <;> rw [hc] at hold ⊢ <;> simp <;> omega

/-- The stats of a state of the fixed world are small. -/
theorem gameInv_bounds (g : Game) (h : GameInv g) :
    20 ≤ g.player.Attack ∧ g.player.Attack ≤ 45 ∧
    1 ≤ g.player.Level ∧ g.player.Level ≤ 2 ∧
    0 ≤ g.player.Experience ∧ g.player.Experience ≤ 100 ∧
    0 ≤ g.player.Health ∧ g.player.Health ≤ g.player.MaxHealth ∧
    g.player.MaxHealth = 80 + 20 * g.player.Level ∧
    g.player.Defense = 8 + 2 * g.player.Level := by
  have hl := h.ledger.levelLower
  have he := h.ledger.experienceLower
  have ht := h.ledger.total
  have hp := potential_nonneg g.rooms
  have hlevel : g.player.Level ≤ 2 := by omega
  have hs := strengthCount_nonneg g.player.Inventory
  have hwa := worldArsenal_nonneg g.rooms
  have ha := h.stats.total
  unfold arsenal at ha
  exact ⟨h.world.attackLower, by omega, hl, hlevel, he, by omega,
    le_trans (threat_nonneg g.rooms) h.world.healthLower, h.world.healthUpper,
    h.stats.maxHealthLink, h.stats.defenseLink⟩

/-! ## The operations in the fixed world: no overflow -/

/-- A number between `-2^62` and `2^62` is an `int` value. -/
theorem wrap64_small (x : Int) (hlo : -4611686018427387904 ≤ x)
    (hhi : x ≤ 4611686018427387904) : wrap64 x = x :=
  wrap64_of_fits x (by unfold fits64; omega)

/-- In the fixed world `showRoom` grants its 5 experience exactly. -/
theorem showRoom_exact (g g1 : Game) (h : GameInv g) (hshow : showRoom g = some g1) :
    ∃ room, roomAt g.rooms g.currentRoom = some room ∧
      ((room.Visited = false ∧
          g1 = { (g.setRoom { room with Visited := true }) with
            player := { g.player with Experience := g.player.Experience + 5 } }) ∨
       (room.Visited = true ∧ g1 = g)) := by
  obtain ⟨_, _, _, _, he0, he1, _⟩ := gameInv_bounds g h
  obtain ⟨room, hroom, hres⟩ := showRoom_cases g g1 hshow
  refine ⟨room, hroom, ?_⟩
  rw [wrap64_small _ (by omega) (by omega)] at hres
  exact hres

/-- In the fixed world `takeTreasure` adds its 10 attack exactly. -/
theorem takeTreasure_exact (g g1 : Game) (h : GameInv g) (htake : takeTreasure g = some g1) :
    g1 = g ∨ ∃ room, roomAt g.rooms g.currentRoom = some room ∧ room.HasTreasure = true ∧
      g1 = { (g.setRoom { room with HasTreasure := false, Treasure := "" }) with
        player := { g.player with
          Attack := if contains room.Treasure "Золотой меч" = true
            then g.player.Attack + 10 else g.player.Attack,
          Inventory := g.player.Inventory ++ [room.Treasure] } } := by
  obtain ⟨ha0, ha1, _⟩ := gameInv_bounds g h
  rcases takeTreasure_cases g g1 htake with hsame | ⟨room, hroom, hhas, hres⟩
  · exact Or.inl hsame
  · right
    refine ⟨room, hroom, hhas, ?_⟩
    rw [wrap64_small _ (by omega) (by omega)] at hres
    exact hres

/-- In the fixed world `checkLevelUp` is the level-up step in exact
arithmetic. -/
theorem checkLevelUp_small (g : Game) (h : GameInv g) :
    checkLevelUp g =
      if g.player.Experience ≥ g.player.Level * 100 then
        { g with player :=
            { g.player with
              Level := g.player.Level + 1
              MaxHealth := g.player.MaxHealth + 20
              Health := g.player.MaxHealth + 20
              Attack := g.player.Attack + 5
              Defense := g.player.Defense + 2
              Experience := g.player.Experience - g.player.Level * 100 } }
      else g := by
  obtain ⟨ha0, ha1, hl0, hl1, he0, he1, hh0, hh1, hm, hd⟩ := gameInv_bounds g h
  apply checkLevelUp_exact
  unfold LevelUpFits fits64
  omega

/-- The strikes of a fight of the fixed world are exact: the monster of the
current room is the wolf or the troll, and with the player's stats no sum
overflows. -/
theorem strikes_exact (g : Game) (h : GameInv g) (d : Draws) (hd : d.valid) (room : Room)
    (m : Monster) (hroom : roomAt g.rooms g.currentRoom = some room)
    (hhas : room.HasMonster = true) (hmon : room.Monster = some m) (hlive : 0 < m.Health) :
    ((g.currentRoom = 1 ∧ m.Attack = 15 ∧ m.Defense = 5 ∧ m.Reward = 25 ∧ m.Health ≤ 30) ∨
     (g.currentRoom = 3 ∧ m.Attack = 25 ∧ m.Defense = 8 ∧ m.Reward = 50 ∧ m.Health ≤ 50)) ∧
    strikeDamage g.player.Attack d.hit m.Defense =
      g.player.Attack + (d.hit : Int) - m.Defense ∧
    strikeDamage m.Attack d.counter g.player.Defense =
      m.Attack + (d.counter : Int) - g.player.Defense ∧
    wrap64 (m.Health - strikeDamage g.player.Attack d.hit m.Defense) =
      m.Health - strikeDamage g.player.Attack d.hit m.Defense ∧
    wrap64 (g.player.Experience + m.Reward) = g.player.Experience + m.Reward ∧
    wrap64 (g.player.Health - strikeDamage m.Attack d.counter g.player.Defense) =
      g.player.Health - strikeDamage m.Attack d.counter g.player.Defense := by
  obtain ⟨ha0, ha1, hl0, hl1, he0, he1, hh0, hh1, hmh, hdef⟩ := gameInv_bounds g h
  obtain ⟨_, _, hhit, _, _, hcounter⟩ := hd
  have hwho : (g.currentRoom = 1 ∧ m.Attack = 15 ∧ m.Defense = 5 ∧ m.Reward = 25 ∧
        m.Health ≤ 30) ∨
      (g.currentRoom = 3 ∧ m.Attack = 25 ∧ m.Defense = 8 ∧ m.Reward = 50 ∧ m.Health ≤ 50) := by
    have hcur := monsterHealth_current g room m hroom hmon
    obtain ⟨room2, hroom2, hcases⟩ := currentRoom_cases g h.world
    rw [hroom] at hroom2
    cases hroom2
    rcases hcases with ⟨_, _, hno⟩ | ⟨hc, _, _, m2, hm2, h1, h2, h3⟩ | ⟨_, _, hno⟩ |
      ⟨hc, _, _, m2, hm2, h1, h2, h3⟩ | ⟨_, _, hno⟩
    · rw [hno] at hhas; exact absurd hhas (by decide)
    · rw [hmon] at hm2
      cases hm2
      have hw := h.world.wolf
      rw [hc] at hcur
      have h1n : (1 : Int).toNat = 1 := rfl
      rw [h1n] at hcur
      rw [hcur] at hw
      exact Or.inl ⟨hc, h1, h2, h3, hw⟩
    · rw [hno] at hhas; exact absurd hhas (by decide)
    · rw [hmon] at hm2
      cases hm2
      have ht := h.world.troll
      rw [hc] at hcur
      have h3n : (3 : Int).toNat = 3 := rfl
      rw [h3n] at hcur
      rw [hcur] at ht
      exact Or.inr ⟨hc, h1, h2, h3, ht⟩
    · rw [hno] at hhas; exact absurd hhas (by decide)
  have hstrike : strikeDamage g.player.Attack d.hit m.Defense =
      g.player.Attack + (d.hit : Int) - m.Defense := by
    rw [strikeDamage_eq_max _ _ _ (by unfold fits64; rcases hwho with hw | hw <;> omega)]
    rcases hwho with hw | hw <;> omega
  have hcount : strikeDamage m.Attack d.counter g.player.Defense =
      m.Attack + (d.counter : Int) - g.player.Defense := by
    rw [strikeDamage_eq_max _ _ _ (by unfold fits64; rcases hwho with hw | hw <;> omega)]
    rcases hwho with hw | hw <;> omega
  refine ⟨hwho, hstrike, hcount, ?_, ?_, ?_⟩
  · rw [hstrike]
    exact wrap64_small _ (by rcases hwho with hw | hw <;> omega)
      (by rcases hwho with hw | hw <;> omega)
  · exact wrap64_small _ (by rcases hwho with hw | hw <;> omega)
      (by rcases hwho with hw | hw <;> omega)
  · rw [hcount]
    exact wrap64_small _ (by rcases hwho with hw | hw <;> omega)
      (by rcases hwho with hw | hw <;> omega)

/-- In the fixed world the results of `attack` in exact arithmetic. -/
theorem attack_exact (g g1 : Game) (d : Draws) (h : GameInv g) (hd : d.valid)
    (hatt : attack g d = some g1) :
    g1 = g ∨ ∃ room m items, roomAt g.rooms g.currentRoom = some room ∧
      room.HasMonster = true ∧ room.Monster = some m ∧ 0 < m.Health ∧
      (items = g.player.Inventory ∨ ∃ item ∈ lootTable, items = g.player.Inventory ++ [item]) ∧
      ((m.Health - strikeDamage g.player.Attack d.hit m.Defense ≤ 0 ∧
          g1 = { (g.setRoom { room with Monster := some { m with
                  Health := m.Health - strikeDamage g.player.Attack d.hit m.Defense } }) with
                 player := { g.player with
                   Experience := g.player.Experience + m.Reward,
                   Inventory := items } }) ∨
       (0 < m.Health - strikeDamage g.player.Attack d.hit m.Defense ∧
          ∃ run, (run = g.gameRunning ∨ run = false) ∧
          g1 = { (g.setRoom { room with Monster := some { m with
                  Health := m.Health - strikeDamage g.player.Attack d.hit m.Defense } }) with
                 player := { g.player with
                   Health := g.player.Health -
                     strikeDamage m.Attack d.counter g.player.Defense },
                 gameRunning := run })) := by
  rcases attack_cases g g1 d hatt with hsame | ⟨room, m, items, hroom, hhas, hmon, hlive, hitems, hres⟩
  · exact Or.inl hsame
  · right
    obtain ⟨_, _, _, h1, h2, h3⟩ := strikes_exact g h d hd room m hroom hhas hmon hlive
    rw [h1, h2, h3] at hres
    exact ⟨room, m, items, hroom, hhas, hmon, hlive, hitems, hres⟩

/-! ## Reachable states -/

theorem gameInv_init : GameInv initGame where
  world :=
    { fixed := rfl, posLower := by decide, posUpper := by decide, wolf := by decide,
      troll := by decide, attackLower := by decide, defenseLower := by decide,
      maxHealthLower := by decide, healthUpper := by decide, healthLower := by decide }
  ledger := { levelLower := by decide, experienceLower := by decide, total := by decide }
  stats := { maxHealthLink := by decide, defenseLink := by decide, total := by decide }

/-- The invariant passes from a state to another one whose rooms keep their
fixed parts, whose monsters have not gained health, whose player satisfies
the bounds, and whose ledger and arsenal have not grown. -/
theorem gameInv_transfer (g g1 : Game) (h : GameInv g)
    (hfix : g1.rooms.map Room.fixedPart = g.rooms.map Room.fixedPart)
    (hlo : 0 ≤ g1.currentRoom) (hhi : g1.currentRoom < 5)
    (hwolf : monsterHealth g1.rooms 1 ≤ monsterHealth g.rooms 1)
    (htroll : monsterHealth g1.rooms 3 ≤ monsterHealth g.rooms 3)
    (hattack : 20 ≤ g1.player.Attack) (hlevel : 1 ≤ g1.player.Level)
    (hmax : g1.player.MaxHealth = 80 + 20 * g1.player.Level)
    (hdef : g1.player.Defense = 8 + 2 * g1.player.Level)
    (hup : g1.player.Health ≤ g1.player.MaxHealth)
    (hthreat : threat g1.rooms ≤ g1.player.Health)
    (hexp : 0 ≤ g1.player.Experience)
    (hledger : (g1.player.Level - 1) * 100 + g1.player.Experience + potential g1.rooms ≤
      (g.player.Level - 1) * 100 + g.player.Experience + potential g.rooms)
    (hars : g1.player.Attack + arsenal g1 ≤ g.player.Attack + arsenal g) : GameInv g1 :=
  { world :=
      { fixed := hfix.trans h.world.fixed, posLower := hlo, posUpper := hhi,
        wolf := le_trans hwolf h.world.wolf, troll := le_trans htroll h.world.troll,
        attackLower := hattack, defenseLower := by omega, maxHealthLower := by omega,
        healthUpper := hup, healthLower := hthreat }
    ledger :=
      { levelLower := hlevel, experienceLower := hexp, total := le_trans hledger h.ledger.total }
    stats :=
      { maxHealthLink := hmax, defenseLink := hdef, total := le_trans hars h.stats.total } }

theorem gameInv_showRoom (g g1 : Game) (h : GameInv g) (hshow : showRoom g = some g1) :
    GameInv g1 := by
  obtain ⟨ha0, ha1, hl0, hl1, he0, he1, hh0, hh1, hmax, hdef⟩ := gameInv_bounds g h
  obtain ⟨room, hroom, ⟨hvis, rfl⟩ | ⟨_, rfl⟩⟩ := showRoom_exact g g1 h hshow
  · have hpot := potential_visit g h.world room hroom hvis
    have hthreat := threat_setRoom_same g room { room with Visited := true } hroom rfl
    have hars := worldArsenal_setRoom_same g room { room with Visited := true } hroom rfl rfl rfl
    have hfix := fixedPart_setRoom g room { room with Visited := true } hroom rfl
    have hw1 := monsterHealth_setRoom_same g room { room with Visited := true } 1 hroom rfl
    have hw3 := monsterHealth_setRoom_same g room { room with Visited := true } 3 hroom rfl
    have hinv := h.world.healthLower
    refine gameInv_transfer g _ h hfix h.world.posLower h.world.posUpper (le_of_eq hw1)
      (le_of_eq hw3) ha0 hl0 hmax hdef hh1 ?_ ?_ ?_ ?_
    · show threat (g.setRoom { room with Visited := true }).rooms ≤ g.player.Health
      rw [hthreat]
      exact hinv
    · show 0 ≤ g.player.Experience + 5
      omega
    · show (g.player.Level - 1) * 100 + (g.player.Experience + 5) +
        potential (g.setRoom { room with Visited := true }).rooms ≤ _
      rw [hpot]
      omega
    · show g.player.Attack + (5 * strengthCount g.player.Inventory +
        worldArsenal (g.setRoom { room with Visited := true }).rooms +
        5 * (2 - g.player.Level)) ≤ _
      rw [hars]
      exact le_refl _
  · exact h

/-- A change of position and of the inventory by entries that are not
strength potions preserves the invariant. -/
theorem gameInv_walk (g : Game) (h : GameInv g) (n : Int) (items : List String)
    (hlo : 0 ≤ n) (hhi : n < 5)
    (hitems : strengthCount items = strengthCount g.player.Inventory) :
    GameInv { g with currentRoom := n, player := { g.player with Inventory := items } } := by
  obtain ⟨ha0, ha1, hl0, hl1, he0, he1, hh0, hh1, hmax, hdef⟩ := gameInv_bounds g h
  refine gameInv_transfer g _ h rfl hlo hhi (le_refl _) (le_refl _) ha0 hl0 hmax hdef hh1
    h.world.healthLower he0 (le_refl _) ?_
  show g.player.Attack + (5 * strengthCount items + worldArsenal g.rooms +
    5 * (2 - g.player.Level)) ≤ _
  rw [hitems]
  exact le_refl _

theorem gameInv_move (g g1 : Game) (direction : String) (d : Draws) (h : GameInv g)
    (hmove : move g direction d = some g1) : GameInv g1 := by
  rcases move_cases g g1 direction d hmove with rfl | ⟨room, next, hroom, hexit, hres⟩
  · exact h
  · obtain ⟨hlo, hhi⟩ := exit_in_range g h.world room direction next hroom hexit
    rcases hres with rfl | hev
    · exact gameInv_walk g h next g.player.Inventory hlo hhi rfl
    · obtain ⟨items, hitems, rfl⟩ := randomEvent_effect _ g1 _ hev
      refine gameInv_walk g h next items hlo hhi ?_
      rcases hitems with rfl | rfl | rfl
      · rfl
      · rw [strengthCount_append, if_neg (by decide)]
        exact add_zero _
      · rw [strengthCount_append, if_neg (by decide)]
        exact add_zero _

/-- The wolf's budget: a strike of at least 15 at the wolf and a
counterattack of at most 12 keep the player's health above what the wolf can
still take. -/
theorem wolf_step (mh health rest dmg cnt : Int) (hmh : 0 < mh) (hdmg : 15 ≤ dmg)
    (hcnt : cnt ≤ 12) (hinv : 12 * blowsLeft mh 15 + rest ≤ health) :
    (mh - dmg ≤ 0 → 12 * blowsLeft (mh - dmg) 15 + rest ≤ health) ∧
    (0 < mh - dmg → 12 * blowsLeft (mh - dmg) 15 + rest ≤ health - cnt) := by
  unfold blowsLeft at hinv ⊢
  rw [if_neg (not_le.mpr hmh)] at hinv
  constructor
  · intro hk
    rw [if_pos hk]
    omega
  · intro hs
    rw [if_neg (not_le.mpr hs)]
    omega

/-- The troll's budget: a strike of at least 12 at the troll and a
counterattack of at most 22 keep the player's health above what the troll can
still take. -/
theorem troll_step (mh health rest dmg cnt : Int) (hmh : 0 < mh) (hdmg : 12 ≤ dmg)
    (hcnt : cnt ≤ 22) (hinv : rest + 22 * blowsLeft mh 12 ≤ health) :
    (mh - dmg ≤ 0 → rest + 22 * blowsLeft (mh - dmg) 12 ≤ health) ∧
    (0 < mh - dmg → rest + 22 * blowsLeft (mh - dmg) 12 ≤ health - cnt) := by
  unfold blowsLeft at hinv ⊢
  rw [if_neg (not_le.mpr hmh)] at hinv
  constructor
  · intro hk
    rw [if_pos hk]
    omega
  · intro hs
    rw [if_neg (not_le.mpr hs)]
    omega

theorem gameInv_attack (g g1 : Game) (d : Draws) (h : GameInv g) (hd : d.valid)
    (hatt : attack g d = some g1) : GameInv g1 := by
  rcases attack_exact g g1 d h hd hatt with
    rfl | ⟨room, m, items, hroom, hhas, hmon, hlive, hitems, hres⟩
  · exact h
  · obtain ⟨hwho, hs, hc, _, _, _⟩ := strikes_exact g h d hd room m hroom hhas hmon hlive
    obtain ⟨ha0, ha1, hl0, hl1, he0, he1, hh0, hh1, hmax, hdef⟩ := gameInv_bounds g h
    obtain ⟨_, _, hhit, _, _, hcounter⟩ := hd
    generalize strikeDamage g.player.Attack d.hit m.Defense = dmg at hs hres
    generalize strikeDamage m.Attack d.counter g.player.Defense = cnt at hc hres
    have hcur := monsterHealth_current g room m hroom hmon
    have hfix := fixedPart_setRoom g room
      { room with Monster := some { m with Health := m.Health - dmg } } hroom
      (by simp [Room.fixedPart, hmon])
    have hmh := fun i => monsterHealth_strike g room m (m.Health - dmg) i hroom
    obtain ⟨hp1, hp3⟩ := potential_strike g room m (m.Health - dmg) hroom hmon
    have hwa := worldArsenal_strike g room m (m.Health - dmg) hroom hmon
      (hwho.elim (fun hw => Or.inl hw.1) (fun hw => Or.inr hw.1))
    have hcount : strengthCount items ≤ strengthCount g.player.Inventory + 1 := by
      rcases hitems with rfl | ⟨item, _, rfl⟩
      · omega
      · rw [strengthCount_append]
        split <;> omega
    have hinv := h.world.healthLower
    have hled := h.ledger.total
    have hdmg0 : 0 ≤ dmg := by rcases hwho with hw | hw <;> omega
    have hcnt0 : 0 ≤ cnt := by rcases hwho with hw | hw <;> omega
    have hmono : ∀ i, monsterHealth (g.setRoom
        { room with Monster := some { m with Health := m.Health - dmg } }).rooms i ≤
        monsterHealth g.rooms i := by
      intro i
      rw [hmh i]
      split
      · rename_i hi
        rw [← hi, hcur]
        omega
      · exact le_refl _
    have hbudget :
        (m.Health - dmg ≤ 0 → threat (g.setRoom
          { room with Monster := some { m with Health := m.Health - dmg } }).rooms ≤
            g.player.Health) ∧
        (0 < m.Health - dmg → threat (g.setRoom
          { room with Monster := some { m with Health := m.Health - dmg } }).rooms ≤
            g.player.Health - cnt) := by
      unfold threat at hinv ⊢
      rw [hmh 1, hmh 3]
      rcases hwho with hw | hw
      · have h1 : g.currentRoom.toNat = 1 := by rw [hw.1]; rfl
        rw [h1] at hcur ⊢
        rw [hcur] at hinv
        simp only [if_true, show ¬ (1 : Nat) = 3 by decide, if_false]
        exact wolf_step m.Health g.player.Health _ dmg cnt hlive (by omega) (by omega) hinv
      · have h3 : g.currentRoom.toNat = 3 := by rw [hw.1]; rfl
        rw [h3] at hcur ⊢
        rw [hcur] at hinv
        simp only [if_true, show ¬ (3 : Nat) = 1 by decide, if_false]
        exact troll_step m.Health g.player.Health _ dmg cnt hlive (by omega) (by omega) hinv
    have hold : bounty m.Health 25 = 25 ∧ bounty m.Health 50 = 50 ∧ bounty m.Health 5 = 5 := by
      unfold bounty
      simp [hlive]
    rcases hres with ⟨hkill, rfl⟩ | ⟨hsurv, run, _, rfl⟩
    · have hnew : bounty (m.Health - dmg) 25 = 0 ∧ bounty (m.Health - dmg) 50 = 0 ∧
          bounty (m.Health - dmg) 5 = 0 := by
        unfold bounty
        simp [not_lt.mpr hkill]
      refine gameInv_transfer g _ h hfix h.world.posLower h.world.posUpper (hmono 1) (hmono 3)
        ha0 hl0 hmax hdef hh1 (hbudget.1 hkill) ?_ ?_ ?_
      · show 0 ≤ g.player.Experience + m.Reward
        rcases hwho with hw | hw <;> omega
      · show (g.player.Level - 1) * 100 + (g.player.Experience + m.Reward) +
          potential (g.setRoom
            { room with Monster := some { m with Health := m.Health - dmg } }).rooms ≤ _
        rcases hwho with hw | hw
        · rw [hp1 hw.1]; omega
        · rw [hp3 hw.1]; omega
      · show g.player.Attack + (5 * strengthCount items +
          worldArsenal (g.setRoom
            { room with Monster := some { m with Health := m.Health - dmg } }).rooms +
          5 * (2 - g.player.Level)) ≤
          g.player.Attack + (5 * strengthCount g.player.Inventory + worldArsenal g.rooms +
            5 * (2 - g.player.Level))
        rw [hwa]
        omega
    · have hnew : bounty (m.Health - dmg) 25 = 25 ∧ bounty (m.Health - dmg) 50 = 50 ∧
          bounty (m.Health - dmg) 5 = 5 := by
        unfold bounty
        simp [hsurv]
      refine gameInv_transfer g _ h hfix h.world.posLower h.world.posUpper (hmono 1) (hmono 3)
        ha0 hl0 hmax hdef ?_ (hbudget.2 hsurv) he0 ?_ ?_
      · show g.player.Health - cnt ≤ g.player.MaxHealth
        omega
      · show (g.player.Level - 1) * 100 + g.player.Experience +
          potential (g.setRoom
            { room with Monster := some { m with Health := m.Health - dmg } }).rooms ≤ _
        rcases hwho with hw | hw
        · rw [hp1 hw.1]; omega
        · rw [hp3 hw.1]; omega
      · show g.player.Attack + (5 * strengthCount g.player.Inventory +
          worldArsenal (g.setRoom
            { room with Monster := some { m with Health := m.Health - dmg } }).rooms +
          5 * (2 - g.player.Level)) ≤
          g.player.Attack + (5 * strengthCount g.player.Inventory + worldArsenal g.rooms +
            5 * (2 - g.player.Level))
        rw [hwa]
        omega

theorem gameInv_takeTreasure (g g1 : Game) (h : GameInv g)
    (htake : takeTreasure g = some g1) : GameInv g1 := by
  obtain ⟨ha0, ha1, hl0, hl1, he0, he1, hh0, hh1, hmax, hdef⟩ := gameInv_bounds g h
  rcases takeTreasure_exact g g1 h htake with rfl | ⟨room, hroom, hhas, rfl⟩
  · exact h
  · have hfix := fixedPart_setRoom g room { room with HasTreasure := false, Treasure := "" }
      hroom rfl
    have hw1 := monsterHealth_setRoom_same g room
      { room with HasTreasure := false, Treasure := "" } 1 hroom rfl
    have hw3 := monsterHealth_setRoom_same g room
      { room with HasTreasure := false, Treasure := "" } 3 hroom rfl
    have hthreat := threat_setRoom_same g room
      { room with HasTreasure := false, Treasure := "" } hroom rfl
    have hpot := potential_setRoom_same g room
      { room with HasTreasure := false, Treasure := "" } hroom rfl rfl
    have hwa := worldArsenal_take g h.world room hroom hhas
    have hinv := h.world.healthLower
    refine gameInv_transfer g _ h hfix h.world.posLower h.world.posUpper (le_of_eq hw1)
      (le_of_eq hw3) ?_ hl0 hmax hdef hh1 ?_ he0 ?_ ?_
    · show 20 ≤ (if contains room.Treasure "Золотой меч" = true then g.player.Attack + 10
        else g.player.Attack)
      split <;> omega
    · show threat (g.setRoom { room with HasTreasure := false, Treasure := "" }).rooms ≤
        g.player.Health
      rw [hthreat]
      exact hinv
    · show (g.player.Level - 1) * 100 + g.player.Experience +
        potential (g.setRoom { room with HasTreasure := false, Treasure := "" }).rooms ≤ _
      rw [hpot]
    · show (if contains room.Treasure "Золотой меч" = true then g.player.Attack + 10
          else g.player.Attack) +
        (5 * strengthCount (g.player.Inventory ++ [room.Treasure]) +
          worldArsenal (g.setRoom { room with HasTreasure := false, Treasure := "" }).rooms +
          5 * (2 - g.player.Level)) ≤
        g.player.Attack + (5 * strengthCount g.player.Inventory + worldArsenal g.rooms +
          5 * (2 - g.player.Level))
      rw [hwa, strengthCount_append]
      split <;> split <;> omega

/-- The `switch` of `useItem` in the fixed world: the health does not drop
and stays under maxHealth, the attack does not drop, and the attack gained is
the strength potion consumed. -/
theorem applyItem_small (p : Character) (item : String) (i : Nat)
    (hi : p.Inventory[i]? = some item) (hh0 : 0 ≤ p.Health) (hup : p.Health ≤ p.MaxHealth)
    (hmax : p.MaxHealth ≤ 120) (ha0 : 0 ≤ p.Attack) (ha1 : p.Attack ≤ 45) :
    p.Health ≤ (applyItem p item i).Health ∧
    (applyItem p item i).Health ≤ p.MaxHealth ∧
    p.Attack ≤ (applyItem p item i).Attack ∧
    (applyItem p item i).Attack + 5 * strengthCount (applyItem p item i).Inventory =
      p.Attack + 5 * strengthCount p.Inventory := by
  have hrem := strengthCount_remove p.Inventory i item hi
  obtain ⟨_, hm30, ha30, _⟩ := heal_stats p 30
  obtain ⟨_, hm10, ha10, _⟩ := heal_stats p 10
  have hh30 := heal_health p 30 (by unfold fits64; omega)
  have hh10 := heal_health p 10 (by unfold fits64; omega)
  have hi30 := heal_inventory p 30
  have hi10 := heal_inventory p 10
  unfold applyItem
  by_cases h1 : contains item "Зелье здоровья" = true
  · have hno : isStrength item = false := by simp [isStrength, h1]
    rw [if_pos h1]
    rw [hno] at hrem
    simp only [Character.removeAt, hi30, ha30, hh30, hrem]
    simp only [Bool.false_eq_true, if_false]
    omega
  · rw [if_neg h1]
    by_cases h2 : contains item "Зелье силы" = true
    · have hyes : isStrength item = true := by simp [isStrength, h1, h2]
      rw [if_pos h2]
      rw [hyes] at hrem
      simp only [Character.removeAt, hrem, wrap64_small (p.Attack + 5) (by omega) (by omega)]
      simp only [if_true]
      omega
    · have hno : isStrength item = false := by simp [isStrength, h2]
      rw [if_neg h2]
      rw [hno] at hrem
      by_cases h3 : contains item "Хлеб" = true
      · rw [if_pos h3]
        simp only [Character.removeAt, hi10, ha10, hh10, hrem]
        simp only [Bool.false_eq_true, if_false]
        omega
      · rw [if_neg h3]
        omega

theorem gameInv_useItem (lower : String → String) (g : Game) (itemName : String)
    (h : GameInv g) : GameInv (useItem lower g itemName) := by
  obtain ⟨ha0, ha1, hl0, hl1, he0, he1, hh0, hh1, hmax, hdef⟩ := gameInv_bounds g h
  rcases useItem_cases lower g itemName with hsame | ⟨i, item, hi, hres⟩
  · rw [hsame]
    exact h
  · rw [hres]
    obtain ⟨_, hm, hd, hl, he⟩ := applyItem_keeps g.player item i
    obtain ⟨hlow, hupp, hatt, hsum⟩ :=
      applyItem_small g.player item i hi hh0 hh1 (by omega) (by omega) ha1
    have hinv := h.world.healthLower
    refine gameInv_transfer g _ h rfl h.world.posLower h.world.posUpper (le_refl _) (le_refl _)
      ?_ ?_ ?_ ?_ ?_ ?_ ?_ ?_ ?_
    · show 20 ≤ (applyItem g.player item i).Attack
      omega
    · show 1 ≤ (applyItem g.player item i).Level
      omega
    · show (applyItem g.player item i).MaxHealth = 80 + 20 * (applyItem g.player item i).Level
      omega
    · show (applyItem g.player item i).Defense = 8 + 2 * (applyItem g.player item i).Level
      omega
    · show (applyItem g.player item i).Health ≤ (applyItem g.player item i).MaxHealth
      omega
    · show threat g.rooms ≤ (applyItem g.player item i).Health
      omega
    · show 0 ≤ (applyItem g.player item i).Experience
      omega
    · show ((applyItem g.player item i).Level - 1) * 100 +
        (applyItem g.player item i).Experience + potential g.rooms ≤ _
      rw [hl, he]
    · show (applyItem g.player item i).Attack +
        (5 * strengthCount (applyItem g.player item i).Inventory + worldArsenal g.rooms +
          5 * (2 - (applyItem g.player item i).Level)) ≤
        g.player.Attack + (5 * strengthCount g.player.Inventory + worldArsenal g.rooms +
          5 * (2 - g.player.Level))
      rw [hl]
      omega

theorem gameInv_checkLevelUp (g : Game) (h : GameInv g) : GameInv (checkLevelUp g) := by
  obtain ⟨ha0, ha1, hl0, hl1, he0, he1, hh0, hh1, hmax, hdef⟩ := gameInv_bounds g h
  have hthreat := threat_le g.rooms h.world.wolf h.world.troll
  rw [checkLevelUp_small g h]
  split
  · rename_i hreq
    refine gameInv_transfer g _ h rfl h.world.posLower h.world.posUpper (le_refl _) (le_refl _)
      ?_ ?_ ?_ ?_ ?_ ?_ ?_ ?_ ?_
    · show 20 ≤ g.player.Attack + 5
      omega
    · show 1 ≤ g.player.Level + 1
      omega
    · show g.player.MaxHealth + 20 = 80 + 20 * (g.player.Level + 1)
      omega
    · show g.player.Defense + 2 = 8 + 2 * (g.player.Level + 1)
      omega
    · show g.player.MaxHealth + 20 ≤ g.player.MaxHealth + 20
      omega
    · show threat g.rooms ≤ g.player.MaxHealth + 20
      omega
    · show 0 ≤ g.player.Experience - g.player.Level * 100
      omega
    · show (g.player.Level + 1 - 1) * 100 + (g.player.Experience - g.player.Level * 100) +
        potential g.rooms ≤ (g.player.Level - 1) * 100 + g.player.Experience + potential g.rooms
      omega
    · show g.player.Attack + 5 + (5 * strengthCount g.player.Inventory + worldArsenal g.rooms +
          5 * (2 - (g.player.Level + 1))) ≤
        g.player.Attack + (5 * strengthCount g.player.Inventory + worldArsenal g.rooms +
          5 * (2 - g.player.Level))
      omega
  · exact h

theorem gameInv_quit (g : Game) (h : GameInv g) : GameInv { g with gameRunning := false } :=
  gameInv_transfer g _ h rfl h.world.posLower h.world.posUpper (le_refl _) (le_refl _)
    h.world.attackLower h.ledger.levelLower h.stats.maxHealthLink h.stats.defenseLink
    h.world.healthUpper h.world.healthLower h.ledger.experienceLower (le_refl _) (le_refl _)

theorem gameInv_dispatch (lower : String → String) (g g1 : Game) (action : String)
    (parts : List String) (d : Draws) (h : GameInv g) (hd : d.valid)
    (hdis : dispatch lower g action parts d = some g1) : GameInv g1 := by
  rcases dispatch_cases lower g g1 action parts d hdis with hm | ha | ht | rfl | ⟨n, rfl⟩ | rfl
  · exact gameInv_move g g1 action d h hm
  · exact gameInv_attack g g1 d h hd ha
  · exact gameInv_takeTreasure g g1 h ht
  · exact h
  · exact gameInv_useItem lower g n h
  · exact gameInv_quit g h

theorem gameInv_processCommand (lower : String → String) (g g1 : Game) (command : String)
    (d : Draws) (h : GameInv g) (hd : d.valid)
    (hcmd : processCommand lower g command d = some g1) : GameInv g1 := by
  obtain ⟨action, g0, _, hdis, rfl⟩ := processCommand_cases lower g g1 command d hcmd
  exact gameInv_checkLevelUp g0 (gameInv_dispatch lower g g0 action _ d h hd hdis)

/-- Every reachable state satisfies the invariant of the fixed world: no sum
of the program overflows on the way. -/
theorem gameInv_reachable (lower : String → String) (g : Game) (h : Reachable lower g) :
    GameInv g := by
  induction h with
  | init => exact gameInv_init
  | display _ hshow ih => exact gameInv_showRoom _ _ ih hshow
  | command command d _ hd hcmd ih => exact gameInv_processCommand lower _ _ command d ih hd hcmd

/-- C1: in every state reachable from the initial game by `showRoom` and
`processCommand` steps, on any command lines and with any draws in range, the
player's health lies between 0 and the maximal health. -/
theorem health_in_range (lower : String → String) (g : Game) (h : Reachable lower g) :
    0 ≤ g.player.Health ∧ g.player.Health ≤ g.player.MaxHealth := by
  have hinv := (gameInv_reachable lower g h).world
  exact ⟨le_trans (threat_nonneg g.rooms) hinv.healthLower, hinv.healthUpper⟩

theorem health_in_range_witness :
    0 ≤ firstBloodGame.player.Health ∧
      firstBloodGame.player.Health ≤ firstBloodGame.player.MaxHealth :=
  health_in_range lowerText firstBloodGame
    (Reachable.command "атака" ⟨0, 0, 0, 0, 0, 7⟩
      (Reachable.command "север" ⟨5, 0, 0, 0, 0, 0⟩ Reachable.init (by decide)
        (by decide : processCommand lowerText initGame "север" ⟨5, 0, 0, 0, 0, 0⟩ =
          some forestGame))
      (by decide) (by decide))

/-! ## Absence of run-time failures -/

theorem removeAtChecked_eq (p : Character) (i : Nat) (hi : i < p.Inventory.length) :
    p.removeAtChecked i = some (p.removeAt i) := by
  have h1 : i ≤ p.Inventory.length := by omega
  have h2 : i + 1 ≤ p.Inventory.length := by omega
  simp [Character.removeAtChecked, Character.removeAt, sliceTo, sliceFrom, h1, h2]

theorem applyItemChecked_eq (p : Character) (item : String) (i : Nat)
    (hi : i < p.Inventory.length) :
    applyItemChecked p item i = some (applyItem p item i) := by
  have h30 : i < (p.heal 30).Inventory.length := by rw [heal_inventory]; exact hi
  have h10 : i < (p.heal 10).Inventory.length := by rw [heal_inventory]; exact hi
  unfold applyItemChecked applyItem
  split
  · exact removeAtChecked_eq _ i h30
  · split
    · exact removeAtChecked_eq _ i hi
    · split
      · exact removeAtChecked_eq _ i h10
      · rfl

/-- The index at which the loop of `useItem` removes an entry is always an
index of the inventory. -/
theorem useItemLoopChecked_eq (lower : String → String) (p : Character) (itemName : String) :
    ∀ (items : List String) (k : Nat), k + items.length = p.Inventory.length →
      useItemLoopChecked lower p itemName items k =
        some (useItemLoop lower p itemName items k) := by
  intro items
  induction items with
  | nil => intro k _; rfl
  | cons item rest ih =>
    intro k hk
    rw [useItemLoopChecked, useItemLoop]
    simp only [List.length_cons] at hk
    split
    · exact applyItemChecked_eq p item k (by omega)
    · exact ih (k + 1) (by omega)

theorem useItemChecked_eq (lower : String → String) (g : Game) (itemName : String) :
    useItemChecked lower g itemName = some (useItem lower g itemName) := by
  unfold useItemChecked useItem
  rw [useItemLoopChecked_eq lower g.player itemName g.player.Inventory 0 (by omega)]

theorem move_total (g : Game) (direction : String) (d : Draws) (room : Room)
    (hroom : roomAt g.rooms g.currentRoom = some room)
    (hmon : room.HasMonster = true → ∃ m, room.Monster = some m)
    (he : d.eventIdx < 5) : ∃ g1, move g direction d = some g1 := by
  have hstep : ∀ next : Int, ∃ g1, (if d.event < 2 then
      randomEvent { g with currentRoom := next } d.eventIdx
      else some { g with currentRoom := next }) = some g1 := by
    intro next
    rw [randomEvent_eq _ _ he]
    split <;> exact ⟨_, rfl⟩
  unfold move
  rw [hroom]
  rcases Option.eq_none_or_eq_some (room.Exits.lookup direction) with hexit | ⟨next, hexit⟩
  · exact ⟨g, by simp [hexit]⟩
  · simp only [hexit]
    by_cases hhas : room.HasMonster = true
    · obtain ⟨m, hm⟩ := hmon hhas
      simp only [if_pos hhas, hm]
      split
      · exact ⟨g, rfl⟩
      · exact hstep next
    · simp only [if_neg hhas]
      exact hstep next

theorem attack_total (g : Game) (d : Draws) (room : Room)
    (hroom : roomAt g.rooms g.currentRoom = some room)
    (hmon : room.HasMonster = true → ∃ m, room.Monster = some m)
    (hd : d.valid) : ∃ g1, attack g d = some g1 := by
  by_cases hhas : room.HasMonster = true
  · obtain ⟨m, hm⟩ := hmon hhas
    by_cases hlive : m.Health > 0
    · obtain ⟨g1, hatt, _⟩ := attack_live_rooms g d room m hroom hhas hm hlive hd
      exact ⟨g1, hatt⟩
    · exact ⟨g, attack_idle g d room hroom (Or.inr ⟨m, hm, not_lt.mp hlive⟩)⟩
  · have hno : room.HasMonster = false := by
      cases h : room.HasMonster
      · rfl
      · exact absurd h hhas
    exact ⟨g, attack_idle g d room hroom (Or.inl hno)⟩

theorem takeTreasure_total (g : Game) (room : Room)
    (hroom : roomAt g.rooms g.currentRoom = some room) : ∃ g1, takeTreasure g = some g1 := by
  unfold takeTreasure
  rw [hroom]
  simp only
  split <;> exact ⟨_, rfl⟩

theorem dispatch_total (lower : String → String) (g : Game) (action : String)
    (parts : List String) (d : Draws) (room : Room)
    (hroom : roomAt g.rooms g.currentRoom = some room)
    (hmon : room.HasMonster = true → ∃ m, room.Monster = some m)
    (hd : d.valid) : ∃ g1, dispatch lower g action parts d = some g1 := by
  unfold dispatch
  split
  · exact move_total g action d room hroom hmon hd.2.1
  · split
    · exact attack_total g d room hroom hmon hd
    · split
      · exact takeTreasure_total g room hroom
      · split
        · exact ⟨_, rfl⟩
        · split
          · split <;> exact ⟨_, rfl⟩
          · split
            · exact ⟨_, rfl⟩
            · split
              · exact ⟨_, rfl⟩
              · split <;> exact ⟨_, rfl⟩

theorem processCommand_total (lower : String → String) (g : Game) (command : String)
    (d : Draws) (room : Room)
    (hroom : roomAt g.rooms g.currentRoom = some room)
    (hmon : room.HasMonster = true → ∃ m, room.Monster = some m)
    (hd : d.valid) : ∃ g1, processCommand lower g command d = some g1 := by
  obtain ⟨action, hact⟩ := splitSpace_head command
  obtain ⟨g0, hdis⟩ := dispatch_total lower g action (splitSpace command) d room hroom hmon hd
  exact ⟨checkLevelUp g0, by unfold processCommand; simp only [hact, hdis]⟩

/-- C16: no run-time failure.  In every state reachable from the initial
game, `showRoom` returns a state and so does `processCommand` on every
command line with draws in range; for in such a state the current room index
is a valid index of the room list, every exit destination is a valid room
index, every room flagged as having a monster holds one, the word `parts[0]`
of a command always exists, and the removal of `useItem` with its slice
bounds checked never fails. -/
theorem no_runtime_failure (lower : String → String) (g : Game) (h : Reachable lower g) :
    (∃ g1, showRoom g = some g1) ∧
    (∀ command d, d.valid → ∃ g1, processCommand lower g command d = some g1) ∧
    (0 ≤ g.currentRoom ∧ g.currentRoom < (g.rooms.length : Int)) ∧
    (∀ (i : Nat) (room : Room), g.rooms[i]? = some room →
      ∀ e ∈ room.Exits, 0 ≤ e.2 ∧ e.2 < (g.rooms.length : Int)) ∧
    (∀ (i : Nat) (room : Room), g.rooms[i]? = some room → room.HasMonster = true →
      ∃ m, room.Monster = some m) ∧
    (∀ command, ∃ action, (splitSpace command)[0]? = some action) ∧
    (∀ itemName, useItemChecked lower g itemName = some (useItem lower g itemName)) := by
  have hinv := (gameInv_reachable lower g h).world
  obtain ⟨room, hroom, hmon⟩ := currentRoom_ok g hinv
  refine ⟨⟨_, showRoom_eq g room hroom hmon⟩,
    fun command d hd => processCommand_total lower g command d room hroom hmon hd,
    ⟨hinv.posLower, by rw [rooms_length g hinv]; exact hinv.posUpper⟩,
    exits_valid g hinv, monster_present g hinv, splitSpace_head,
    useItemChecked_eq lower g⟩

theorem no_runtime_failure_witness :
    (∃ g1, showRoom firstBloodGame = some g1) ∧
    (∃ g1, processCommand lowerText firstBloodGame "использовать зелье" ⟨0, 0, 0, 0, 0, 0⟩ =
      some g1) := by
  have h := no_runtime_failure lowerText firstBloodGame
    (Reachable.command "атака" ⟨0, 0, 0, 0, 0, 7⟩
      (Reachable.command "север" ⟨5, 0, 0, 0, 0, 0⟩ Reachable.init (by decide)
        (by decide : processCommand lowerText initGame "север" ⟨5, 0, 0, 0, 0, 0⟩ =
          some forestGame))
      (by decide) (by decide))
  exact ⟨h.1, h.2.1 "использовать зелье" ⟨0, 0, 0, 0, 0, 0⟩ (by decide)⟩

/-! ## The health of the monsters -/

/-- The overshoot bound survives when the monsters are the old ones and the
player's attack has not dropped. -/
theorem overshoot_mono (g g1 : Game)
    (hmons : ∀ (i : Nat) (r1 : Room) (m : Monster), g1.rooms[i]? = some r1 →
      r1.Monster = some m → ∃ r, g.rooms[i]? = some r ∧ r.Monster = some m)
    (ha : g.player.Attack ≤ g1.player.Attack) (h : OvershootInv g) : OvershootInv g1 := by
  intro i r1 m hr1 hm
  obtain ⟨r, hr, hrm⟩ := hmons i r1 m hr1 hm
  rcases h i r m hr hrm with hpos | hlow
  · exact Or.inl hpos
  · exact Or.inr (by omega)

/-- Writing a room with the same monster leaves the monsters as they are. -/
theorem monsters_set_same (rooms : List Room) (k : Nat) (room room1 : Room)
    (h : rooms[k]? = some room) (hmon : room1.Monster = room.Monster) :
    ∀ (i : Nat) (r1 : Room) (m : Monster), (rooms.set k room1)[i]? = some r1 →
      r1.Monster = some m → ∃ r, rooms[i]? = some r ∧ r.Monster = some m := by
  intro i r1 m hr1 hm
  by_cases hki : k = i
  · subst hki
    simp only [List.getElem?_set', h, if_true, Option.map_eq_map, Option.map_some',
      Function.const_apply, Option.some.injEq] at hr1
    subst hr1
    exact ⟨room, h, by rw [← hmon]; exact hm⟩
  · rw [List.getElem?_set_ne hki] at hr1
    exact ⟨r1, hr1, hm⟩

theorem overshoot_showRoom (g g1 : Game) (hshow : showRoom g = some g1)
    (h : OvershootInv g) : OvershootInv g1 := by
  obtain ⟨room, hroom, ⟨_, rfl⟩ | ⟨_, rfl⟩⟩ := showRoom_cases g g1 hshow
  · exact overshoot_mono g _
      (monsters_set_same g.rooms _ room _ (roomAt_eq_getElem? _ _ _ hroom).2 rfl) (le_refl _) h
  · exact h

theorem overshoot_move (g g1 : Game) (direction : String) (d : Draws)
    (hmove : move g direction d = some g1) (h : OvershootInv g) : OvershootInv g1 := by
  obtain ⟨n, items, _, rfl⟩ := move_effect g g1 direction d hmove
  exact overshoot_mono g _ (fun i r1 m hr1 hm => ⟨r1, hr1, hm⟩) (le_refl _) h

/-- A strike of `attack + hit - defense` at a live monster takes its health
below 1 by less than `attack + 9 - defense`. -/
theorem overshoot_strike (g : Game) (room : Room) (m : Monster) (p : Character) (run : Bool)
    (hit : Nat) (hhit : hit < 10) (dmg : Int)
    (hroom : roomAt g.rooms g.currentRoom = some room)
    (hlive : 0 < m.Health) (hdmg : dmg = g.player.Attack + (hit : Int) - m.Defense)
    (hp : p.Attack = g.player.Attack) (h : OvershootInv g) :
    OvershootInv { (g.setRoom { room with Monster := some { m with
        Health := m.Health - dmg } }) with
      player := p, gameRunning := run } := by
  have hget := (roomAt_eq_getElem? _ _ _ hroom).2
  intro i r1 m1 hr1 hm1
  by_cases hki : g.currentRoom.toNat = i
  · subst hki
    have hr2 : (g.rooms.set g.currentRoom.toNat { room with Monster := some { m with
        Health := m.Health - dmg } })[g.currentRoom.toNat]? = some r1 := hr1
    simp only [List.getElem?_set', hget, if_true, Option.map_eq_map, Option.map_some',
      Function.const_apply, Option.some.injEq] at hr2
    subst hr2
    simp only [Option.some.injEq] at hm1
    subst hm1
    show 0 < m.Health - dmg ∨ 1 ≤ m.Health - dmg + (p.Attack + 9 - m.Defense)
    rw [hp]
    omega
  · have hr2 : (g.rooms.set g.currentRoom.toNat { room with Monster := some { m with
        Health := m.Health - dmg } })[i]? = some r1 := hr1
    rw [List.getElem?_set_ne hki] at hr2
    rcases h i r1 m1 hr2 hm1 with hpos | hlow
    · exact Or.inl hpos
    · right
      show 1 ≤ m1.Health + (p.Attack + 9 - m1.Defense)
      rw [hp]
      exact hlow

theorem overshoot_attack (g g1 : Game) (d : Draws) (hinv : GameInv g) (hd : d.valid)
    (hatt : attack g d = some g1) (h : OvershootInv g) : OvershootInv g1 := by
  have hhit : d.hit < 10 := hd.2.2.1
  rcases attack_exact g g1 d hinv hd hatt with
    rfl | ⟨room, m, items, hroom, hhas, hmon, hlive, _, hres⟩
  · exact h
  · obtain ⟨_, hs, _⟩ := strikes_exact g hinv d hd room m hroom hhas hmon hlive
    rcases hres with ⟨_, rfl⟩ | ⟨_, run, _, rfl⟩
    · exact overshoot_strike g room m _ g.gameRunning d.hit hhit _ hroom hlive hs rfl h
    · exact overshoot_strike g room m _ run d.hit hhit _ hroom hlive hs rfl h

theorem overshoot_takeTreasure (g g1 : Game) (hinv : GameInv g)
    (htake : takeTreasure g = some g1) (h : OvershootInv g) : OvershootInv g1 := by
  rcases takeTreasure_exact g g1 hinv htake with rfl | ⟨room, hroom, _, rfl⟩
  · exact h
  · refine overshoot_mono g _
      (monsters_set_same g.rooms _ room _ (roomAt_eq_getElem? _ _ _ hroom).2 rfl) ?_ h
    show g.player.Attack ≤ (if contains room.Treasure "Золотой меч" = true
      then g.player.Attack + 10 else g.player.Attack)
    split <;> omega

theorem overshoot_useItem (lower : String → String) (g : Game) (itemName : String)
    (hinv : GameInv g) (h : OvershootInv g) : OvershootInv (useItem lower g itemName) := by
  obtain ⟨ha0, ha1, hl0, hl1, he0, he1, hh0, hh1, hmax, hdef⟩ := gameInv_bounds g hinv
  rcases useItem_cases lower g itemName with hsame | ⟨i, item, hi, hres⟩
  · rw [hsame]
    exact h
  · rw [hres]
    obtain ⟨_, _, hatt, _⟩ :=
      applyItem_small g.player item i hi hh0 hh1 (by omega) (by omega) ha1
    exact overshoot_mono g _ (fun i r1 m hr1 hm => ⟨r1, hr1, hm⟩) hatt h

theorem overshoot_dispatch (lower : String → String) (g g1 : Game) (action : String)
    (parts : List String) (d : Draws) (hinv : GameInv g) (hd : d.valid)
    (hdis : dispatch lower g action parts d = some g1) (h : OvershootInv g) :
    OvershootInv g1 := by
  rcases dispatch_cases lower g g1 action parts d hdis with hm | ha | ht | rfl | ⟨n, rfl⟩ | rfl
  · exact overshoot_move g g1 action d hm h
  · exact overshoot_attack g g1 d hinv hd ha h
  · exact overshoot_takeTreasure g g1 hinv ht h
  · exact h
  · exact overshoot_useItem lower g n hinv h
  · exact overshoot_mono g _ (fun i r1 m hr1 hm => ⟨r1, hr1, hm⟩) (le_refl _) h

theorem overshoot_checkLevelUp (g : Game) (hinv : GameInv g) (h : OvershootInv g) :
    OvershootInv (checkLevelUp g) := by
  rw [checkLevelUp_small g hinv]
  split
  · refine overshoot_mono g _ (fun i r1 m hr1 hm => ⟨r1, hr1, hm⟩) ?_ h
    show g.player.Attack ≤ g.player.Attack + 5
    omega
  · exact h

theorem overshoot_reachable (lower : String → String) (g : Game) (h : Reachable lower g) :
    OvershootInv g := by
  induction h with
  | init =>
    intro i room m hr hm
    have hlen : i < initGame.rooms.length := (List.getElem?_eq_some.mp hr).1
    have hcases : i = 0 ∨ i = 1 ∨ i = 2 ∨ i = 3 ∨ i = 4 := by
      have : initGame.rooms.length = 5 := rfl
      omega
    rcases hcases with rfl | rfl | rfl | rfl | rfl <;>
      simp only [initGame, List.getElem?_cons_zero, List.getElem?_cons_succ,
        Option.some.injEq] at hr <;>
      subst hr <;> simp only [Option.some.injEq] at hm
    · exact absurd hm (by simp)
    · subst hm; exact Or.inl (by decide)
    · exact absurd hm (by simp)
    · subst hm; exact Or.inl (by decide)
    · exact absurd hm (by simp)
  | display _ hshow ih => exact overshoot_showRoom _ _ hshow ih
  | command command d hreach hd hcmd ih =>
    obtain ⟨action, g0, _, hdis, rfl⟩ := processCommand_cases lower _ _ command d hcmd
    have hinv := gameInv_reachable lower _ hreach
    exact overshoot_checkLevelUp g0 (gameInv_dispatch lower _ g0 action _ d hinv hd hdis)
      (overshoot_dispatch lower _ g0 action _ d hinv hd hdis ih)

/-- C18, counterexample: the state reached from the initial game by the
commands "север", "атака" (strike draw 0, counterattack draw 7) and "атака"
(strike draw 9) holds the wolf with health -9. -/
theorem monster_health_counterexample :
    Reachable lowerText slainWolfGame ∧
    ∃ room m, slainWolfGame.rooms[1]? = some room ∧ room.Monster = some m ∧
      m.Health = -9 ∧ ¬ (m.Health ≥ 0) := by
  refine ⟨?_, _, _, rfl, rfl, rfl, by decide⟩
  exact Reachable.command "атака" ⟨0, 0, 9, 1, 0, 0⟩
    (Reachable.command "атака" ⟨0, 0, 0, 0, 0, 7⟩
      (Reachable.command "север" ⟨5, 0, 0, 0, 0, 0⟩ Reachable.init (by decide)
        (by decide : processCommand lowerText initGame "север" ⟨5, 0, 0, 0, 0, 0⟩ =
          some forestGame))
      (by decide)
      (by decide : processCommand lowerText forestGame "атака" ⟨0, 0, 0, 0, 0, 7⟩ =
        some firstBloodGame))
    (by decide) (by decide)

/-- C18, amended: in every state reachable from the initial game, every
monster in every room has health at most its initial health (30 for the wolf
of room 1, 50 for the troll of room 3), and it is either alive (health above
0) or its health lies below 1 by less than the largest strike
`attack + 9 - defense` of the player: the killing strike may leave a negative
health, which is never reset to 0. -/
theorem monster_health_bounds (lower : String → String) (g : Game) (h : Reachable lower g) :
    ∀ (i : Nat) (room : Room) (m : Monster), g.rooms[i]? = some room →
      room.Monster = some m →
      ((i = 1 ∧ m.Health ≤ 30) ∨ (i = 3 ∧ m.Health ≤ 50)) ∧
      (0 < m.Health ∨ 1 ≤ m.Health + (g.player.Attack + 9 - m.Defense)) := by
  intro i room m hr hm
  exact ⟨monster_cases g (gameInv_reachable lower g h).world i room m hr hm,
    overshoot_reachable lower g h i room m hr hm⟩

theorem monster_health_bounds_witness :
    ((1 = 1 ∧ (-9 : Int) ≤ 30) ∨ (1 = 3 ∧ (-9 : Int) ≤ 50)) ∧
    (0 < (-9 : Int) ∨ 1 ≤ (-9 : Int) + (slainWolfGame.player.Attack + 9 - 5)) :=
  monster_health_bounds lowerText slainWolfGame
    (Reachable.command "атака" ⟨0, 0, 9, 1, 0, 0⟩
      (Reachable.command "атака" ⟨0, 0, 0, 0, 0, 7⟩
        (Reachable.command "север" ⟨5, 0, 0, 0, 0, 0⟩ Reachable.init (by decide)
          (by decide : processCommand lowerText initGame "север" ⟨5, 0, 0, 0, 0, 0⟩ =
            some forestGame))
        (by decide)
        (by decide : processCommand lowerText forestGame "атака" ⟨0, 0, 0, 0, 0, 7⟩ =
          some firstBloodGame))
      (by decide) (by decide))
    1 _ { Name := "Лесной волк", Health := -9, Attack := 15, Defense := 5, Reward := 25 }
    rfl rfl

/-! ## The player's stats -/

theorem statsStep_refl (g : Game) : StatsStep g g :=
  ⟨le_refl _, by omega, rfl, rfl, le_refl _, by omega⟩

theorem stats_showRoom (g g1 : Game) (hshow : showRoom g = some g1)
    (he : 0 ≤ g.player.Experience) (hsmall : StatsSmall g) : StatsStep g g1 := by
  obtain ⟨_, _, _, he1, _⟩ := hsmall
  obtain ⟨room, _, ⟨_, rfl⟩ | ⟨_, rfl⟩⟩ := showRoom_cases g g1 hshow
  · refine ⟨le_refl _, by show g.player.Attack ≤ g.player.Attack + 10; omega, rfl, rfl, ?_, ?_⟩
    · show g.player.Experience ≤ wrap64 (g.player.Experience + 5)
      rw [wrap64_small _ (by omega) (by omega)]
      omega
    · show wrap64 (g.player.Experience + 5) ≤ g.player.Experience + 72057594037927936
      rw [wrap64_small _ (by omega) (by omega)]
      omega
  · exact statsStep_refl _

theorem stats_move (g g1 : Game) (direction : String) (d : Draws)
    (hmove : move g direction d = some g1) : StatsStep g g1 := by
  obtain ⟨n, items, _, rfl⟩ := move_effect g g1 direction d hmove
  exact statsStep_refl _

theorem stats_attack (g g1 : Game) (d : Draws) (hatt : attack g d = some g1)
    (hrew : ∀ (i : Nat) (room : Room) (m : Monster), g.rooms[i]? = some room →
      room.Monster = some m → 0 ≤ m.Reward)
    (he : 0 ≤ g.player.Experience) (hsmall : StatsSmall g) : StatsStep g g1 := by
  obtain ⟨_, _, _, he1, hr1⟩ := hsmall
  rcases attack_cases g g1 d hatt with rfl | ⟨room, m, items, hroom, _, hmon, _, _, hres⟩
  · exact statsStep_refl _
  · have hr := hrew _ room m (roomAt_eq_getElem? _ _ _ hroom).2 hmon
    have hr2 := hr1 _ room m (roomAt_eq_getElem? _ _ _ hroom).2 hmon
    rcases hres with ⟨_, rfl⟩ | ⟨_, run, _, rfl⟩
    · refine ⟨le_refl _, by show g.player.Attack ≤ g.player.Attack + 10; omega, rfl, rfl, ?_, ?_⟩
      · show g.player.Experience ≤ wrap64 (g.player.Experience + m.Reward)
        rw [wrap64_small _ (by omega) (by omega)]
        omega
      · show wrap64 (g.player.Experience + m.Reward) ≤
          g.player.Experience + 72057594037927936
        rw [wrap64_small _ (by omega) (by omega)]
        omega
    · exact statsStep_refl _

theorem stats_takeTreasure (g g1 : Game) (htake : takeTreasure g = some g1)
    (ha : 0 ≤ g.player.Attack) (hsmall : StatsSmall g) : StatsStep g g1 := by
  obtain ⟨ha1, _⟩ := hsmall
  rcases takeTreasure_cases g g1 htake with rfl | ⟨room, _, _, rfl⟩
  · exact statsStep_refl _
  · have hw := wrap64_small (g.player.Attack + 10) (by omega) (by omega)
    refine ⟨?_, ?_, rfl, rfl, le_refl _,
      by show g.player.Experience ≤ g.player.Experience + 72057594037927936; omega⟩
    · show g.player.Attack ≤ (if contains room.Treasure "Золотой меч" = true
        then wrap64 (g.player.Attack + 10) else g.player.Attack)
      rw [hw]
      split <;> omega
    · show (if contains room.Treasure "Золотой меч" = true
        then wrap64 (g.player.Attack + 10) else g.player.Attack) ≤ g.player.Attack + 10
      rw [hw]
      split <;> omega

/-- The `switch` of `useItem` adds 5 to the attack or leaves it. -/
theorem applyItem_attack (p : Character) (item : String) (i : Nat) (ha : 0 ≤ p.Attack)
    (ha1 : p.Attack ≤ 72057594037927936) :
    p.Attack ≤ (applyItem p item i).Attack ∧ (applyItem p item i).Attack ≤ p.Attack + 10 := by
  obtain ⟨_, _, ha30, _⟩ := heal_stats p 30
  obtain ⟨_, _, ha10, _⟩ := heal_stats p 10
  have hw := wrap64_small (p.Attack + 5) (by omega) (by omega)
  unfold applyItem
  split
  · show p.Attack ≤ (p.heal 30).Attack ∧ (p.heal 30).Attack ≤ p.Attack + 10
    omega
  · split
    · show p.Attack ≤ wrap64 (p.Attack + 5) ∧ wrap64 (p.Attack + 5) ≤ p.Attack + 10
      omega
    · split
      · show p.Attack ≤ (p.heal 10).Attack ∧ (p.heal 10).Attack ≤ p.Attack + 10
        omega
      · omega

theorem stats_useItem (lower : String → String) (g : Game) (itemName : String)
    (ha : 0 ≤ g.player.Attack) (hsmall : StatsSmall g) :
    StatsStep g (useItem lower g itemName) := by
  obtain ⟨ha1, _⟩ := hsmall
  rcases useItem_cases lower g itemName with hsame | ⟨i, item, _, hres⟩
  · rw [hsame]
    exact statsStep_refl _
  · rw [hres]
    obtain ⟨_, _, hd, hl, he⟩ := applyItem_keeps g.player item i
    obtain ⟨hlow, hupp⟩ := applyItem_attack g.player item i ha ha1
    exact ⟨hlow, hupp, hd, hl, le_of_eq he.symm,
      by show (applyItem g.player item i).Experience ≤ _; omega⟩

/-- The level-up on stats far from overflow: attack, defense and level do not
drop and the experience stays at 0 or above. -/
theorem stats_checkLevelUp (g : Game)
    (ha : 0 ≤ g.player.Attack) (ha1 : g.player.Attack ≤ 144115188075855872)
    (hd : 0 ≤ g.player.Defense) (hd1 : g.player.Defense ≤ 144115188075855872)
    (hl : 1 ≤ g.player.Level) (hl1 : g.player.Level ≤ 72057594037927936)
    (he : 0 ≤ g.player.Experience) (he1 : g.player.Experience ≤ 144115188075855872) :
    g.player.Attack ≤ (checkLevelUp g).player.Attack ∧
    g.player.Defense ≤ (checkLevelUp g).player.Defense ∧
    g.player.Level ≤ (checkLevelUp g).player.Level ∧
    0 ≤ (checkLevelUp g).player.Experience := by
  have hw1 := wrap64_of_fits (g.player.Level * 100) (by unfold fits64; omega)
  have hw2 := wrap64_small (g.player.Level + 1) (by omega) (by omega)
  have hw3 := wrap64_small (g.player.Attack + 5) (by omega) (by omega)
  have hw4 := wrap64_small (g.player.Defense + 2) (by omega) (by omega)
  have hw5 := wrap64_of_fits (g.player.Experience - g.player.Level * 100)
    (by unfold fits64; omega)
  unfold checkLevelUp
  simp only [hw1, hw2, hw3, hw4, hw5]
  split
  · refine ⟨?_, ?_, ?_, ?_⟩
    · show g.player.Attack ≤ g.player.Attack + 5
      omega
    · show g.player.Defense ≤ g.player.Defense + 2
      omega
    · show g.player.Level ≤ g.player.Level + 1
      omega
    · show 0 ≤ g.player.Experience - g.player.Level * 100
      omega
  · exact ⟨le_refl _, le_refl _, le_refl _, he⟩

theorem stats_dispatch (lower : String → String) (g g1 : Game) (action : String)
    (parts : List String) (d : Draws) (hdis : dispatch lower g action parts d = some g1)
    (hrew : ∀ (i : Nat) (room : Room) (m : Monster), g.rooms[i]? = some room →
      room.Monster = some m → 0 ≤ m.Reward)
    (ha : 0 ≤ g.player.Attack) (he : 0 ≤ g.player.Experience) (hsmall : StatsSmall g) :
    StatsStep g g1 := by
  rcases dispatch_cases lower g g1 action parts d hdis with hm | hat | ht | rfl | ⟨n, rfl⟩ | rfl
  · exact stats_move g g1 action d hm
  · exact stats_attack g g1 d hat hrew he hsmall
  · exact stats_takeTreasure g g1 ht ha hsmall
  · exact statsStep_refl _
  · exact stats_useItem lower g n ha hsmall
  · exact statsStep_refl _

/-- C19: every operation (`showRoom`, `move`, `attack`, `takeTreasure`,
`useItem`, `checkLevelUp`, `processCommand`) preserves the player's stat
invariants attack >= 0, defense >= 0, level >= 1 and experience >= 0, given
that the rewards of the monsters are >= 0; no operation lowers level, attack
or defense, and the subtraction of the level-up leaves the experience >= 0.
The operations compute in 64-bit `int`, so the statement is for stats and
rewards far from overflow (at most `2^56`, `StatsSmall`). -/
theorem stats_preserved (lower : String → String) (g g1 : Game)
    (hop : Operation lower g g1)
    (hrew : ∀ (i : Nat) (room : Room) (m : Monster), g.rooms[i]? = some room →
      room.Monster = some m → 0 ≤ m.Reward)
    (ha : 0 ≤ g.player.Attack) (hd : 0 ≤ g.player.Defense) (hl : 1 ≤ g.player.Level)
    (he : 0 ≤ g.player.Experience) (hsmall : StatsSmall g) :
    0 ≤ g1.player.Attack ∧ 0 ≤ g1.player.Defense ∧ 1 ≤ g1.player.Level ∧
    0 ≤ g1.player.Experience ∧
    g.player.Level ≤ g1.player.Level ∧ g.player.Attack ≤ g1.player.Attack ∧
    g.player.Defense ≤ g1.player.Defense ∧
    0 ≤ (checkLevelUp g).player.Experience := by
  have hbound := hsmall
  obtain ⟨ha1, hd1, hl1, he1, _⟩ := hbound
  have hown := stats_checkLevelUp g ha (by omega) hd (by omega) hl hl1 he (by omega)
  have hstep : StatsStep g g1 →
      0 ≤ g1.player.Attack ∧ 0 ≤ g1.player.Defense ∧ 1 ≤ g1.player.Level ∧
      0 ≤ g1.player.Experience ∧
      g.player.Level ≤ g1.player.Level ∧ g.player.Attack ≤ g1.player.Attack ∧
      g.player.Defense ≤ g1.player.Defense ∧
      0 ≤ (checkLevelUp g).player.Experience := by
    intro hs
    obtain ⟨h1, h2, h3, h4, h5, h6⟩ := hs
    exact ⟨by omega, by omega, by omega, by omega, by omega, h1, by omega, hown.2.2.2⟩
  rcases hop with h | ⟨dir, d, h⟩ | ⟨d, h⟩ | h | ⟨n, rfl⟩ | rfl | ⟨c, d, h⟩
  · exact hstep (stats_showRoom g g1 h he hsmall)
  · exact hstep (stats_move g g1 dir d h)
  · exact hstep (stats_attack g g1 d h hrew he hsmall)
  · exact hstep (stats_takeTreasure g g1 h ha hsmall)
  · exact hstep (stats_useItem lower g n ha hsmall)
  · exact ⟨by omega, by omega, by omega, hown.2.2.2, hown.2.2.1, hown.1, hown.2.1, hown.2.2.2⟩
  · obtain ⟨action, g0, _, hdis, rfl⟩ := processCommand_cases lower g g1 c d h
    obtain ⟨h1, h2, h3, h4, h5, h6⟩ := stats_dispatch lower g g0 action _ d hdis hrew ha he hsmall
    have hlast := stats_checkLevelUp g0 (by omega) (by omega) (by omega) (by omega) (by omega)
      (by omega) (by omega) (by omega)
    exact ⟨by omega, by omega, by omega, hlast.2.2.2, by omega, by omega, by omega, hown.2.2.2⟩

theorem stats_preserved_witness :
    0 ≤ slainWolfGame.player.Attack ∧ 0 ≤ slainWolfGame.player.Defense ∧
    1 ≤ slainWolfGame.player.Level ∧ 0 ≤ slainWolfGame.player.Experience ∧
    firstBloodGame.player.Level ≤ slainWolfGame.player.Level ∧
    firstBloodGame.player.Attack ≤ slainWolfGame.player.Attack ∧
    firstBloodGame.player.Defense ≤ slainWolfGame.player.Defense ∧
    0 ≤ (checkLevelUp firstBloodGame).player.Experience :=
  stats_preserved lowerText firstBloodGame slainWolfGame
    (Or.inr (Or.inr (Or.inr (Or.inr (Or.inr (Or.inr
      ⟨"атака", ⟨0, 0, 9, 1, 0, 0⟩, by decide⟩))))))
    (by
      intro i room m hr hm
      have hlen : i < firstBloodGame.rooms.length := (List.getElem?_eq_some.mp hr).1
      have hfive : firstBloodGame.rooms.length = 5 := by decide
      have hcases : i = 0 ∨ i = 1 ∨ i = 2 ∨ i = 3 ∨ i = 4 := by omega
      rcases hcases with rfl | rfl | rfl | rfl | rfl <;>
        simp [firstBloodGame, forestGame, initGame] at hr <;>
        subst hr <;> simp at hm <;> subst hm <;> decide)
    (by decide) (by decide) (by decide) (by decide)
    ⟨by decide, by decide, by decide, by decide, by
      intro i room m hr hm
      have hlen : i < firstBloodGame.rooms.length := (List.getElem?_eq_some.mp hr).1
      have hfive : firstBloodGame.rooms.length = 5 := by decide
      have hcases : i = 0 ∨ i = 1 ∨ i = 2 ∨ i = 3 ∨ i = 4 := by omega
      rcases hcases with rfl | rfl | rfl | rfl | rfl <;>
        simp [firstBloodGame, forestGame, initGame] at hr <;>
        subst hr <;> simp at hm <;> subst hm <;> decide⟩

/-! ## The ledger of experience -/

/-- C20: in the fixed world the single `if` of `checkLevelUp` never leaves a
level-up pending.  In every reachable state the experience consumed by the
level-up, the experience held and the experience still to be earned
(5 rooms x 5, plus the rewards 25 and 50 while the monsters live) are at most
100 together, so the level is 1 or 2; and immediately after every
`processCommand` the experience is below `level * 100`. -/
theorem levelUp_never_pending (lower : String → String) (g : Game) (h : Reachable lower g) :
    1 ≤ g.player.Level ∧ g.player.Level ≤ 2 ∧ 0 ≤ g.player.Experience ∧
    (g.player.Level - 1) * 100 + g.player.Experience + potential g.rooms ≤ 100 ∧
    (g.player.Level - 1) * 100 + g.player.Experience ≤ 100 ∧
    (∀ command d g1, d.valid → processCommand lower g command d = some g1 →
      g1.player.Experience < g1.player.Level * 100) := by
  have hinv := gameInv_reachable lower g h
  have ht := hinv.ledger.total
  have he := hinv.ledger.experienceLower
  have hl := hinv.ledger.levelLower
  have hp := potential_nonneg g.rooms
  refine ⟨hl, by omega, he, ht, by omega, ?_⟩
  intro command d g1 hd hcmd
  obtain ⟨action, g0, _, hdis, rfl⟩ := processCommand_cases lower g g1 command d hcmd
  have h0 := gameInv_dispatch lower g g0 action _ d hinv hd hdis
  obtain ⟨_, _, hl0, hl1, he0, he1, _⟩ := gameInv_bounds g0 h0
  rw [checkLevelUp_small g0 h0]
  split
  · show g0.player.Experience - g0.player.Level * 100 < (g0.player.Level + 1) * 100
    omega
  · omega

theorem levelUp_never_pending_witness :
    1 ≤ slainWolfGame.player.Level ∧ slainWolfGame.player.Level ≤ 2 ∧
    (slainWolfGame.player.Level - 1) * 100 + slainWolfGame.player.Experience +
      potential slainWolfGame.rooms ≤ 100 := by
  obtain ⟨h1, h2, _, h3, _⟩ := levelUp_never_pending lowerText slainWolfGame
    (Reachable.command "атака" ⟨0, 0, 9, 1, 0, 0⟩
      (Reachable.command "атака" ⟨0, 0, 0, 0, 0, 7⟩
        (Reachable.command "север" ⟨5, 0, 0, 0, 0, 0⟩ Reachable.init (by decide)
          (by decide : processCommand lowerText initGame "север" ⟨5, 0, 0, 0, 0, 0⟩ =
            some forestGame))
        (by decide)
        (by decide : processCommand lowerText forestGame "атака" ⟨0, 0, 0, 0, 0, 7⟩ =
          some firstBloodGame))
      (by decide) (by decide))
  exact ⟨h1, h2, h3⟩

end TextRpg
